import Mathlib

/-! Shallow embedding of the 2D Fast Hartley Transform convolution core in
`source/blender/compositor/operations/COM_GlareFogGlowOperation.cc`.

Two embeddings are provided, both translated directly from the C source:

* a total functional model over buffers `ℕ → ℝ` (the 1D transform, the
  transpose step of the 2D transform, and the spectral multiplication),
  used for the algebraic claims about the transform; and
* a bounds-checked model over `List ℝ` in the `Option` monad, in which
  every buffer access is checked against the allocation size, used for
  the memory-safety and whole-`convolve` claims.  A `none` result models
  an out-of-bounds access (undefined behavior in the C source).

Machine integers (`unsigned int`) are modelled as `ℕ`, with reduction
modulo `2 ^ 32` made explicit where the C arithmetic can overflow
(`next_pow2` and the `2 * kernel_dim - 1` computation).  The `float` and
`double` arithmetic of the source is idealized over `ℝ`. -/

open Real

/-- Modulus of 32-bit `unsigned int` arithmetic. -/
def UINT_LIMIT : ℕ := 2 ^ 32

/-- The loop `while (x >>= 1) { ++(*L2); }` in `next_pow2`: repeatedly
halves `x`, counting the iterations on top of the accumulator `L`. -/
def l2loop (x L : ℕ) : ℕ :=
  if x / 2 = 0 then L else l2loop (x / 2) (L + 1)
termination_by x
decreasing_by omega

/-- C function `next_pow2` (COM_GlareFogGlowOperation.cc, lines 15-28):
returns the next power of two of `x` together with its log2.
`x & (x - 1)` is the non-power-of-two test; the shifts building the
result are 32-bit and are reduced modulo `2 ^ 32`. -/
def next_pow2 (x : ℕ) : ℕ × ℕ :=
  let x_notpow2 := x &&& (x - 1)
  let L2 := l2loop x 0
  let pw := (1 <<< L2) % UINT_LIMIT
  if x_notpow2 = 0 then (pw, L2) else ((pw <<< 1) % UINT_LIMIT, L2 + 1)

/-- The padded-transform sizes computed at the top of `convolve`
(lines 262-267): `w2 = next_pow2(2*kw - 1)` with its log, and likewise
for the height.  Each pair is `(size, log2 size)`. -/
def convolveSizes (kw kh : ℕ) : (ℕ × ℕ) × (ℕ × ℕ) :=
  (next_pow2 ((2 * kw - 1) % UINT_LIMIT), next_pow2 ((2 * kh - 1) % UINT_LIMIT))

/-! ### Arithmetic facts about `l2loop` and `next_pow2` -/

lemma l2loop_acc (x : ℕ) : ∀ L, l2loop x L = L + l2loop x 0 := by
  induction x using Nat.strong_induction_on with
  | _ x ih =>
    intro L
    by_cases h : x / 2 = 0
    · rw [l2loop, if_pos h]
      rw [l2loop, if_pos h]
      omega
    · rw [l2loop, if_neg h]
      conv_rhs => rw [l2loop, if_neg h]
      rw [ih (x / 2) (by omega) (L + 1), ih (x / 2) (by omega) 1]
      omega

lemma l2loop_bounds (x : ℕ) (hx : 1 ≤ x) :
    2 ^ l2loop x 0 ≤ x ∧ x < 2 ^ (l2loop x 0 + 1) := by
  induction x using Nat.strong_induction_on with
  | _ x ih =>
    rw [l2loop]
    by_cases h : x / 2 = 0
    · have : x = 1 := by omega
      subst this
      simp
    · simp only [h, if_false]
      rw [l2loop_acc]
      have h2 : 1 ≤ x / 2 := by omega
      obtain ⟨h3, h4⟩ := ih (x / 2) (by omega) h2
      constructor
      · calc 2 ^ (1 + l2loop (x / 2) 0) = 2 * 2 ^ l2loop (x / 2) 0 := by ring
          _ ≤ 2 * (x / 2) := by omega
          _ ≤ x := by omega
      · calc x < 2 * (x / 2) + 2 := by omega
          _ ≤ 2 * 2 ^ (l2loop (x / 2) 0 + 1) := by omega
          _ = 2 ^ (1 + l2loop (x / 2) 0 + 1) := by ring

lemma l2loop_unique (x f : ℕ) (h1 : 2 ^ f ≤ x) (h2 : x < 2 ^ (f + 1)) :
    l2loop x 0 = f := by
  have hx : 1 ≤ x := le_trans (Nat.one_le_two_pow) h1
  obtain ⟨b1, b2⟩ := l2loop_bounds x hx
  by_contra hne
  rcases Nat.lt_or_ge (l2loop x 0) f with h | h
  · have : 2 ^ (l2loop x 0 + 1) ≤ 2 ^ f := Nat.pow_le_pow_right (by omega) (by omega)
    omega
  · have : 2 ^ (f + 1) ≤ 2 ^ l2loop x 0 := Nat.pow_le_pow_right (by omega) (by omega)
    omega

lemma testBit_of_bounds {m k : ℕ} (h1 : 2 ^ k ≤ m) (h2 : m < 2 ^ (k + 1)) :
    m.testBit k = true := by
  have hd : m / 2 ^ k = 1 := by
    have hdd : 2 ^ k / 2 ^ k ≤ m / 2 ^ k := Nat.div_le_div_right h1
    rw [Nat.div_self (Nat.pos_of_ne_zero (by positivity))] at hdd
    have h3 : m / 2 ^ k < 2 := by
      rw [Nat.div_lt_iff_lt_mul (by positivity)]
      calc m < 2 ^ (k + 1) := h2
        _ = 2 * 2 ^ k := by ring
        _ ≤ 2 * 2 ^ k := le_refl _
    omega
  rw [Nat.testBit_to_div_mod, hd]
  decide

/-- The power-of-two test of the C source: for `x ≥ 1`,
`x & (x - 1) = 0` exactly when `x` is the power of two `2 ^ l2loop x 0`. -/
lemma land_pred_eq_zero_iff (x : ℕ) (hx : 1 ≤ x) :
    x &&& (x - 1) = 0 ↔ x = 2 ^ l2loop x 0 := by
  obtain ⟨b1, b2⟩ := l2loop_bounds x hx
  constructor
  · intro h
    by_contra hne
    have hgt : 2 ^ l2loop x 0 < x := lt_of_le_of_ne b1 (fun e => hne e.symm)
    have ht1 : x.testBit (l2loop x 0) = true := testBit_of_bounds b1 b2
    have ht2 : (x - 1).testBit (l2loop x 0) = true :=
      testBit_of_bounds (by omega) (by omega)
    have : (x &&& (x - 1)).testBit (l2loop x 0) = true := by
      rw [Nat.testBit_and, ht1, ht2]; rfl
    rw [h] at this
    simp [Nat.zero_testBit] at this
  · intro h
    apply Nat.eq_of_testBit_eq
    intro i
    rw [Nat.testBit_and, Nat.zero_testBit]
    by_cases hi : i = l2loop x 0
    · have hz : (x - 1).testBit i = false := by
        rw [h, hi]
        have hlt : (2 : ℕ) ^ l2loop x 0 - 1 < 2 ^ l2loop x 0 := by
          have : (1 : ℕ) ≤ 2 ^ l2loop x 0 := Nat.one_le_two_pow
          omega
        rw [Nat.testBit_lt_two_pow hlt]
      rw [hz, Bool.and_false]
    · have hz : x.testBit i = false := by
        rw [h]
        rw [Nat.testBit_two_pow_of_ne (fun e => hi e.symm)]
      rw [hz, Bool.false_and]

lemma pow_le_pow_exp_le {f j : ℕ} (h : 2 ^ f ≤ 2 ^ j) : f ≤ j := by
  by_contra hc
  have h1 : j + 1 ≤ f := by omega
  have h2 : (2 : ℕ) ^ (j + 1) ≤ 2 ^ f := Nat.pow_le_pow_right (by norm_num) h1
  have h3 : (2 : ℕ) ^ (j + 1) = 2 ^ j * 2 := pow_succ 2 j
  have h4 : (1 : ℕ) ≤ 2 ^ j := Nat.one_le_two_pow
  omega

/-- Unfolded form of `next_pow2` on inputs without 32-bit overflow:
for `1 ≤ x ≤ 2 ^ 31` it returns `(2 ^ L2, L2)` with `2 ^ L2` the least
power of two that is `≥ x`. -/
lemma next_pow2_of_le_two_pow_31 (x : ℕ) (hx : 1 ≤ x) (hx31 : x ≤ 2 ^ 31) :
    (next_pow2 x).1 = 2 ^ (next_pow2 x).2 ∧ x ≤ (next_pow2 x).1 ∧
    ∀ j : ℕ, x ≤ 2 ^ j → (next_pow2 x).2 ≤ j := by
  obtain ⟨b1, b2⟩ := l2loop_bounds x hx
  set f := l2loop x 0 with hf
  have hf31 : f ≤ 31 := by
    apply pow_le_pow_exp_le
    exact le_trans b1 hx31
  by_cases hpow : x = 2 ^ f
  · have hland : x &&& (x - 1) = 0 := (land_pred_eq_zero_iff x hx).2 hpow
    have hres : next_pow2 x = ((1 <<< f) % UINT_LIMIT, f) := by
      rw [next_pow2]
      simp [← hf, hland]
    have hsh : (1 <<< f) % UINT_LIMIT = 2 ^ f := by
      rw [Nat.shiftLeft_eq, one_mul, UINT_LIMIT]
      exact Nat.mod_eq_of_lt (Nat.pow_lt_pow_right (by norm_num) (by omega))
    rw [hres, hsh]
    refine ⟨rfl, le_of_eq hpow, ?_⟩
    intro j hj
    exact pow_le_pow_exp_le (hpow ▸ hj)
  · have hland : x &&& (x - 1) ≠ 0 := by
      intro hz
      exact hpow ((land_pred_eq_zero_iff x hx).1 hz)
    have hxlt : 2 ^ f < x := lt_of_le_of_ne b1 (fun e => hpow e.symm)
    have hf30 : f ≤ 30 := by
      have h30 : 2 ^ f < 2 ^ 31 := lt_of_lt_of_le hxlt hx31
      by_contra hc
      have : (2 : ℕ) ^ 31 ≤ 2 ^ f := Nat.pow_le_pow_right (by norm_num) (by omega)
      omega
    have hres : next_pow2 x = (((1 <<< f) % UINT_LIMIT) <<< 1 % UINT_LIMIT, f + 1) := by
      rw [next_pow2]
      simp [← hf, hland]
    have hsh : ((1 <<< f) % UINT_LIMIT) <<< 1 % UINT_LIMIT = 2 ^ (f + 1) := by
      have h1 : (1 : ℕ) <<< f = 2 ^ f := by rw [Nat.shiftLeft_eq, one_mul]
      have h2 : (2 : ℕ) ^ f < UINT_LIMIT := by
        rw [UINT_LIMIT]
        exact Nat.pow_lt_pow_right (by norm_num) (by omega)
      rw [h1, Nat.mod_eq_of_lt h2, Nat.shiftLeft_eq, pow_one]
      have h3 : (2 : ℕ) ^ f * 2 = 2 ^ (f + 1) := (pow_succ 2 f).symm
      rw [h3, UINT_LIMIT]
      exact Nat.mod_eq_of_lt (Nat.pow_lt_pow_right (by norm_num) (by omega))
    rw [hres, hsh]
    refine ⟨rfl, le_of_lt b2, ?_⟩
    intro j hj
    have hlt : 2 ^ f < 2 ^ j := lt_of_lt_of_le hxlt hj
    have : f < j := by
      by_contra hc
      have : (2 : ℕ) ^ j ≤ 2 ^ f := Nat.pow_le_pow_right (by norm_num) (by omega)
      omega
    omega

/-- C7 (amended): for every positive `x` up to `2 ^ 31` (so that the
32-bit shifts in the C source do not overflow), `next_pow2 x` returns the
smallest power of two `≥ x` together with its base-2 logarithm; and
consequently, for kernel dimensions up to `2 ^ 30`, `convolve` sets
`(w2, h2)` to the smallest powers of two `≥ 2*kw - 1` and `≥ 2*kh - 1`,
with their logarithms. -/
theorem next_pow2_convolve_sizes_correct :
    (∀ x : ℕ, 1 ≤ x → x ≤ 2 ^ 31 →
      (next_pow2 x).1 = 2 ^ (next_pow2 x).2 ∧ x ≤ (next_pow2 x).1 ∧
      ∀ j : ℕ, x ≤ 2 ^ j → (next_pow2 x).2 ≤ j) ∧
    (∀ kw kh : ℕ, 1 ≤ kw → kw ≤ 2 ^ 30 → 1 ≤ kh → kh ≤ 2 ^ 30 →
      ((convolveSizes kw kh).1.1 = 2 ^ (convolveSizes kw kh).1.2 ∧
        2 * kw - 1 ≤ (convolveSizes kw kh).1.1 ∧
        ∀ j : ℕ, 2 * kw - 1 ≤ 2 ^ j → (convolveSizes kw kh).1.2 ≤ j) ∧
      ((convolveSizes kw kh).2.1 = 2 ^ (convolveSizes kw kh).2.2 ∧
        2 * kh - 1 ≤ (convolveSizes kw kh).2.1 ∧
        ∀ j : ℕ, 2 * kh - 1 ≤ 2 ^ j → (convolveSizes kw kh).2.2 ≤ j)) := by
  have main := next_pow2_of_le_two_pow_31
  refine ⟨main, ?_⟩
  intro kw kh hkw1 hkw2 hkh1 hkh2
  have hmod : ∀ k : ℕ, 1 ≤ k → k ≤ 2 ^ 30 → (2 * k - 1) % UINT_LIMIT = 2 * k - 1 := by
    intro k h1 h2
    apply Nat.mod_eq_of_lt
    have : (2 : ℕ) ^ 30 * 2 = 2 ^ 31 := by norm_num
    have : (2 : ℕ) ^ 31 < 2 ^ 32 := by norm_num
    rw [UINT_LIMIT]
    omega
  have hb : ∀ k : ℕ, 1 ≤ k → k ≤ 2 ^ 30 → 2 * k - 1 ≤ 2 ^ 31 := by
    intro k h1 h2
    have : (2 : ℕ) ^ 30 * 2 = 2 ^ 31 := by norm_num
    omega
  constructor
  · have := main (2 * kw - 1) (by omega) (hb kw hkw1 hkw2)
    simpa [convolveSizes, hmod kw hkw1 hkw2] using this
  · have := main (2 * kh - 1) (by omega) (hb kh hkh1 hkh2)
    simpa [convolveSizes, hmod kh hkh1 hkh2] using this

/-- C7 witness: the amended theorem applied at `x = 5` and a `3 × 2`
kernel, with all hypotheses discharged concretely. -/
theorem next_pow2_convolve_sizes_correct_witness :
    ((1 ≤ 5 ∧ 5 ≤ 2 ^ 31) ∧
      (next_pow2 5).1 = 2 ^ (next_pow2 5).2 ∧ 5 ≤ (next_pow2 5).1) ∧
    ((1 ≤ 3 ∧ 3 ≤ 2 ^ 30) ∧
      2 * 3 - 1 ≤ (convolveSizes 3 2).1.1) := by
  refine ⟨⟨⟨by norm_num, by norm_num⟩, ?_, ?_⟩, ⟨⟨by norm_num, by norm_num⟩, ?_⟩⟩
  · exact (next_pow2_convolve_sizes_correct.1 5 (by norm_num) (by norm_num)).1
  · exact (next_pow2_convolve_sizes_correct.1 5 (by norm_num) (by norm_num)).2.1
  · exact ((next_pow2_convolve_sizes_correct.2 3 2 (by norm_num) (by norm_num)
      (by norm_num) (by norm_num)).1).2.1

/-- C7 counterexample: at `x = 2 ^ 31 + 1` the 32-bit shifts in
`next_pow2` overflow and the function returns `0`, which is not a power
of two `≥ x`; so the claim is false for general positive `x`. -/
theorem next_pow2_overflow_cex :
    ¬ (2 ^ 31 + 1 ≤ (next_pow2 (2 ^ 31 + 1)).1) := by
  have hl2 : l2loop (2 ^ 31 + 1) 0 = 31 := l2loop_unique _ 31 (by norm_num) (by norm_num)
  have hpow : (2 : ℕ) ^ 31 + 1 ≠ 2 ^ l2loop (2 ^ 31 + 1) 0 := by
    rw [hl2]
    omega
  have hland : (2 ^ 31 + 1) &&& (2 ^ 31 + 1 - 1) ≠ 0 := by
    intro hz
    exact hpow ((land_pred_eq_zero_iff (2 ^ 31 + 1) (by norm_num)).1 hz)
  have hres : next_pow2 (2 ^ 31 + 1) = (0, 32) := by
    rw [next_pow2]
    simp only [hl2, hland, if_neg hland]
    have h1 : (1 : ℕ) <<< 31 = 2 ^ 31 := by rw [Nat.shiftLeft_eq, one_mul]
    have h2 : (2 : ℕ) ^ 31 % UINT_LIMIT = 2 ^ 31 := by
      apply Nat.mod_eq_of_lt
      rw [UINT_LIMIT]
      norm_num
    rw [h1, h2, Nat.shiftLeft_eq, pow_one]
    have h3 : (2 : ℕ) ^ 31 * 2 = 2 ^ 32 := by norm_num
    rw [h3, UINT_LIMIT]
    simp
  rw [hres]
  omega

/-! ### Functional model of the 1D FHT (total, buffers as `ℕ → ℝ`)

The in-place C routine mutates a `fREAL *` array; here a buffer is a
total function `ℕ → ℝ` and each store produces an updated function.
Loops `for (k = s; k < len; k += istep)` become folds over
`List.range' s count istep` with `count` the exact iteration count
`⌈(len - s) / istep⌉`. -/

/-- Pointwise store `d[i] = v` on a functional buffer. -/
def upd (d : ℕ → ℝ) (i : ℕ) (v : ℝ) : ℕ → ℝ := fun p => if p = i then v else d p

/-- The `SWAP(fREAL, d[i], d[j])` macro. -/
def swapB (d : ℕ → ℝ) (i j : ℕ) : ℕ → ℝ := upd (upd d i (d j)) j (d i)

/-- Fuelled loop body of `revbin_upd`; the mask `h` halves on every
recursive call, so fuel `h + 1` always suffices. -/
def revbin_go : ℕ → ℕ → ℕ → ℕ
  | 0, r, _ => r
  | fuel + 1, r, h =>
    if h = 0 then r
    else if (r ^^^ h) &&& h ≠ 0 then r ^^^ h else revbin_go fuel (r ^^^ h) (h / 2)

/-- C function `revbin_upd` (lines 34-40): bit-reversed increment,
`while (!((r ^= h) & h)) h >>= 1; return r`.  The `h = 0` guard makes
the model total; the C loop does not terminate in that (unreached)
case. -/
def revbin_upd (r h : ℕ) : ℕ := revbin_go (h + 1) r h

lemma revbin_go_fuel : ∀ fuel fuel2 r h, h < fuel → h < fuel2 →
    revbin_go fuel r h = revbin_go fuel2 r h := by
  intro fuel
  induction fuel with
  | zero => intro _ _ _ h1 _; omega
  | succ f ih =>
    intro fuel2 r h h1 h2
    cases fuel2 with
    | zero => omega
    | succ f2 =>
      simp only [revbin_go]
      by_cases hh : h = 0
      · rw [if_pos hh, if_pos hh]
      · rw [if_neg hh, if_neg hh]
        by_cases hl : (r ^^^ h) &&& h ≠ 0
        · rw [if_pos hl, if_pos hl]
        · rw [if_neg hl, if_neg hl]
          exact ih f2 (r ^^^ h) (h / 2) (by omega) (by omega)

/-- The defining recurrence of `revbin_upd`. -/
lemma revbin_upd_eq (r h : ℕ) :
    revbin_upd r h = if h = 0 then r
      else if (r ^^^ h) &&& h ≠ 0 then r ^^^ h else revbin_upd (r ^^^ h) (h / 2) := by
  show revbin_go (h + 1) r h = _
  by_cases hh : h = 0
  · simp only [revbin_go, if_pos hh]
  · simp only [revbin_go, if_neg hh]
    by_cases hl : (r ^^^ h) &&& h ≠ 0
    · rw [if_pos hl, if_pos hl]
    · rw [if_neg hl, if_neg hl]
      exact revbin_go_fuel h (h / 2 + 1) (r ^^^ h) (h / 2) (by omega) (by omega)

/-- One iteration of the bit-reversal loop of `FHT` (lines 50-56):
update `j` by `revbin_upd` and swap `data[i]` with `data[j]` when
`j > i`. -/
def brStep (Nh : ℕ) (st : ℕ × (ℕ → ℝ)) (i : ℕ) : ℕ × (ℕ → ℝ) :=
  let j := revbin_upd st.1 Nh
  (j, if j > i then swapB st.2 i j else st.2)

/-- Lines 48-57 of `FHT`: the bit-reversal permutation pass.  The loop
variable `j` (updated by `revbin_upd`) is threaded through the fold
together with the buffer; `i` runs over `1 .. len-2`. -/
def brPass (Nh len : ℕ) (d : ℕ → ℝ) : ℕ → ℝ :=
  ((List.range' 1 (len - 2) 1).foldl (brStep Nh) (0, d)).2

/-- Lines 63-67 and 92-98 of `FHT`: the coefficient-free butterfly
`t1 = data_n[k]; data_n[k] = data[k] - t1; data[k] += t1` at absolute
index `k` (with `data_n = data + n`). -/
def butterfly0 (n k : ℕ) (d : ℕ → ℝ) : ℕ → ℝ :=
  let t1 := d (k + n)
  upd (upd d (k + n) (d k - t1)) k (d k + t1)

/-- Lines 78-83 of `FHT`: the rotated butterfly on the pair of offsets
`bl` and `bl + bd` inside one block (`data_nbd = data_n + bd`,
`data_bd = data + bd`), with coefficients `fc`, `fs`. -/
def butterflyPair (n k bd : ℕ) (fc fs : ℝ) (d : ℕ → ℝ) : ℕ → ℝ :=
  let t1 := fc * d (k + n) + fs * d (k + n + bd)
  let t2 := fs * d (k + n) - fc * d (k + n + bd)
  upd (upd (upd (upd d
    (k + n) (d k - t1))
    (k + n + bd) (d (k + bd) - t2))
    k (d k + t1))
    (k + bd) (d (k + bd) + t2)

/-- One iteration of the `bl` loop of a butterfly stage (lines 74-89 of
`FHT`): run the strided inner `k` loop with the current coefficients
`(fc, fs)` and mirror offset `bd`, then update them exactly as in the
source (`tt = fc*dc - fs*ds; fs = fs*dc + fc*ds; fc = tt; bd -= 2`). -/
def blStep (len n : ℕ) (dc ds : ℝ) (st : ℝ × ℝ × ℕ × (ℕ → ℝ)) (bl : ℕ) :
    ℝ × ℝ × ℕ × (ℕ → ℝ) :=
  let fc := st.1
  let fs := st.2.1
  let bd := st.2.2.1
  let dd := st.2.2.2
  let istep := 2 * n
  let cnt := (len - bl + istep - 1) / istep
  let dd2 := (List.range cnt).foldl
    (fun b2 b => butterflyPair n (b * istep + bl) bd fc fs b2) dd
  (fc * dc - fs * ds, fs * dc + fc * ds, bd - 2, dd2)

/-- Lines 70-89 of `FHT`: the `bl` loop of one butterfly stage,
carrying the incrementally rotated coefficients `(fc, fs)` and the
mirror offset `bd`, starting from `(dc, ds, n - 2)`. -/
def blPass (len n : ℕ) (dc ds : ℝ) (d : ℕ → ℝ) : ℕ → ℝ :=
  ((List.range' 1 (n / 2 - 1) 1).foldl (blStep len n dc ds) (dc, ds, n - 2, d)).2.2.2

/-- Lines 59-101 of `FHT`: one iteration of the `do { ... } while`
stage loop, at stage half-width `n` and angle `a` (so `istep = 2n`). -/
noncomputable def stagePass (len n : ℕ) (a : ℝ) (d : ℕ → ℝ) : ℕ → ℝ :=
  let istep := 2 * n
  let cnt0 := (len + istep - 1) / istep
  let d1 := (List.range cnt0).foldl (fun dd b => butterfly0 n (b * istep) dd) d
  let d2 := if 2 < n then
      blPass len n (Real.cos a) (Real.sqrt (1 - Real.cos a * Real.cos a)) d1
    else d1
  if 1 < n then
    let cnt2 := (len - n / 2 + istep - 1) / istep
    (List.range cnt2).foldl (fun dd b => butterfly0 n (b * istep + n / 2) dd) d2
  else d2

/-- The `do { ... } while (n < len)` loop of `FHT`: the body runs once,
then repeats with `n := 2n`, `a := a/2` while `n < len`.  (The `0 < n`
guard only makes the recursion well-founded; `FHT` calls it with
`n = 1`.) -/
noncomputable def stageLoop (len n : ℕ) (a : ℝ) (d : ℕ → ℝ) : ℕ → ℝ :=
  let d1 := stagePass len n a d
  if h : 0 < n ∧ 2 * n < len then stageLoop len (2 * n) (a / 2) d1 else d1
termination_by len - n
decreasing_by omega

/-- C function `FHT` (lines 42-110): in-place radix-2 1D Hartley
transform of the `2 ^ M` leading samples of the buffer; in inverse mode
every transformed sample is scaled by `1 / 2 ^ M`. -/
noncomputable def FHT (d : ℕ → ℝ) (M : ℕ) (inverse : Bool) : ℕ → ℝ :=
  let len := 2 ^ M
  let d1 := brPass (len / 2) len d
  let d2 := stageLoop len 1 Real.pi d1
  if inverse then fun p => if p < len then d2 p * (1 / (len : ℝ)) else d2 p else d2

/-- C8: for a length-2 buffer (`M = 1`), the forward FHT of `[a, b]`
is `[a+b, a-b]`. -/
theorem FHT_length_two_forward (d : ℕ → ℝ) :
    FHT d 1 false 0 = d 0 + d 1 ∧ FHT d 1 false 1 = d 0 - d 1 := by
  constructor <;>
    simp [FHT, brPass, brStep, stageLoop, stagePass, butterfly0, upd, List.range_succ]

/-! ### Bit reversal -/

/-- Reversal of the low `M` bits of `i` (specification function for the
bit-reversal permutation pass of `FHT`). -/
def bitrev (M : ℕ) (i : ℕ) : ℕ :=
  match M with
  | 0 => 0
  | M + 1 => (i % 2) * 2 ^ M + bitrev M (i / 2)

lemma bitrev_lt (M i : ℕ) : bitrev M i < 2 ^ M := by
  induction M generalizing i with
  | zero => simp [bitrev]
  | succ M ih =>
    have h1 := ih (i / 2)
    have h2 : i % 2 ≤ 1 := by omega
    have : (i % 2) * 2 ^ M ≤ 2 ^ M := by
      calc (i % 2) * 2 ^ M ≤ 1 * 2 ^ M := Nat.mul_le_mul_right _ h2
        _ = 2 ^ M := one_mul _
    simp only [bitrev]
    have h3 : (2 : ℕ) ^ (M + 1) = 2 ^ M + 2 ^ M := by ring
    omega

lemma bitrev_two_mul (M j : ℕ) : bitrev (M + 1) (2 * j) = bitrev M j := by
  simp [bitrev, Nat.mul_div_cancel_left, Nat.mul_mod_right]

lemma bitrev_two_mul_add_one (M j : ℕ) :
    bitrev (M + 1) (2 * j + 1) = 2 ^ M + bitrev M j := by
  have h1 : (2 * j + 1) % 2 = 1 := by omega
  have h2 : (2 * j + 1) / 2 = j := by omega
  simp [bitrev, h1, h2]

lemma bitrev_high (M : ℕ) : ∀ b j, b ≤ 1 → j < 2 ^ M →
    bitrev (M + 1) (b * 2 ^ M + j) = 2 * bitrev M j + b := by
  induction M with
  | zero =>
    intro b j hb hj
    interval_cases j
    interval_cases b
    · simp [bitrev]
    · simp [bitrev]
  | succ M ih =>
    intro b j hb hj
    have hdiv : (b * 2 ^ (M + 1) + j) / 2 = b * 2 ^ M + j / 2 := by
      have : b * 2 ^ (M + 1) = 2 * (b * 2 ^ M) := by ring
      omega
    have hmod : (b * 2 ^ (M + 1) + j) % 2 = j % 2 := by
      have : b * 2 ^ (M + 1) = 2 * (b * 2 ^ M) := by ring
      omega
    have hj2 : j / 2 < 2 ^ M := by
      have : (2 : ℕ) ^ (M + 1) = 2 * 2 ^ M := by ring
      omega
    show (b * 2 ^ (M + 1) + j) % 2 * 2 ^ (M + 1) + bitrev (M + 1) ((b * 2 ^ (M + 1) + j) / 2)
        = 2 * bitrev (M + 1) j + b
    rw [hdiv, hmod, ih b (j / 2) hb hj2]
    show j % 2 * 2 ^ (M + 1) + (2 * bitrev M (j / 2) + b)
        = 2 * (j % 2 * 2 ^ M + bitrev M (j / 2)) + b
    ring

lemma bitrev_bitrev (M : ℕ) : ∀ i, i < 2 ^ M → bitrev M (bitrev M i) = i := by
  induction M with
  | zero => intro i hi; interval_cases i; simp [bitrev]
  | succ M ih =>
    intro i hi
    have hlt : bitrev M (i / 2) < 2 ^ M := bitrev_lt M (i / 2)
    have hmod : i % 2 ≤ 1 := by omega
    have hi2 : i / 2 < 2 ^ M := by
      have : (2 : ℕ) ^ (M + 1) = 2 * 2 ^ M := by ring
      omega
    show bitrev (M + 1) (i % 2 * 2 ^ M + bitrev M (i / 2)) = i
    rw [bitrev_high M (i % 2) (bitrev M (i / 2)) hmod hlt, ih (i / 2) hi2]
    omega

/-! XOR and AND facts used by the `revbin_upd` analysis. -/

lemma xor_two_pow_of_lt {a k : ℕ} (h : a < 2 ^ k) : a ^^^ 2 ^ k = 2 ^ k + a := by
  apply Nat.eq_of_testBit_eq
  intro i
  rw [Nat.testBit_xor]
  rcases Nat.lt_trichotomy i k with hik | rfl | hik
  · rw [Nat.testBit_two_pow_of_ne (by omega), Nat.testBit_two_pow_add_gt hik]
    simp
  · rw [Nat.testBit_two_pow_self, Nat.testBit_two_pow_add_eq,
      Nat.testBit_lt_two_pow h]
    simp
  · have h1 : a.testBit i = false := Nat.testBit_lt_two_pow (by
      calc a < 2 ^ k := h
        _ ≤ 2 ^ i := Nat.pow_le_pow_right (by norm_num) (by omega))
    have h2 : (2 ^ k + a).testBit i = false := Nat.testBit_lt_two_pow (by
      have : (2 : ℕ) ^ k + a < 2 ^ (k + 1) := by
        have : (2 : ℕ) ^ (k + 1) = 2 ^ k + 2 ^ k := by ring
        omega
      calc 2 ^ k + a < 2 ^ (k + 1) := this
        _ ≤ 2 ^ i := Nat.pow_le_pow_right (by norm_num) (by omega))
    rw [h1, h2, Nat.testBit_two_pow_of_ne (by omega)]
    simp

lemma two_pow_add_xor {a k : ℕ} (h : a < 2 ^ k) : (2 ^ k + a) ^^^ 2 ^ k = a := by
  have h1 : a ^^^ 2 ^ k = 2 ^ k + a := xor_two_pow_of_lt h
  calc (2 ^ k + a) ^^^ 2 ^ k = (a ^^^ 2 ^ k) ^^^ 2 ^ k := by rw [h1]
    _ = a ^^^ (2 ^ k ^^^ 2 ^ k) := Nat.xor_assoc a _ _
    _ = a ^^^ 0 := by rw [Nat.xor_self]
    _ = a := Nat.xor_zero a

lemma land_two_pow_of_lt {a k : ℕ} (h : a < 2 ^ k) : a &&& 2 ^ k = 0 := by
  apply Nat.eq_of_testBit_eq
  intro i
  rw [Nat.testBit_and, Nat.zero_testBit]
  rcases eq_or_ne k i with rfl | hne
  · rw [Nat.testBit_lt_two_pow h]
    simp
  · rw [Nat.testBit_two_pow_of_ne hne]
    simp

lemma two_pow_add_land_ne_zero {a k : ℕ} (h : a < 2 ^ k) :
    (2 ^ k + a) &&& 2 ^ k ≠ 0 := by
  intro hz
  have : ((2 ^ k + a) &&& 2 ^ k).testBit k = false := by
    rw [hz, Nat.zero_testBit]
  rw [Nat.testBit_and, Nat.testBit_two_pow_self, Nat.testBit_two_pow_add_eq,
    Nat.testBit_lt_two_pow h] at this
  simp at this

/-- Correctness of the bit-reversed increment: starting from the
reversal of `i`, one call of `revbin_upd` with the top-bit mask produces
the reversal of `i + 1`. -/
lemma revbin_upd_incr : ∀ M, 1 ≤ M → ∀ i, i + 1 < 2 ^ M →
    revbin_upd (bitrev M i) (2 ^ (M - 1)) = bitrev M (i + 1) := by
  intro M
  induction M with
  | zero => omega
  | succ M ih =>
    intro _ i hi
    have hpos : ¬ ((2 : ℕ) ^ M = 0) := by positivity
    have hm : (2 : ℕ) ^ (M + 1 - 1) = 2 ^ M := by norm_num
    rcases Nat.even_or_odd i with ⟨j, hj⟩ | ⟨j, hj⟩
    · -- i = 2j even: the top bit of the reversal is clear; one toggle sets it.
      subst hj
      have hj2 : j < 2 ^ M := by
        have : (2 : ℕ) ^ (M + 1) = 2 * 2 ^ M := by ring
        omega
      have hbr : bitrev (M + 1) (j + j) = bitrev M j := by
        have h2 : j + j = 2 * j := by ring
        rw [h2, bitrev_two_mul]
      have hlt : bitrev M j < 2 ^ M := bitrev_lt M j
      have hxor : bitrev M j ^^^ 2 ^ M = 2 ^ M + bitrev M j := xor_two_pow_of_lt hlt
      have hland : (bitrev M j ^^^ 2 ^ M) &&& 2 ^ M ≠ 0 := by
        rw [hxor]
        exact two_pow_add_land_ne_zero hlt
      rw [hbr, revbin_upd_eq, hm, if_neg hpos, if_pos hland]
      have h1 : j + j + 1 = 2 * j + 1 := by ring
      rw [h1, bitrev_two_mul_add_one, hxor]
    · -- i = 2j+1 odd: the toggle clears the set top bit and the loop
      -- recurses with the next mask on the remaining bits.
      subst hj
      have hM1 : 1 ≤ M := by
        by_contra hM0
        have : M = 0 := by omega
        subst this
        simp [pow_succ, pow_zero] at hi
        omega
      have hj2 : j + 1 < 2 ^ M := by
        have : (2 : ℕ) ^ (M + 1) = 2 * 2 ^ M := by ring
        omega
      have hlt : bitrev M j < 2 ^ M := bitrev_lt M j
      have hxor : (2 ^ M + bitrev M j) ^^^ 2 ^ M = bitrev M j := two_pow_add_xor hlt
      have hland : ¬ (((2 ^ M + bitrev M j) ^^^ 2 ^ M) &&& 2 ^ M ≠ 0) := by
        rw [hxor]
        simp [land_two_pow_of_lt hlt]
      have h2M : (2 : ℕ) ^ M / 2 = 2 ^ (M - 1) := by
        obtain ⟨M', rfl⟩ : ∃ M', M = M' + 1 := ⟨M - 1, by omega⟩
        rw [pow_succ, Nat.mul_div_cancel _ (by norm_num)]
        norm_num
      rw [bitrev_two_mul_add_one, revbin_upd_eq, hm, if_neg hpos, if_neg hland,
        hxor, h2M, ih hM1 j hj2]
      have h1 : 2 * j + 1 + 1 = 2 * (j + 1) := by ring
      rw [h1, bitrev_two_mul]

lemma bitrev_zero (M : ℕ) : bitrev M 0 = 0 := by
  induction M with
  | zero => rfl
  | succ M ih => simp [bitrev, ih]

lemma bitrev_all_ones (M : ℕ) : bitrev M (2 ^ M - 1) = 2 ^ M - 1 := by
  induction M with
  | zero => rfl
  | succ M ih =>
    have h1 : (2 : ℕ) ^ (M + 1) = 2 * 2 ^ M := by ring
    have h2 : (1 : ℕ) ≤ 2 ^ M := Nat.one_le_two_pow
    have hmod : (2 ^ (M + 1) - 1) % 2 = 1 := by omega
    have hdiv : (2 ^ (M + 1) - 1) / 2 = 2 ^ M - 1 := by omega
    show (2 ^ (M + 1) - 1) % 2 * 2 ^ M + bitrev M ((2 ^ (M + 1) - 1) / 2) = 2 ^ (M + 1) - 1
    rw [hmod, hdiv, ih]
    omega

lemma brStep_fst (Nh : ℕ) (st : ℕ × (ℕ → ℝ)) (i : ℕ) :
    (brStep Nh st i).1 = revbin_upd st.1 Nh := rfl

lemma brStep_snd (Nh : ℕ) (st : ℕ × (ℕ → ℝ)) (i : ℕ) :
    (brStep Nh st i).2 =
      if revbin_upd st.1 Nh > i then swapB st.2 i (revbin_upd st.1 Nh) else st.2 := rfl

lemma swapB_apply (f : ℕ → ℝ) (i j p : ℕ) :
    swapB f i j p = if p = j then f i else if p = i then f j else f p := by
  by_cases h1 : p = j
  · subst h1
    simp [swapB, upd]
  · by_cases h2 : p = i
    · subst h2
      simp [swapB, upd, h1]
    · simp [swapB, upd, h1, h2]

/-- The running index `j` of the bit-reversal loop equals `bitrev M i`
after iteration `i`. -/
lemma brPass_fold_fst (M : ℕ) (hM : 1 ≤ M) (d : ℕ → ℝ) :
    ∀ c, c + 1 ≤ 2 ^ M →
      ((List.range' 1 c 1).foldl (brStep (2 ^ M / 2)) (0, d)).1 = bitrev M c := by
  have h2M : (2 : ℕ) ^ M / 2 = 2 ^ (M - 1) := by
    obtain ⟨M', rfl⟩ : ∃ M', M = M' + 1 := ⟨M - 1, by omega⟩
    rw [pow_succ, Nat.mul_div_cancel _ (by norm_num)]
    norm_num
  intro c
  induction c with
  | zero =>
    intro _
    simp [bitrev_zero]
  | succ c ih =>
    intro hc
    rw [List.range'_concat, List.foldl_append, List.foldl_cons, List.foldl_nil,
      brStep_fst, ih (by omega), h2M]
    exact revbin_upd_incr M hM c (by omega)

/-- Invariant of the bit-reversal loop of `FHT`: after the iterations
`i = 1 .. c`, exactly the pairs `{p, bitrev M p}` whose smaller element
is `≤ c` have been swapped. -/
lemma brPass_fold_snd (M : ℕ) (hM : 1 ≤ M) (d : ℕ → ℝ) :
    ∀ c, c + 2 ≤ 2 ^ M → ∀ p,
      ((List.range' 1 c 1).foldl (brStep (2 ^ M / 2)) (0, d)).2 p =
        if p < 2 ^ M ∧ (p ≤ c ∨ bitrev M p ≤ c) then d (bitrev M p) else d p := by
  intro c
  induction c with
  | zero =>
    intro _ p
    simp only [List.range'_zero, List.foldl_nil]
    by_cases hp : p < 2 ^ M ∧ (p ≤ 0 ∨ bitrev M p ≤ 0)
    · rw [if_pos hp]
      have hp0 : p = 0 := by
        rcases hp.2 with h | h
        · omega
        · have hz : bitrev M p = 0 := by omega
          have hinv := bitrev_bitrev M p hp.1
          rw [← hinv, hz, bitrev_zero]
      subst hp0
      rw [bitrev_zero]
    · rw [if_neg hp]
  | succ c ih =>
    intro hc p
    have hc' : c + 2 ≤ 2 ^ M := by omega
    have hcp1 : c + 1 < 2 ^ M := by omega
    have h2M : (2 : ℕ) ^ M / 2 = 2 ^ (M - 1) := by
      obtain ⟨M', rfl⟩ : ∃ M', M = M' + 1 := ⟨M - 1, by omega⟩
      rw [pow_succ, Nat.mul_div_cancel _ (by norm_num)]
      norm_num
    have hrv : revbin_upd (bitrev M c) (2 ^ M / 2) = bitrev M (c + 1) := by
      rw [h2M]
      exact revbin_upd_incr M hM c hcp1
    rw [List.range'_concat, List.foldl_append, List.foldl_cons, List.foldl_nil,
      brStep_snd, brPass_fold_fst M hM d c (by omega), hrv]
    have h1c : 1 + 1 * c = c + 1 := by ring
    rw [h1c]
    set B := bitrev M (c + 1) with hB
    have hBlt : B < 2 ^ M := bitrev_lt M (c + 1)
    have hBB : bitrev M B = c + 1 := bitrev_bitrev M (c + 1) hcp1
    have hbrp : p < 2 ^ M → p ≠ B → bitrev M p ≠ c + 1 := by
      intro hplt hpB he
      apply hpB
      have h1 := bitrev_bitrev M p hplt
      rw [← h1, he]
    by_cases hj : B > c + 1
    · rw [if_pos hj, swapB_apply]
      by_cases hpB : p = B
      · subst hpB
        rw [if_pos rfl, ih hc' (c + 1),
          if_neg (by push_neg; intro _; constructor <;> omega),
          if_pos ⟨hBlt, Or.inr (by omega)⟩, hBB]
      · rw [if_neg hpB]
        by_cases hpc : p = c + 1
        · subst hpc
          rw [if_pos rfl, ih hc' B,
            if_neg (by push_neg; intro _; omega),
            if_pos ⟨hcp1, Or.inl (le_refl _)⟩]
        · rw [if_neg hpc, ih hc' p]
          by_cases hp : p < 2 ^ M ∧ (p ≤ c ∨ bitrev M p ≤ c)
          · have hup : p < 2 ^ M ∧ (p ≤ c + 1 ∨ bitrev M p ≤ c + 1) := by
              refine ⟨hp.1, ?_⟩
              rcases hp.2 with h | h
              · exact Or.inl (by omega)
              · exact Or.inr (by omega)
            rw [if_pos hp, if_pos hup]
          · have hdn : ¬ (p < 2 ^ M ∧ (p ≤ c + 1 ∨ bitrev M p ≤ c + 1)) := by
              intro hcon
              apply hp
              refine ⟨hcon.1, ?_⟩
              have hne := hbrp hcon.1 hpB
              rcases hcon.2 with h | h
              · exact Or.inl (by omega)
              · exact Or.inr (by omega)
            rw [if_neg hp, if_neg hdn]
    · rw [if_neg hj]
      have hjle : B ≤ c + 1 := by omega
      by_cases hpc : p = c + 1
      · subst hpc
        rw [ih hc' (c + 1)]
        by_cases hBeq : B = c + 1
        · have hself : bitrev M (c + 1) = c + 1 := by rw [← hB, hBeq]
          rw [if_neg (by push_neg; intro _; constructor <;> omega),
            if_pos ⟨hcp1, Or.inl (le_refl _)⟩, hself]
        · have hBc : B ≤ c := by omega
          rw [if_pos ⟨hcp1, Or.inr (by rw [← hB]; omega)⟩,
            if_pos ⟨hcp1, Or.inl (le_refl _)⟩]
      · by_cases hpB : p = B
        · subst hpB
          have hpc' : B ≤ c := by
            rcases Nat.eq_or_lt_of_le hjle with h | h
            · exact absurd h hpc
            · omega
          rw [ih hc' B, if_pos ⟨hBlt, Or.inl hpc'⟩, if_pos ⟨hBlt, Or.inl (by omega)⟩]
        · rw [ih hc' p]
          by_cases hp : p < 2 ^ M ∧ (p ≤ c ∨ bitrev M p ≤ c)
          · have hup : p < 2 ^ M ∧ (p ≤ c + 1 ∨ bitrev M p ≤ c + 1) := by
              refine ⟨hp.1, ?_⟩
              rcases hp.2 with h | h
              · exact Or.inl (by omega)
              · exact Or.inr (by omega)
            rw [if_pos hp, if_pos hup]
          · have hdn : ¬ (p < 2 ^ M ∧ (p ≤ c + 1 ∨ bitrev M p ≤ c + 1)) := by
              intro hcon
              apply hp
              refine ⟨hcon.1, ?_⟩
              have hne := hbrp hcon.1 hpB
              rcases hcon.2 with h | h
              · exact Or.inl (by omega)
              · exact Or.inr (by omega)
            rw [if_neg hp, if_neg hdn]

/-- The bit-reversal pass of `FHT` permutes the first `2 ^ M` samples by
`bitrev M` and leaves the rest of the buffer unchanged. -/
lemma brPass_spec (M : ℕ) (hM : 1 ≤ M) (d : ℕ → ℝ) (p : ℕ) :
    brPass (2 ^ M / 2) (2 ^ M) d p = if p < 2 ^ M then d (bitrev M p) else d p := by
  have hlen2 : (2 : ℕ) ≤ 2 ^ M := by
    calc (2 : ℕ) = 2 ^ 1 := (pow_one 2).symm
      _ ≤ 2 ^ M := Nat.pow_le_pow_right (by norm_num) hM
  unfold brPass
  rw [brPass_fold_snd M hM d (2 ^ M - 2) (by omega) p]
  by_cases hp : p < 2 ^ M
  · rw [if_pos hp]
    by_cases hp1 : p ≤ 2 ^ M - 2
    · rw [if_pos ⟨hp, Or.inl hp1⟩]
    · have hplast : p = 2 ^ M - 1 := by omega
      have hself : bitrev M p = p := by rw [hplast, bitrev_all_ones]
      by_cases h2 : p < 2 ^ M ∧ (p ≤ 2 ^ M - 2 ∨ bitrev M p ≤ 2 ^ M - 2)
      · rw [if_pos h2]
      · rw [if_neg h2, hself]
  · rw [if_neg (by intro hcon; exact hp hcon.1), if_neg hp]

/-! ### The discrete Hartley transform (specification side) -/

/-- The Hartley kernel `cas t = cos t + sin t`. -/
noncomputable def cas (t : ℝ) : ℝ := Real.cos t + Real.sin t

/-- The discrete Hartley transform of the first `N` samples of `x`. -/
noncomputable def dht (N : ℕ) (x : ℕ → ℝ) (k : ℕ) : ℝ :=
  ∑ j ∈ Finset.range N, x j * cas (2 * Real.pi * j * k / N)

/-- The discrete Hartley transform with negated angles (equal to `dht`
at the mirrored frequency `N - k`). -/
noncomputable def dhtNeg (N : ℕ) (x : ℕ → ℝ) (k : ℕ) : ℝ :=
  ∑ j ∈ Finset.range N, x j * cas (-(2 * Real.pi * j * k / N))

lemma cas_split (A B : ℝ) : cas (A + B) = Real.cos B * cas A + Real.sin B * cas (-A) := by
  unfold cas
  rw [Real.cos_add, Real.sin_add, Real.cos_neg, Real.sin_neg]
  ring

lemma cas_add_nat_mul_two_pi (t : ℝ) (j : ℕ) : cas (t + j * (2 * Real.pi)) = cas t := by
  unfold cas
  rw [Real.cos_add_nat_mul_two_pi, Real.sin_add_nat_mul_two_pi]

lemma cas_sub_nat_mul_two_pi (t : ℝ) (j : ℕ) : cas (t - j * (2 * Real.pi)) = cas t := by
  have h : t - (j : ℝ) * (2 * Real.pi) = t + ((-(j : ℤ) : ℤ) : ℝ) * (2 * Real.pi) := by
    push_cast
    ring
  unfold cas
  rw [h, Real.cos_add_int_mul_two_pi, Real.sin_add_int_mul_two_pi]

lemma dht_period (N : ℕ) (hN : 0 < N) (x : ℕ → ℝ) (k : ℕ) :
    dht N x (k + N) = dht N x k := by
  unfold dht
  apply Finset.sum_congr rfl
  intro j _
  congr 1
  have hNne : (N : ℝ) ≠ 0 := Nat.cast_ne_zero.mpr (by omega)
  have : 2 * Real.pi * j * (k + N) / N = 2 * Real.pi * j * k / N + j * (2 * Real.pi) := by
    field_simp
    ring
  rw [Nat.cast_add, this, cas_add_nat_mul_two_pi]

lemma dhtNeg_period (N : ℕ) (hN : 0 < N) (x : ℕ → ℝ) (k : ℕ) :
    dhtNeg N x (k + N) = dhtNeg N x k := by
  unfold dhtNeg
  apply Finset.sum_congr rfl
  intro j _
  congr 1
  have hNne : (N : ℝ) ≠ 0 := Nat.cast_ne_zero.mpr (by omega)
  have : -(2 * Real.pi * j * (k + N) / N) = -(2 * Real.pi * j * k / N) - j * (2 * Real.pi) := by
    field_simp
    ring
  rw [Nat.cast_add, this, cas_sub_nat_mul_two_pi]

/-- The mirrored frequency `N - k` of `dht` is `dhtNeg` at `k`. -/
lemma dht_mirror (N : ℕ) (hN : 0 < N) (x : ℕ → ℝ) (k : ℕ) (hk : k ≤ N) :
    dht N x (N - k) = dhtNeg N x k := by
  unfold dht dhtNeg
  apply Finset.sum_congr rfl
  intro j _
  congr 1
  have hNne : (N : ℝ) ≠ 0 := Nat.cast_ne_zero.mpr (by omega)
  have hcast : ((N - k : ℕ) : ℝ) = (N : ℝ) - k := by
    rw [Nat.cast_sub hk]
  rw [hcast]
  have : 2 * Real.pi * j * ((N : ℝ) - k) / N = -(2 * Real.pi * j * k / N) + j * (2 * Real.pi) := by
    field_simp
    ring
  rw [this, cas_add_nat_mul_two_pi]

lemma sum_range_even_odd (f : ℕ → ℝ) (n : ℕ) :
    ∑ j ∈ Finset.range (2 * n), f j =
      (∑ j ∈ Finset.range n, f (2 * j)) + ∑ j ∈ Finset.range n, f (2 * j + 1) := by
  induction n with
  | zero => simp
  | succ n ih =>
    have h2 : 2 * (n + 1) = 2 * n + 1 + 1 := by ring
    rw [h2, Finset.sum_range_succ, Finset.sum_range_succ, Finset.sum_range_succ,
      Finset.sum_range_succ, ih]
    ring

/-- Radix-2 even/odd decomposition of the DHT: the Hartley analogue of
the Cooley-Tukey split. -/
lemma dht_split (n : ℕ) (hn : 0 < n) (x : ℕ → ℝ) (k : ℕ) :
    dht (2 * n) x k =
      dht n (fun j => x (2 * j)) k
        + Real.cos (Real.pi * k / n) * dht n (fun j => x (2 * j + 1)) k
        + Real.sin (Real.pi * k / n) * dhtNeg n (fun j => x (2 * j + 1)) k := by
  have hNne : (n : ℝ) ≠ 0 := Nat.cast_ne_zero.mpr (by omega)
  have hE : dht n (fun j => x (2 * j)) k =
      ∑ j ∈ Finset.range n, x (2 * j) * cas (2 * Real.pi * j * k / n) := rfl
  have hO : dht n (fun j => x (2 * j + 1)) k =
      ∑ j ∈ Finset.range n, x (2 * j + 1) * cas (2 * Real.pi * j * k / n) := rfl
  have hOn : dhtNeg n (fun j => x (2 * j + 1)) k =
      ∑ j ∈ Finset.range n, x (2 * j + 1) * cas (-(2 * Real.pi * j * k / n)) := rfl
  rw [hE, hO, hOn]
  have hsplit := sum_range_even_odd
    (fun j => x j * cas (2 * Real.pi * j * k / ((2 * n : ℕ) : ℝ))) n
  beta_reduce at hsplit
  unfold dht
  rw [hsplit]
  have heven : ∀ j : ℕ,
      x (2 * j) * cas (2 * Real.pi * ((2 * j : ℕ) : ℝ) * k / ((2 * n : ℕ) : ℝ)) =
      x (2 * j) * cas (2 * Real.pi * j * k / n) := by
    intro j
    congr 2
    push_cast
    field_simp
    ring
  have hodd : ∀ j : ℕ,
      x (2 * j + 1) * cas (2 * Real.pi * ((2 * j + 1 : ℕ) : ℝ) * k / ((2 * n : ℕ) : ℝ)) =
      Real.cos (Real.pi * k / n) * (x (2 * j + 1) * cas (2 * Real.pi * j * k / n))
        + Real.sin (Real.pi * k / n) * (x (2 * j + 1) * cas (-(2 * Real.pi * j * k / n))) := by
    intro j
    have hang : 2 * Real.pi * ((2 * j + 1 : ℕ) : ℝ) * k / ((2 * n : ℕ) : ℝ) =
        2 * Real.pi * j * k / n + Real.pi * k / n := by
      push_cast
      field_simp
      ring
    rw [hang, cas_split]
    ring
  rw [Finset.sum_congr rfl (fun j _ => heven j), Finset.sum_congr rfl (fun j _ => hodd j),
    Finset.sum_add_distrib, ← Finset.mul_sum, ← Finset.mul_sum]
  ring

/-! ### Pointwise characterization of the butterfly folds -/

lemma upd_apply (d : ℕ → ℝ) (i : ℕ) (v : ℝ) (p : ℕ) :
    upd d i v p = if p = i then v else d p := rfl

lemma butterfly0_apply (n k : ℕ) (d : ℕ → ℝ) (p : ℕ) :
    butterfly0 n k d p =
      if p = k then d k + d (k + n)
      else if p = k + n then d k - d (k + n)
      else d p := by
  unfold butterfly0
  rw [upd_apply, upd_apply]

lemma butterflyPair_apply (n k bd : ℕ) (fc fs : ℝ) (d : ℕ → ℝ) (p : ℕ) :
    butterflyPair n k bd fc fs d p =
      if p = k + bd then d (k + bd) + (fs * d (k + n) - fc * d (k + n + bd))
      else if p = k then d k + (fc * d (k + n) + fs * d (k + n + bd))
      else if p = k + n + bd then d (k + bd) - (fs * d (k + n) - fc * d (k + n + bd))
      else if p = k + n then d k - (fc * d (k + n) + fs * d (k + n + bd))
      else d p := by
  unfold butterflyPair
  rw [upd_apply, upd_apply, upd_apply, upd_apply]

lemma block_div_mod (istep b off : ℕ) (hoff : off < istep) :
    (b * istep + off) / istep = b ∧ (b * istep + off) % istep = off := by
  have h0 : 0 < istep := by omega
  constructor
  · rw [Nat.add_comm, Nat.add_mul_div_right _ _ h0, Nat.div_eq_of_lt hoff]
    omega
  · rw [Nat.add_comm, Nat.add_mul_mod_self_right, Nat.mod_eq_of_lt hoff]

lemma point_in_block {istep cnt : ℕ} {p : ℕ} (_h0 : 0 < istep)
    (h1 : p / istep < cnt + 1) (h2 : ¬ p / istep < cnt) :
    p = cnt * istep + p % istep := by
  have hdiv : p / istep = cnt := by omega
  have h := Nat.div_add_mod p istep
  rw [hdiv, Nat.mul_comm] at h
  omega

/-- A fold of coefficient-free butterflies over disjoint blocks acts
pointwise: position `p` in a processed block at offset `off` (resp.
`off + n`) receives the sum (resp. difference) of the pair; all other
positions are untouched. -/
lemma foldl_butterfly0 (n istep off : ℕ) (hn : 0 < n) (hoff : off + n < istep) :
    ∀ (cnt : ℕ) (d : ℕ → ℝ) (p : ℕ),
      ((List.range cnt).foldl (fun dd b => butterfly0 n (b * istep + off) dd) d) p =
        if p / istep < cnt ∧ p % istep = off then d p + d (p + n)
        else if p / istep < cnt ∧ p % istep = off + n then d (p - n) - d p
        else d p := by
  intro cnt
  induction cnt with
  | zero =>
    intro d p
    simp
  | succ cnt ih =>
    intro d p
    rw [List.range_succ, List.foldl_append, List.foldl_cons, List.foldl_nil]
    have hstep : 0 < istep := by omega
    have hk1 := block_div_mod istep cnt off (by omega)
    have hk2 := block_div_mod istep cnt (off + n) (by omega)
    set k := cnt * istep + off with hk
    have hkn : k + n = cnt * istep + (off + n) := by omega
    have hr1 : ((List.range cnt).foldl (fun dd b => butterfly0 n (b * istep + off) dd) d) k
        = d k := by
      rw [ih d k, if_neg (by rw [hk1.1]; omega), if_neg (by rw [hk1.1]; omega)]
    have hr2 : ((List.range cnt).foldl (fun dd b => butterfly0 n (b * istep + off) dd) d) (k + n)
        = d (k + n) := by
      rw [ih d (k + n), hkn, if_neg (by rw [hk2.1]; omega), if_neg (by rw [hk2.1]; omega)]
    rw [butterfly0_apply n k _ p]
    by_cases hp1 : p = k
    · subst hp1
      rw [if_pos rfl, hr1, hr2]
      have hcond : k / istep < cnt + 1 ∧ k % istep = off := by
        refine ⟨?_, hk1.2⟩
        rw [hk1.1]
        omega
      rw [if_pos hcond]
    · rw [if_neg hp1]
      by_cases hp2 : p = k + n
      · subst hp2
        rw [if_pos rfl, hr1, hr2]
        have hd1 : (k + n) / istep = cnt := by rw [hkn]; exact hk2.1
        have hd2 : (k + n) % istep = off + n := by rw [hkn]; exact hk2.2
        have hc1 : ¬ ((k + n) / istep < cnt + 1 ∧ (k + n) % istep = off) := by
          intro hcon
          rw [hd2] at hcon
          omega
        have hc2 : (k + n) / istep < cnt + 1 ∧ (k + n) % istep = off + n := by
          refine ⟨?_, hd2⟩
          rw [hd1]
          omega
        rw [if_neg hc1, if_pos hc2, show k + n - n = k from by omega]
      · rw [if_neg hp2, ih d p]
        by_cases hc1 : p / istep < cnt ∧ p % istep = off
        · rw [if_pos hc1, if_pos ⟨by omega, hc1.2⟩]
        · rw [if_neg hc1]
          by_cases hc2 : p / istep < cnt ∧ p % istep = off + n
          · have hup1 : ¬ (p / istep < cnt + 1 ∧ p % istep = off) := by
              intro hcon
              omega
            rw [if_pos hc2, if_neg hup1, if_pos ⟨by omega, hc2.2⟩]
          · rw [if_neg hc2]
            have hd1 : ¬ (p / istep < cnt + 1 ∧ p % istep = off) := by
              intro hcon
              rcases Nat.lt_or_ge (p / istep) cnt with h | h
              · exact hc1 ⟨h, hcon.2⟩
              · have := point_in_block hstep hcon.1 (by omega)
                exact hp1 (by omega)
            have hd2 : ¬ (p / istep < cnt + 1 ∧ p % istep = off + n) := by
              intro hcon
              rcases Nat.lt_or_ge (p / istep) cnt with h | h
              · exact hc2 ⟨h, hcon.2⟩
              · have := point_in_block hstep hcon.1 (by omega)
                exact hp2 (by omega)
            rw [if_neg hd1, if_neg hd2]

/-- A fold of rotated butterflies over disjoint blocks acts pointwise:
a position in a processed block at one of the four touched offsets
receives the butterfly of its own block applied to the original buffer;
all other positions are untouched. -/
lemma foldl_butterflyPair (n istep bl bd : ℕ) (fc fs : ℝ)
    (hbd : 0 < bd) (hbdn : bd < n) (hlt : bl + n + bd < istep) :
    ∀ (cnt : ℕ) (d : ℕ → ℝ) (p : ℕ),
      ((List.range cnt).foldl (fun dd b => butterflyPair n (b * istep + bl) bd fc fs dd) d) p =
        if p / istep < cnt ∧ (p % istep = bl ∨ p % istep = bl + bd ∨
            p % istep = bl + n ∨ p % istep = bl + n + bd) then
          butterflyPair n ((p / istep) * istep + bl) bd fc fs d p
        else d p := by
  intro cnt
  induction cnt with
  | zero =>
    intro d p
    simp
  | succ cnt ih =>
    intro d p
    rw [List.range_succ, List.foldl_append, List.foldl_cons, List.foldl_nil]
    have hstep : 0 < istep := by omega
    have hk0 := block_div_mod istep cnt bl (by omega)
    have hk1 := block_div_mod istep cnt (bl + bd) (by omega)
    have hk2 := block_div_mod istep cnt (bl + n) (by omega)
    have hk3 := block_div_mod istep cnt (bl + n + bd) (by omega)
    set k := cnt * istep + bl with hk
    have he1 : k + bd = cnt * istep + (bl + bd) := by omega
    have he2 : k + n = cnt * istep + (bl + n) := by omega
    have he3 : k + n + bd = cnt * istep + (bl + n + bd) := by omega
    have hF : ∀ q, q / istep = cnt →
        ((List.range cnt).foldl (fun dd b => butterflyPair n (b * istep + bl) bd fc fs dd) d) q
          = d q := by
      intro q hq
      rw [ih d q, if_neg (by rw [hq]; omega)]
    have hr0 : _ = d k := hF k (by rw [hk0.1])
    have hr1 : _ = d (k + bd) := hF (k + bd) (by rw [he1, hk1.1])
    have hr2 : _ = d (k + n) := hF (k + n) (by rw [he2, hk2.1])
    have hr3 : _ = d (k + n + bd) := hF (k + n + bd) (by rw [he3, hk3.1])
    rw [butterflyPair_apply n k bd fc fs _ p]
    by_cases hp1 : p = k + bd
    · subst hp1
      rw [if_pos rfl, hr1, hr2, hr3]
      have hdm : (k + bd) / istep = cnt ∧ (k + bd) % istep = bl + bd := by
        rw [he1]
        exact hk1
      rw [if_pos ⟨by rw [hdm.1]; omega, Or.inr (Or.inl hdm.2)⟩, hdm.1, ← hk,
        butterflyPair_apply, if_pos rfl]
    · rw [if_neg hp1]
      by_cases hp0 : p = k
      · subst hp0
        rw [if_pos rfl, hr0, hr2, hr3]
        rw [if_pos ⟨by rw [hk0.1]; omega, Or.inl hk0.2⟩, hk0.1, ← hk,
          butterflyPair_apply, if_neg hp1, if_pos rfl]
      · rw [if_neg hp0]
        by_cases hp3 : p = k + n + bd
        · subst hp3
          rw [if_pos rfl, hr1, hr2, hr3]
          have hdm : (k + n + bd) / istep = cnt ∧ (k + n + bd) % istep = bl + n + bd := by
            rw [he3]
            exact hk3
          rw [if_pos ⟨by rw [hdm.1]; omega, Or.inr (Or.inr (Or.inr hdm.2))⟩, hdm.1, ← hk,
            butterflyPair_apply, if_neg hp1, if_neg hp0, if_pos rfl]
        · rw [if_neg hp3]
          by_cases hp2 : p = k + n
          · subst hp2
            rw [if_pos rfl, hr0, hr2, hr3]
            have hdm : (k + n) / istep = cnt ∧ (k + n) % istep = bl + n := by
              rw [he2]
              exact hk2
            rw [if_pos ⟨by rw [hdm.1]; omega, Or.inr (Or.inr (Or.inl hdm.2))⟩, hdm.1, ← hk,
              butterflyPair_apply, if_neg hp1, if_neg hp0, if_neg hp3, if_pos rfl]
          · rw [if_neg hp2, ih d p]
            by_cases hc : p / istep < cnt ∧ (p % istep = bl ∨ p % istep = bl + bd ∨
                p % istep = bl + n ∨ p % istep = bl + n + bd)
            · rw [if_pos hc, if_pos ⟨by omega, hc.2⟩]
            · rw [if_neg hc]
              have hd : ¬ (p / istep < cnt + 1 ∧ (p % istep = bl ∨ p % istep = bl + bd ∨
                  p % istep = bl + n ∨ p % istep = bl + n + bd)) := by
                intro hcon
                rcases Nat.lt_or_ge (p / istep) cnt with h | h
                · exact hc ⟨h, hcon.2⟩
                · have hpv := point_in_block hstep hcon.1 (by omega)
                  rcases hcon.2 with h2 | h2 | h2 | h2
                  · exact hp0 (by omega)
                  · exact hp1 (by omega)
                  · exact hp2 (by omega)
                  · exact hp3 (by omega)
              rw [if_neg hd]

/-- Which `bl` iteration of the stage loop touches block offset `o`
(in a block of size `2n`): offsets `bl`, `n - bl`, `n + bl`, `2n - bl`
belong to iteration `bl`; offsets `0`, `n/2`, `n`, `n + n/2` have
`blOf = 0` or `blOf ≥ n/2` and are untouched by the `bl` loop. -/
def blOf (n o : ℕ) : ℕ :=
  if o < n then min o (n - o) else min (o - n) (2 * n - o)

lemma blOf_self {n bl : ℕ} (h1 : 1 ≤ bl) (h2 : 2 * bl < n) : blOf n bl = bl := by
  unfold blOf
  rw [if_pos (by omega)]
  omega

lemma blOf_sub {n bl : ℕ} (h1 : 1 ≤ bl) (h2 : 2 * bl < n) : blOf n (n - bl) = bl := by
  unfold blOf
  rw [if_pos (by omega)]
  omega

lemma blOf_add {n bl : ℕ} (h1 : 1 ≤ bl) (h2 : 2 * bl < n) : blOf n (n + bl) = bl := by
  unfold blOf
  rw [if_neg (by omega)]
  omega

lemma blOf_two_sub {n bl : ℕ} (h1 : 1 ≤ bl) (h2 : 2 * bl < n) : blOf n (2 * n - bl) = bl := by
  unfold blOf
  rw [if_neg (by omega)]
  omega

lemma blOf_cases {n o bl : ℕ} (hn : 0 < n) (ho : o < 2 * n) (h : blOf n o = bl) :
    o = bl ∨ o = n - bl ∨ o = n + bl ∨ o = 2 * n - bl := by
  unfold blOf at h
  by_cases h1 : o < n
  · rw [if_pos h1] at h
    omega
  · rw [if_neg h1] at h
    omega

/-- Iteration count of the strided loops `for (k = s; k < len; k += istep)`
when `istep` divides `len` and the start offset is inside one stride. -/
lemma stride_count {len istep s : ℕ} (hdvd : istep ∣ len) (h1 : 1 ≤ istep)
    (hs : s < istep) : (len - s + istep - 1) / istep = len / istep := by
  obtain ⟨q, rfl⟩ := hdvd
  cases q with
  | zero =>
    simp only [Nat.mul_zero, Nat.zero_sub]
    rw [Nat.div_eq_of_lt (by omega), Nat.div_eq_of_lt (by omega)]
  | succ q2 =>
    have hms : istep * (q2 + 1) = istep * q2 + istep := Nat.mul_succ istep q2
    have hnum : istep * (q2 + 1) - s + istep - 1 =
        (istep - 1 - s + istep) + istep * q2 := by omega
    have hsmall : (istep - 1 - s + istep) / istep = 1 := by
      apply Nat.div_eq_of_lt_le <;> omega
    have hrhs : istep * (q2 + 1) / istep = q2 + 1 :=
      Nat.mul_div_cancel_left _ (by omega)
    rw [hnum, Nat.add_mul_div_left _ _ (by omega : 0 < istep), hsmall, hrhs]
    omega

lemma blStep_fst (len n : ℕ) (dc ds : ℝ) (st : ℝ × ℝ × ℕ × (ℕ → ℝ)) (bl : ℕ) :
    (blStep len n dc ds st bl).1 = st.1 * dc - st.2.1 * ds := rfl

lemma blStep_snd1 (len n : ℕ) (dc ds : ℝ) (st : ℝ × ℝ × ℕ × (ℕ → ℝ)) (bl : ℕ) :
    (blStep len n dc ds st bl).2.1 = st.2.1 * dc + st.1 * ds := rfl

lemma blStep_snd21 (len n : ℕ) (dc ds : ℝ) (st : ℝ × ℝ × ℕ × (ℕ → ℝ)) (bl : ℕ) :
    (blStep len n dc ds st bl).2.2.1 = st.2.2.1 - 2 := rfl

lemma blStep_snd22 (len n : ℕ) (dc ds : ℝ) (st : ℝ × ℝ × ℕ × (ℕ → ℝ)) (bl : ℕ) :
    (blStep len n dc ds st bl).2.2.2 =
      (List.range ((len - bl + 2 * n - 1) / (2 * n))).foldl
        (fun b2 b => butterflyPair n (b * (2 * n) + bl) st.2.2.1 st.1 st.2.1 b2)
        st.2.2.2 := rfl

/-- `butterflyPair` only reads the four positions it writes, so two
buffers agreeing there give the same result at any of those positions. -/
lemma butterflyPair_eq_of_reads (n k bd : ℕ) (fc fs : ℝ) (F G : ℕ → ℝ)
    (h0 : F k = G k) (h1 : F (k + bd) = G (k + bd)) (h2 : F (k + n) = G (k + n))
    (h3 : F (k + n + bd) = G (k + n + bd)) (p : ℕ)
    (hp : p = k ∨ p = k + bd ∨ p = k + n ∨ p = k + n + bd) :
    butterflyPair n k bd fc fs F p = butterflyPair n k bd fc fs G p := by
  rw [butterflyPair_apply, butterflyPair_apply]
  split_ifs with w1 w2 w3 w4
  · rw [h1, h2, h3]
  · rw [h0, h2, h3]
  · rw [h1, h2, h3]
  · rw [h0, h2, h3]
  · rcases hp with rfl | rfl | rfl | rfl
    · exact absurd rfl w2
    · exact absurd rfl w1
    · exact absurd rfl w4
    · exact absurd rfl w3

/-- The trigonometric recurrence of the `bl` loop: entering iteration
`bl = t + 1`, the coefficients are exactly `cos ((t+1)a)`, `sin ((t+1)a)`
and the mirror offset is `n - 2(t+1)`. -/
lemma blPass_fold_coeffs (len n : ℕ) (a : ℝ) (d : ℕ → ℝ) :
    ∀ t : ℕ,
      ((List.range' 1 t 1).foldl (blStep len n (Real.cos a) (Real.sin a))
          (Real.cos a, Real.sin a, n - 2, d)).1 = Real.cos ((t + 1 : ℕ) * a) ∧
      ((List.range' 1 t 1).foldl (blStep len n (Real.cos a) (Real.sin a))
          (Real.cos a, Real.sin a, n - 2, d)).2.1 = Real.sin ((t + 1 : ℕ) * a) ∧
      ((List.range' 1 t 1).foldl (blStep len n (Real.cos a) (Real.sin a))
          (Real.cos a, Real.sin a, n - 2, d)).2.2.1 = n - 2 * (t + 1) := by
  intro t
  induction t with
  | zero =>
    refine ⟨?_, ?_, ?_⟩ <;> simp
  | succ t ih =>
    obtain ⟨ihc, ihs, ihb⟩ := ih
    rw [List.range'_concat]
    refine ⟨?_, ?_, ?_⟩ <;>
      rw [List.foldl_append, List.foldl_cons, List.foldl_nil]
    · rw [blStep_fst, ihc, ihs, ← Real.cos_add]
      congr 1
      push_cast
      ring
    · rw [blStep_snd1, ihc, ihs, ← Real.sin_add]
      congr 1
      push_cast
      ring
    · rw [blStep_snd21, ihb]
      omega

/-- Buffer invariant of the `bl` loop: after iterations `bl = 1 .. t`,
position `p` holds the rotated butterfly of its own block and its own
`bl = blOf` iteration (applied to the stage-input buffer) when
`1 ≤ blOf ≤ t`, and is untouched otherwise. -/
lemma blPass_fold_buf (len n : ℕ) (a : ℝ) (d : ℕ → ℝ) (hn : 4 ≤ n)
    (hdvd : (2 * n) ∣ len) :
    ∀ t, t + 1 ≤ n / 2 → ∀ p,
      ((List.range' 1 t 1).foldl (blStep len n (Real.cos a) (Real.sin a))
          (Real.cos a, Real.sin a, n - 2, d)).2.2.2 p =
        if 1 ≤ blOf n (p % (2 * n)) ∧ blOf n (p % (2 * n)) ≤ t ∧
            p / (2 * n) < len / (2 * n) then
          butterflyPair n ((p / (2 * n)) * (2 * n) + blOf n (p % (2 * n)))
            (n - 2 * blOf n (p % (2 * n)))
            (Real.cos ((blOf n (p % (2 * n)) : ℕ) * a))
            (Real.sin ((blOf n (p % (2 * n)) : ℕ) * a)) d p
        else d p := by
  intro t
  induction t with
  | zero =>
    intro _ p
    simp only [List.range'_zero, List.foldl_nil]
    rw [if_neg ?hneg]
    case hneg =>
      rintro ⟨hh1, hh2, _⟩
      omega
  | succ t ih =>
    intro ht p
    have ht' : t + 1 ≤ n / 2 := by omega
    have hbl1 : 1 ≤ t + 1 := by omega
    have hbl2 : 2 * (t + 1) < n := by omega
    have hbd0 : 0 < n - 2 * (t + 1) := by omega
    have hbdn : n - 2 * (t + 1) < n := by omega
    have h2n : 0 < 2 * n := by omega
    rw [List.range'_concat, List.foldl_append, List.foldl_cons, List.foldl_nil,
      blStep_snd22]
    obtain ⟨hfc, hfs, hbd⟩ := blPass_fold_coeffs len n a d t
    simp only [hfc, hfs, hbd]
    have h1c : 1 + 1 * t = t + 1 := by ring
    rw [h1c, stride_count hdvd (by omega) (by omega),
      foldl_butterflyPair n (2 * n) (t + 1) (n - 2 * (t + 1))
        (Real.cos ((t + 1 : ℕ) * a)) (Real.sin ((t + 1 : ℕ) * a))
        hbd0 hbdn (by omega) (len / (2 * n)) _ p]
    have hmod : p % (2 * n) < 2 * n := Nat.mod_lt _ h2n
    have hpval : p = (p / (2 * n)) * (2 * n) + p % (2 * n) := by
      have h := Nat.div_add_mod p (2 * n)
      have h2 : 2 * n * (p / (2 * n)) = (p / (2 * n)) * (2 * n) := Nat.mul_comm _ _
      omega
    set K := (p / (2 * n)) * (2 * n) + (t + 1) with hK
    have hoff1 : (t + 1) + (n - 2 * (t + 1)) = n - (t + 1) := by omega
    have hoff3 : (t + 1) + n + (n - 2 * (t + 1)) = 2 * n - (t + 1) := by omega
    -- the four positions touched by iteration t+1 inside p's block
    have hQ0 : K = (p / (2 * n)) * (2 * n) + (t + 1) := hK
    have hQ1 : K + (n - 2 * (t + 1)) = (p / (2 * n)) * (2 * n) + (n - (t + 1)) := by omega
    have hQ2 : K + n = (p / (2 * n)) * (2 * n) + (n + (t + 1)) := by omega
    have hQ3 : K + n + (n - 2 * (t + 1)) = (p / (2 * n)) * (2 * n) + (2 * n - (t + 1)) := by
      omega
    have hreads : ∀ o : ℕ, o < 2 * n → blOf n o = t + 1 →
        ((List.range' 1 t 1).foldl (blStep len n (Real.cos a) (Real.sin a))
            (Real.cos a, Real.sin a, n - 2, d)).2.2.2 ((p / (2 * n)) * (2 * n) + o)
          = d ((p / (2 * n)) * (2 * n) + o) := by
      intro o ho hblo
      rw [ih ht' _]
      have hdm := block_div_mod (2 * n) (p / (2 * n)) o ho
      rw [if_neg ?hng]
      case hng =>
        rintro ⟨hh1, hh2, _⟩
        rw [hdm.2, hblo] at hh2
        omega
    by_cases hA : p / (2 * n) < len / (2 * n) ∧ (p % (2 * n) = t + 1 ∨
        p % (2 * n) = (t + 1) + (n - 2 * (t + 1)) ∨ p % (2 * n) = (t + 1) + n ∨
        p % (2 * n) = (t + 1) + n + (n - 2 * (t + 1)))
    · rw [if_pos hA]
      have hblp : blOf n (p % (2 * n)) = t + 1 := by
        rcases hA.2 with h | h | h | h
        · rw [h]
          exact blOf_self hbl1 hbl2
        · rw [h, hoff1]
          exact blOf_sub hbl1 hbl2
        · rw [h, show (t + 1) + n = n + (t + 1) from by omega]
          exact blOf_add hbl1 hbl2
        · rw [h, hoff3]
          exact blOf_two_sub hbl1 hbl2
      have hC : 1 ≤ blOf n (p % (2 * n)) ∧ blOf n (p % (2 * n)) ≤ t + 1 ∧
          p / (2 * n) < len / (2 * n) := by
        rw [hblp]
        exact ⟨by omega, by omega, hA.1⟩
      rw [if_pos hC, hblp]
      apply butterflyPair_eq_of_reads
      · exact hreads (t + 1) (by omega) (blOf_self hbl1 hbl2)
      · rw [hQ1]
        exact hreads (n - (t + 1)) (by omega) (blOf_sub hbl1 hbl2)
      · rw [hQ2]
        rw [show n + (t + 1) = n + (t + 1) from rfl]
        exact hreads (n + (t + 1)) (by omega) (blOf_add hbl1 hbl2)
      · rw [hQ3]
        exact hreads (2 * n - (t + 1)) (by omega) (blOf_two_sub hbl1 hbl2)
      · rcases hA.2 with h | h | h | h
        · exact Or.inl (by omega)
        · exact Or.inr (Or.inl (by omega))
        · exact Or.inr (Or.inr (Or.inl (by omega)))
        · exact Or.inr (Or.inr (Or.inr (by omega)))
    · rw [if_neg hA, ih ht' p]
      by_cases hB : 1 ≤ blOf n (p % (2 * n)) ∧ blOf n (p % (2 * n)) ≤ t ∧
          p / (2 * n) < len / (2 * n)
      · rw [if_pos hB, if_pos ⟨hB.1, by omega, hB.2.2⟩]
      · rw [if_neg hB]
        rw [if_neg ?hng2]
        case hng2 =>
          rintro ⟨hh1, hh2, hh3⟩
          have hble : blOf n (p % (2 * n)) = t + 1 := by
            by_contra hne
            exact hB ⟨hh1, by omega, hh3⟩
          apply hA
          refine ⟨hh3, ?_⟩
          have := blOf_cases (by omega) hmod hble
          rcases this with h | h | h | h
          · exact Or.inl h
          · exact Or.inr (Or.inl (by omega))
          · exact Or.inr (Or.inr (Or.inl (by omega)))
          · exact Or.inr (Or.inr (Or.inr (by omega)))

lemma sqrt_one_sub_cos_sq (a : ℝ) (h1 : 0 ≤ a) (h2 : a ≤ Real.pi) :
    Real.sqrt (1 - Real.cos a * Real.cos a) = Real.sin a := by
  have hsin : 0 ≤ Real.sin a := Real.sin_nonneg_of_nonneg_of_le_pi h1 h2
  have hsq : 1 - Real.cos a * Real.cos a = Real.sin a * Real.sin a := by
    have := Real.sin_sq_add_cos_sq a
    nlinarith
  rw [hsq, Real.sqrt_mul_self hsin]

lemma blOf_zero (n : ℕ) (hn : 0 < n) : blOf n 0 = 0 := by
  unfold blOf
  rw [if_pos hn]
  omega

lemma blOf_n (n : ℕ) : blOf n n = 0 := by
  unfold blOf
  rw [if_neg (by omega)]
  omega

lemma blOf_le_half {n o : ℕ} (ho : o < 2 * n) : blOf n o ≤ n / 2 := by
  unfold blOf
  by_cases h : o < n
  · rw [if_pos h]
    omega
  · rw [if_neg h]
    omega

/-- Value of one butterfly stage (half-width `n`, angle `a`) at block
base `B` and block offset `o < 2n`, in terms of the stage input `d`:
offsets `0, n` come from the first plain butterfly loop, offsets
`n/2, n + n/2` from the last, and the rest from the `bl` loop. -/
noncomputable def stageOut (n : ℕ) (a : ℝ) (d : ℕ → ℝ) (B o : ℕ) : ℝ :=
  if o = 0 then d B + d (B + n)
  else if o = n then d B - d (B + n)
  else if o = n / 2 then d (B + n / 2) + d (B + n / 2 + n)
  else if o = n + n / 2 then d (B + n / 2) - d (B + n / 2 + n)
  else butterflyPair n (B + blOf n o) (n - 2 * blOf n o)
    (Real.cos ((blOf n o : ℕ) * a)) (Real.sin ((blOf n o : ℕ) * a)) d (B + o)

lemma blOf_half_self {n : ℕ} (_hn : 0 < n) (he : n % 2 = 0) : blOf n (n / 2) = n / 2 := by
  unfold blOf
  rw [if_pos (by omega)]
  omega

lemma blOf_half_shift {n : ℕ} (_hn : 0 < n) (he : n % 2 = 0) :
    blOf n (n + n / 2) = n / 2 := by
  unfold blOf
  rw [if_neg (by omega)]
  omega

lemma blOf_eq_zero_cases {n o : ℕ} (_hn : 0 < n) (ho : o < 2 * n) (h : blOf n o = 0) :
    o = 0 ∨ o = n := by
  unfold blOf at h
  by_cases h1 : o < n
  · rw [if_pos h1] at h
    omega
  · rw [if_neg h1] at h
    omega

lemma blOf_eq_half_cases {n o : ℕ} (hn : 0 < n) (he : n % 2 = 0) (ho : o < 2 * n)
    (h : blOf n o = n / 2) : o = n / 2 ∨ o = n + n / 2 := by
  unfold blOf at h
  by_cases h1 : o < n
  · rw [if_pos h1] at h
    omega
  · rw [if_neg h1] at h
    omega

/-- One full stage of the butterfly network transforms every complete
block of size `2n` by `stageOut` and leaves the rest of the buffer
unchanged. -/
lemma stagePass_spec (len n : ℕ) (a : ℝ) (d : ℕ → ℝ)
    (hpow : n = 1 ∨ n = 2 ∨ (4 ≤ n ∧ n % 2 = 0)) (hdvd : (2 * n) ∣ len)
    (ha1 : 0 ≤ a) (ha2 : a ≤ Real.pi) (p : ℕ) :
    stagePass len n a d p =
      if p / (2 * n) < len / (2 * n) then
        stageOut n a d (p / (2 * n) * (2 * n)) (p % (2 * n))
      else d p := by
  have hn0 : 0 < n := by rcases hpow with h | h | h <;> omega
  have h2n : 0 < 2 * n := by omega
  obtain ⟨b, o, ho, rfl⟩ : ∃ b o, o < 2 * n ∧ p = b * (2 * n) + o := by
    refine ⟨p / (2 * n), p % (2 * n), Nat.mod_lt _ h2n, ?_⟩
    have h := Nat.div_add_mod p (2 * n)
    have h2 : 2 * n * (p / (2 * n)) = p / (2 * n) * (2 * n) := Nat.mul_comm _ _
    omega
  have hdm := block_div_mod (2 * n) b o ho
  rw [hdm.1, hdm.2]
  have hcnt0 : (len + 2 * n - 1) / (2 * n) = len / (2 * n) := by
    rw [show len + 2 * n - 1 = len - 0 + 2 * n - 1 from by omega]
    exact stride_count hdvd (by omega) (by omega)
  have hcnt2 : (len - n / 2 + 2 * n - 1) / (2 * n) = len / (2 * n) :=
    stride_count hdvd (by omega) (by omega)
  simp only [stagePass, hcnt0, hcnt2]
  have hF1 : ∀ q : ℕ,
      ((List.range (len / (2 * n))).foldl (fun dd b2 => butterfly0 n (b2 * (2 * n)) dd) d) q =
        if q / (2 * n) < len / (2 * n) ∧ q % (2 * n) = 0 then d q + d (q + n)
        else if q / (2 * n) < len / (2 * n) ∧ q % (2 * n) = 0 + n then d (q - n) - d q
        else d q := by
    intro q
    have h := foldl_butterfly0 n (2 * n) 0 hn0 (by omega) (len / (2 * n)) d q
    simp only [Nat.add_zero, Nat.zero_add] at h ⊢
    exact h
  set F1 := (List.range (len / (2 * n))).foldl (fun dd b2 => butterfly0 n (b2 * (2 * n)) dd) d
    with hF1def
  have hF1skip : ∀ b2 o2, o2 < 2 * n → o2 ≠ 0 → o2 ≠ n →
      F1 (b2 * (2 * n) + o2) = d (b2 * (2 * n) + o2) := by
    intro b2 o2 ho2 hne0 hnen
    have hdm2 := block_div_mod (2 * n) b2 o2 ho2
    rw [hF1 _, if_neg (by rw [hdm2.2]; omega), if_neg (by rw [hdm2.2]; omega)]
  rcases hpow with rfl | rfl | ⟨h4, heven⟩
  · -- n = 1 : only the first butterfly loop runs.
    rw [if_neg (by omega : ¬ (1:ℕ) < 1), if_neg (by omega : ¬ (2:ℕ) < 1)]
    rw [hF1 _, hdm.1, hdm.2]
    by_cases hblk : b < len / (2 * 1)
    · rw [if_pos hblk]
      interval_cases o
      · rw [if_pos ⟨hblk, rfl⟩]
        unfold stageOut
        rw [if_pos rfl]
        simp
      · rw [if_neg (by omega), if_pos ⟨hblk, by omega⟩]
        unfold stageOut
        rw [if_neg (by omega), if_pos rfl]
        rw [show b * (2 * 1) + 1 - 1 = b * (2 * 1) from by omega]
    · rw [if_neg (by omega), if_neg (by omega), if_neg hblk]
  · -- n = 2 : the first and last butterfly loops run, no bl loop.
    rw [if_pos (by omega : (1:ℕ) < 2), if_neg (by omega : ¬ (2:ℕ) < 2)]
    have hF3 := foldl_butterfly0 2 (2 * 2) (2 / 2) (by omega) (by omega) (len / (2 * 2)) F1
    rw [hF3 (b * (2 * 2) + o), hdm.1, hdm.2]
    by_cases hblk : b < len / (2 * 2)
    · rw [if_pos hblk]
      interval_cases o
      · rw [if_neg (by omega), if_neg (by omega), hF1 _, hdm.1, hdm.2,
          if_pos ⟨hblk, rfl⟩]
        unfold stageOut
        rw [if_pos rfl]
        simp
      · rw [if_pos ⟨hblk, by omega⟩]
        unfold stageOut
        rw [if_neg (by omega), if_neg (by omega), if_pos (by omega)]
        rw [hF1skip b 1 (by omega) (by omega) (by omega),
          show b * (2 * 2) + 1 + 2 = b * (2 * 2) + 3 from by omega,
          hF1skip b 3 (by omega) (by omega) (by omega),
          show (b * (2 * 2) + 2 / 2) = b * (2 * 2) + 1 from by norm_num,
          show b * (2 * 2) + 1 + 2 = b * (2 * 2) + 3 from by omega]
      · rw [if_neg (by omega), if_neg (by omega), hF1 _, hdm.1, hdm.2,
          if_neg (by omega), if_pos ⟨hblk, by omega⟩]
        unfold stageOut
        rw [if_neg (by omega), if_pos rfl]
        rw [show b * (2 * 2) + 2 - 2 = b * (2 * 2) from by omega]
      · rw [if_neg (by omega), if_pos ⟨hblk, by omega⟩]
        unfold stageOut
        rw [if_neg (by omega), if_neg (by omega), if_neg (by omega), if_pos (by omega)]
        rw [show b * (2 * 2) + 3 - 2 = b * (2 * 2) + 1 from by omega,
          hF1skip b 1 (by omega) (by omega) (by omega),
          hF1skip b 3 (by omega) (by omega) (by omega),
          show (b * (2 * 2) + 2 / 2) = b * (2 * 2) + 1 from by norm_num,
          show b * (2 * 2) + 1 + 2 = b * (2 * 2) + 3 from by omega]
    · rw [if_neg (by omega), if_neg (by omega), hF1 _, hdm.1, hdm.2,
        if_neg (by omega), if_neg (by omega), if_neg hblk]
  · -- n ≥ 4 (and even) : all three loops run.
    rw [if_pos (by omega : 1 < n), if_pos (by omega : 2 < n),
      sqrt_one_sub_cos_sq a ha1 ha2]
    have hBL : ∀ q, blPass len n (Real.cos a) (Real.sin a) F1 q =
        if 1 ≤ blOf n (q % (2 * n)) ∧ blOf n (q % (2 * n)) ≤ n / 2 - 1 ∧
            q / (2 * n) < len / (2 * n) then
          butterflyPair n ((q / (2 * n)) * (2 * n) + blOf n (q % (2 * n)))
            (n - 2 * blOf n (q % (2 * n)))
            (Real.cos ((blOf n (q % (2 * n)) : ℕ) * a))
            (Real.sin ((blOf n (q % (2 * n)) : ℕ) * a)) F1 q
        else F1 q := by
      intro q
      unfold blPass
      rw [blPass_fold_buf len n a F1 (by omega) hdvd (n / 2 - 1) (by omega) q]
    have hBLskip : ∀ b2 o2, o2 < 2 * n → (blOf n o2 = 0 ∨ blOf n o2 = n / 2) →
        blPass len n (Real.cos a) (Real.sin a) F1 (b2 * (2 * n) + o2)
          = F1 (b2 * (2 * n) + o2) := by
      intro b2 o2 ho2 hcase
      have hdm2 := block_div_mod (2 * n) b2 o2 ho2
      rw [hBL _, if_neg ?hng]
      case hng =>
        rintro ⟨hh1, hh2, _⟩
        rw [hdm2.2] at hh1 hh2
        omega
    have hF3 := foldl_butterfly0 n (2 * n) (n / 2) hn0 (by omega) (len / (2 * n))
      (blPass len n (Real.cos a) (Real.sin a) F1)
    rw [hF3 (b * (2 * n) + o), hdm.1, hdm.2]
    by_cases hblk : b < len / (2 * n)
    · rw [if_pos hblk]
      by_cases ho0 : o = 0
      · subst ho0
        rw [if_neg (by omega), if_neg (by omega),
          hBLskip b 0 (by omega) (Or.inl (blOf_zero n hn0)),
          hF1 _, hdm.1, hdm.2, if_pos ⟨hblk, rfl⟩]
        unfold stageOut
        rw [if_pos rfl]
        simp
      · by_cases hon : o = n
        · rw [hon] at hdm ⊢
          rw [if_neg (by omega), if_neg (by omega),
            hBLskip b n (by omega) (Or.inl (blOf_n n)),
            hF1 _, hdm.1, hdm.2, if_neg (by omega), if_pos ⟨hblk, by omega⟩]
          unfold stageOut
          rw [if_neg (by omega : ¬ n = 0), if_pos rfl]
          rw [show b * (2 * n) + n - n = b * (2 * n) from by omega]
        · by_cases hon2 : o = n / 2
          · subst hon2
            rw [if_pos ⟨hblk, rfl⟩,
              hBLskip b (n / 2) (by omega) (Or.inr (blOf_half_self hn0 heven)),
              show b * (2 * n) + n / 2 + n = b * (2 * n) + (n + n / 2) from by omega,
              hBLskip b (n + n / 2) (by omega) (Or.inr (blOf_half_shift hn0 heven)),
              hF1skip b (n / 2) (by omega) (by omega) (by omega),
              hF1skip b (n + n / 2) (by omega) (by omega) (by omega)]
            unfold stageOut
            rw [if_neg (by omega), if_neg (by omega), if_pos rfl,
              show b * (2 * n) + n / 2 + n = b * (2 * n) + (n + n / 2) from by omega]
          · by_cases hon3 : o = n + n / 2
            · subst hon3
              rw [if_neg (by omega), if_pos ⟨hblk, by omega⟩,
                show b * (2 * n) + (n + n / 2) - n = b * (2 * n) + n / 2 from by omega,
                hBLskip b (n / 2) (by omega) (Or.inr (blOf_half_self hn0 heven)),
                hBLskip b (n + n / 2) (by omega) (Or.inr (blOf_half_shift hn0 heven)),
                hF1skip b (n / 2) (by omega) (by omega) (by omega),
                hF1skip b (n + n / 2) (by omega) (by omega) (by omega)]
              unfold stageOut
              rw [if_neg (by omega), if_neg (by omega), if_neg (by omega), if_pos rfl,
                show b * (2 * n) + n / 2 + n = b * (2 * n) + (n + n / 2) from by omega]
            · -- interior offsets handled by the bl loop
              have hbl1 : 1 ≤ blOf n o := by
                rcases Nat.eq_zero_or_pos (blOf n o) with hz | hp2
                · rcases blOf_eq_zero_cases hn0 ho hz with h | h
                  · exact absurd h ho0
                  · exact absurd h hon
                · exact hp2
              have hbl2 : blOf n o ≤ n / 2 - 1 := by
                have hle := blOf_le_half ho
                rcases Nat.eq_or_lt_of_le hle with he2 | hlt
                · rcases blOf_eq_half_cases hn0 heven ho he2 with h | h
                  · exact absurd h hon2
                  · exact absurd h hon3
                · omega
              have h2bl : 2 * blOf n o < n := by omega
              rw [if_neg (by omega), if_neg (by omega), hBL _, hdm.1, hdm.2,
                if_pos ⟨hbl1, hbl2, hblk⟩]
              unfold stageOut
              rw [if_neg ho0, if_neg hon, if_neg hon2, if_neg hon3]
              apply butterflyPair_eq_of_reads
              · exact hF1skip b (blOf n o) (by omega) (by omega) (by omega)
              · rw [show b * (2 * n) + blOf n o + (n - 2 * blOf n o)
                    = b * (2 * n) + (n - blOf n o) from by omega]
                exact hF1skip b (n - blOf n o) (by omega) (by omega) (by omega)
              · rw [show b * (2 * n) + blOf n o + n = b * (2 * n) + (n + blOf n o)
                    from by omega]
                exact hF1skip b (n + blOf n o) (by omega) (by omega) (by omega)
              · rw [show b * (2 * n) + blOf n o + n + (n - 2 * blOf n o)
                    = b * (2 * n) + (2 * n - blOf n o) from by omega]
                exact hF1skip b (2 * n - blOf n o) (by omega) (by omega) (by omega)
              · have := blOf_cases hn0 ho (rfl : blOf n o = blOf n o)
                rcases this with h | h | h | h
                · exact Or.inl (by omega)
                · exact Or.inr (Or.inl (by omega))
                · exact Or.inr (Or.inr (Or.inl (by omega)))
                · exact Or.inr (Or.inr (Or.inr (by omega)))
    · rw [if_neg (by omega), if_neg (by omega),
        hBL _, hdm.1, hdm.2, if_neg (by rintro ⟨_, _, hh⟩; omega),
        hF1 _, hdm.1, hdm.2, if_neg (by omega), if_neg (by omega), if_neg hblk]

/-! ### The stage loop computes the DHT -/

/-- The first `s` stages of the butterfly network, with the angles
`π, π/2, ...` of the `do/while` loop of `FHT`. -/
noncomputable def stagesIter (len : ℕ) (s : ℕ) (d : ℕ → ℝ) : ℕ → ℝ :=
  match s with
  | 0 => d
  | s + 1 => stagePass len (2 ^ s) (Real.pi / 2 ^ s) (stagesIter len s d)

/-- The decimated subsequence of block `b` at stage size `2 ^ s`, read
through the bit reversal: block `b` of the working buffer holds the DHT
of this subsequence. -/
def subSeq (d1 : ℕ → ℝ) (s b j : ℕ) : ℝ := d1 (b * 2 ^ s + bitrev s j)

lemma subSeq_even (d1 : ℕ → ℝ) (s b j : ℕ) :
    subSeq d1 (s + 1) b (2 * j) = subSeq d1 s (2 * b) j := by
  unfold subSeq
  rw [bitrev_two_mul]
  congr 1
  rw [pow_succ]
  ring

lemma subSeq_odd (d1 : ℕ → ℝ) (s b j : ℕ) :
    subSeq d1 (s + 1) b (2 * j + 1) = subSeq d1 s (2 * b + 1) j := by
  unfold subSeq
  rw [bitrev_two_mul_add_one]
  congr 1
  have h2 : (2:ℕ) ^ (s + 1) = 2 ^ s * 2 := pow_succ 2 s
  have h3 : b * 2 ^ (s + 1) = 2 * b * 2 ^ s := by
    rw [h2]
    ring
  have h4 : (2 * b + 1) * 2 ^ s = 2 * b * 2 ^ s + 2 ^ s := by ring
  omega

lemma dht_congr (N : ℕ) (x y : ℕ → ℝ) (k : ℕ) (h : ∀ j, j < N → x j = y j) :
    dht N x k = dht N y k := by
  unfold dht
  exact Finset.sum_congr rfl (fun j hj => by rw [h j (Finset.mem_range.mp hj)])

lemma dhtNeg_congr (N : ℕ) (x y : ℕ → ℝ) (k : ℕ) (h : ∀ j, j < N → x j = y j) :
    dhtNeg N x k = dhtNeg N y k := by
  unfold dhtNeg
  exact Finset.sum_congr rfl (fun j hj => by rw [h j (Finset.mem_range.mp hj)])

lemma div_lt_div_iff_dvd {k n p : ℕ} (hk : 0 < k) (hdvd : k ∣ n) :
    p / k < n / k ↔ p < n := by
  obtain ⟨q, rfl⟩ := hdvd
  rw [Nat.mul_div_cancel_left _ hk]
  constructor
  · intro h
    by_contra hc
    push_neg at hc
    have h2 : k * q / k ≤ p / k := Nat.div_le_div_right hc
    rw [Nat.mul_div_cancel_left _ hk] at h2
    omega
  · intro h
    rw [Nat.div_lt_iff_lt_mul hk]
    calc p < k * q := h
      _ = q * k := Nat.mul_comm _ _

/-- Running the `do/while` stage loop from stage `2 ^ s` on a buffer
that has already been through the first `s` stages completes all `M`
stages. -/
lemma stageLoop_from (M : ℕ) (d : ℕ → ℝ) : ∀ k s, s + k + 1 = M → s < M →
    stageLoop (2 ^ M) (2 ^ s) (Real.pi / 2 ^ s) (stagesIter (2 ^ M) s d) =
      stagesIter (2 ^ M) M d := by
  intro k
  induction k with
  | zero =>
    intro s hk _
    rw [stageLoop]
    have hlast : ¬ (0 < 2 ^ s ∧ 2 * 2 ^ s < 2 ^ M) := by
      rintro ⟨_, hh⟩
      have hps : (2:ℕ) * 2 ^ s = 2 ^ (s + 1) := by
        rw [pow_succ]
        ring
      rw [hps] at hh
      have hsm : s + 1 = M := by omega
      rw [hsm] at hh
      omega
    simp only [hlast, dite_false]
    have : M = s + 1 := by omega
    rw [this]
    rfl
  | succ k ih =>
    intro s hk hs
    rw [stageLoop]
    have hnext : 0 < 2 ^ s ∧ 2 * 2 ^ s < 2 ^ M := by
      constructor
      · positivity
      · have h1 : (2:ℕ) * 2 ^ s = 2 ^ (s + 1) := by
          rw [pow_succ]
          ring
        rw [h1]
        have : s + 1 < M := by omega
        exact Nat.pow_lt_pow_right (by norm_num) this
    simp only [hnext, dite_true]
    have h1 : (2:ℕ) * 2 ^ s = 2 ^ (s + 1) := by
      rw [pow_succ]
      ring
    have h2 : Real.pi / 2 ^ s / 2 = Real.pi / 2 ^ (s + 1) := by
      rw [div_div, ← pow_succ]
    rw [h1, h2]
    exact ih (s + 1) (by omega) (by omega)

lemma stageLoop_eq_stagesIter (M : ℕ) (hM : 1 ≤ M) (d : ℕ → ℝ) :
    stageLoop (2 ^ M) 1 Real.pi d = stagesIter (2 ^ M) M d := by
  have h := stageLoop_from M d (M - 1) 0 (by omega) (by omega)
  simp only [pow_zero, div_one] at h
  exact h

/-- Common split of `dht (2·2^s) (subSeq d1 (s+1) b)` into the DHTs of
the even and odd decimated subsequences. -/
lemma dht_subSeq_split (s : ℕ) (d1 : ℕ → ℝ) (b k : ℕ) :
    dht (2 * 2 ^ s) (subSeq d1 (s + 1) b) k =
      dht (2 ^ s) (subSeq d1 s (2 * b)) k
        + Real.cos (Real.pi * k / (2 ^ s : ℕ)) * dht (2 ^ s) (subSeq d1 s (2 * b + 1)) k
        + Real.sin (Real.pi * k / (2 ^ s : ℕ)) * dhtNeg (2 ^ s) (subSeq d1 s (2 * b + 1)) k := by
  have hn0 : 0 < 2 ^ s := Nat.pos_pow_of_pos s (by norm_num)
  rw [dht_split (2 ^ s) hn0 (subSeq d1 (s + 1) b) k,
    dht_congr (2 ^ s) _ _ k (fun j _ => subSeq_even d1 s b j),
    dht_congr (2 ^ s) _ _ k (fun j _ => subSeq_odd d1 s b j),
    dhtNeg_congr (2 ^ s) _ _ k (fun j _ => subSeq_odd d1 s b j)]

lemma dht_case_o0 (s : ℕ) (d1 : ℕ → ℝ) (b : ℕ) :
    dht (2 * 2 ^ s) (subSeq d1 (s + 1) b) 0 =
      dht (2 ^ s) (subSeq d1 s (2 * b)) 0 + dht (2 ^ s) (subSeq d1 s (2 * b + 1)) 0 := by
  rw [dht_subSeq_split]
  simp

lemma dht_case_on (s : ℕ) (d1 : ℕ → ℝ) (b : ℕ) :
    dht (2 * 2 ^ s) (subSeq d1 (s + 1) b) (2 ^ s) =
      dht (2 ^ s) (subSeq d1 s (2 * b)) 0 - dht (2 ^ s) (subSeq d1 s (2 * b + 1)) 0 := by
  have hn0 : 0 < 2 ^ s := Nat.pos_pow_of_pos s (by norm_num)
  have hnR : ((2 ^ s : ℕ) : ℝ) ≠ 0 := by positivity
  rw [dht_subSeq_split]
  have hE : dht (2 ^ s) (subSeq d1 s (2 * b)) (2 ^ s) =
      dht (2 ^ s) (subSeq d1 s (2 * b)) 0 := by
    have h := dht_period (2 ^ s) hn0 (subSeq d1 s (2 * b)) 0
    rwa [Nat.zero_add] at h
  have hO : dht (2 ^ s) (subSeq d1 s (2 * b + 1)) (2 ^ s) =
      dht (2 ^ s) (subSeq d1 s (2 * b + 1)) 0 := by
    have h := dht_period (2 ^ s) hn0 (subSeq d1 s (2 * b + 1)) 0
    rwa [Nat.zero_add] at h
  have hang : Real.pi * ((2 ^ s : ℕ) : ℝ) / ((2 ^ s : ℕ) : ℝ) = Real.pi := by
    field_simp
  rw [hE, hO, hang, Real.cos_pi, Real.sin_pi]
  ring

lemma cast_half_pow (s : ℕ) (hs : 1 ≤ s) :
    ((2 ^ s / 2 : ℕ) : ℝ) = ((2 ^ s : ℕ) : ℝ) / 2 := by
  have h2 : (2 ^ s / 2 : ℕ) * 2 = 2 ^ s := by
    have : 2 ∣ 2 ^ s := dvd_pow_self 2 (by omega)
    omega
  have hcast : (((2 ^ s / 2 : ℕ) * 2 : ℕ) : ℝ) = ((2 ^ s : ℕ) : ℝ) := by rw [h2]
  push_cast at hcast ⊢
  linarith

lemma dht_case_ohalf (s : ℕ) (hs : 1 ≤ s) (d1 : ℕ → ℝ) (b : ℕ) :
    dht (2 * 2 ^ s) (subSeq d1 (s + 1) b) (2 ^ s / 2) =
      dht (2 ^ s) (subSeq d1 s (2 * b)) (2 ^ s / 2)
        + dht (2 ^ s) (subSeq d1 s (2 * b + 1)) (2 ^ s / 2) := by
  have hn0 : 0 < 2 ^ s := Nat.pos_pow_of_pos s (by norm_num)
  have hnR : ((2 ^ s : ℕ) : ℝ) ≠ 0 := by positivity
  have hev : 2 ∣ 2 ^ s := dvd_pow_self 2 (by omega)
  rw [dht_subSeq_split]
  have hang : Real.pi * ((2 ^ s / 2 : ℕ) : ℝ) / ((2 ^ s : ℕ) : ℝ) = Real.pi / 2 := by
    rw [cast_half_pow s hs]
    field_simp
    ring
  have hmir : dhtNeg (2 ^ s) (subSeq d1 s (2 * b + 1)) (2 ^ s / 2) =
      dht (2 ^ s) (subSeq d1 s (2 * b + 1)) (2 ^ s / 2) := by
    have h := dht_mirror (2 ^ s) hn0 (subSeq d1 s (2 * b + 1)) (2 ^ s / 2) (by omega)
    rw [show 2 ^ s - 2 ^ s / 2 = 2 ^ s / 2 from by omega] at h
    exact h.symm
  rw [hang, hmir, Real.cos_pi_div_two, Real.sin_pi_div_two]
  ring

lemma dht_case_onhalf (s : ℕ) (hs : 1 ≤ s) (d1 : ℕ → ℝ) (b : ℕ) :
    dht (2 * 2 ^ s) (subSeq d1 (s + 1) b) (2 ^ s + 2 ^ s / 2) =
      dht (2 ^ s) (subSeq d1 s (2 * b)) (2 ^ s / 2)
        - dht (2 ^ s) (subSeq d1 s (2 * b + 1)) (2 ^ s / 2) := by
  have hn0 : 0 < 2 ^ s := Nat.pos_pow_of_pos s (by norm_num)
  have hnR : ((2 ^ s : ℕ) : ℝ) ≠ 0 := by positivity
  have hev : 2 ∣ 2 ^ s := dvd_pow_self 2 (by omega)
  rw [dht_subSeq_split]
  have hE : dht (2 ^ s) (subSeq d1 s (2 * b)) (2 ^ s + 2 ^ s / 2) =
      dht (2 ^ s) (subSeq d1 s (2 * b)) (2 ^ s / 2) := by
    have h := dht_period (2 ^ s) hn0 (subSeq d1 s (2 * b)) (2 ^ s / 2)
    rw [show 2 ^ s / 2 + 2 ^ s = 2 ^ s + 2 ^ s / 2 from by omega] at h
    exact h
  have hNeg : dhtNeg (2 ^ s) (subSeq d1 s (2 * b + 1)) (2 ^ s + 2 ^ s / 2) =
      dht (2 ^ s) (subSeq d1 s (2 * b + 1)) (2 ^ s / 2) := by
    have h := dhtNeg_period (2 ^ s) hn0 (subSeq d1 s (2 * b + 1)) (2 ^ s / 2)
    rw [show 2 ^ s / 2 + 2 ^ s = 2 ^ s + 2 ^ s / 2 from by omega] at h
    rw [h]
    have h2 := dht_mirror (2 ^ s) hn0 (subSeq d1 s (2 * b + 1)) (2 ^ s / 2) (by omega)
    rw [show 2 ^ s - 2 ^ s / 2 = 2 ^ s / 2 from by omega] at h2
    exact h2.symm
  have hang : Real.pi * ((2 ^ s + 2 ^ s / 2 : ℕ) : ℝ) / ((2 ^ s : ℕ) : ℝ) =
      Real.pi / 2 + Real.pi := by
    have hc : ((2 ^ s + 2 ^ s / 2 : ℕ) : ℝ) = ((2 ^ s : ℕ) : ℝ) + ((2 ^ s : ℕ) : ℝ) / 2 := by
      push_cast
      rw [cast_half_pow s hs]
      push_cast
      ring
    rw [hc]
    field_simp
    ring
  rw [hE, hNeg, hang, Real.cos_add_pi, Real.sin_add_pi, Real.cos_pi_div_two,
    Real.sin_pi_div_two]
  ring

lemma dht_case_bl1 (s bl : ℕ) (d1 : ℕ → ℝ) (b : ℕ) (hbl : 1 ≤ bl)
    (hbl2 : 2 * bl < 2 ^ s) :
    dht (2 * 2 ^ s) (subSeq d1 (s + 1) b) bl =
      dht (2 ^ s) (subSeq d1 s (2 * b)) bl
        + (Real.cos ((bl : ℝ) * (Real.pi / (2 : ℝ) ^ s)) *
            dht (2 ^ s) (subSeq d1 s (2 * b + 1)) bl
          + Real.sin ((bl : ℝ) * (Real.pi / (2 : ℝ) ^ s)) *
            dht (2 ^ s) (subSeq d1 s (2 * b + 1)) (2 ^ s - bl)) := by
  have hn0 : 0 < 2 ^ s := Nat.pos_pow_of_pos s (by norm_num)
  have hnR : ((2 ^ s : ℕ) : ℝ) ≠ 0 := by positivity
  rw [dht_subSeq_split]
  have hang : Real.pi * (bl : ℝ) / ((2 ^ s : ℕ) : ℝ) =
      (bl : ℝ) * (Real.pi / (2 : ℝ) ^ s) := by
    push_cast
    ring
  have hmir : dhtNeg (2 ^ s) (subSeq d1 s (2 * b + 1)) bl =
      dht (2 ^ s) (subSeq d1 s (2 * b + 1)) (2 ^ s - bl) :=
    (dht_mirror (2 ^ s) hn0 (subSeq d1 s (2 * b + 1)) bl (by omega)).symm
  rw [hang, hmir]
  ring

lemma dht_case_bl2 (s bl : ℕ) (d1 : ℕ → ℝ) (b : ℕ) (hbl : 1 ≤ bl)
    (hbl2 : 2 * bl < 2 ^ s) :
    dht (2 * 2 ^ s) (subSeq d1 (s + 1) b) (2 ^ s - bl) =
      dht (2 ^ s) (subSeq d1 s (2 * b)) (2 ^ s - bl)
        + (Real.sin ((bl : ℝ) * (Real.pi / (2 : ℝ) ^ s)) *
            dht (2 ^ s) (subSeq d1 s (2 * b + 1)) bl
          - Real.cos ((bl : ℝ) * (Real.pi / (2 : ℝ) ^ s)) *
            dht (2 ^ s) (subSeq d1 s (2 * b + 1)) (2 ^ s - bl)) := by
  have hn0 : 0 < 2 ^ s := Nat.pos_pow_of_pos s (by norm_num)
  have hnR : ((2 ^ s : ℕ) : ℝ) ≠ 0 := by positivity
  rw [dht_subSeq_split]
  have hang : Real.pi * ((2 ^ s - bl : ℕ) : ℝ) / ((2 ^ s : ℕ) : ℝ) =
      Real.pi - (bl : ℝ) * (Real.pi / (2 : ℝ) ^ s) := by
    rw [Nat.cast_sub (by omega)]
    push_cast
    field_simp
    ring
  have hmir : dhtNeg (2 ^ s) (subSeq d1 s (2 * b + 1)) (2 ^ s - bl) =
      dht (2 ^ s) (subSeq d1 s (2 * b + 1)) bl := by
    have h := dht_mirror (2 ^ s) hn0 (subSeq d1 s (2 * b + 1)) (2 ^ s - bl) (by omega)
    rw [show 2 ^ s - (2 ^ s - bl) = bl from by omega] at h
    exact h.symm
  rw [hang, hmir, Real.cos_pi_sub, Real.sin_pi_sub]
  ring

lemma dht_case_bl3 (s bl : ℕ) (d1 : ℕ → ℝ) (b : ℕ) (hbl : 1 ≤ bl)
    (hbl2 : 2 * bl < 2 ^ s) :
    dht (2 * 2 ^ s) (subSeq d1 (s + 1) b) (2 ^ s + bl) =
      dht (2 ^ s) (subSeq d1 s (2 * b)) bl
        - (Real.cos ((bl : ℝ) * (Real.pi / (2 : ℝ) ^ s)) *
            dht (2 ^ s) (subSeq d1 s (2 * b + 1)) bl
          + Real.sin ((bl : ℝ) * (Real.pi / (2 : ℝ) ^ s)) *
            dht (2 ^ s) (subSeq d1 s (2 * b + 1)) (2 ^ s - bl)) := by
  have hn0 : 0 < 2 ^ s := Nat.pos_pow_of_pos s (by norm_num)
  have hnR : ((2 ^ s : ℕ) : ℝ) ≠ 0 := by positivity
  rw [dht_subSeq_split]
  have hE : dht (2 ^ s) (subSeq d1 s (2 * b)) (2 ^ s + bl) =
      dht (2 ^ s) (subSeq d1 s (2 * b)) bl := by
    have h := dht_period (2 ^ s) hn0 (subSeq d1 s (2 * b)) bl
    rw [show bl + 2 ^ s = 2 ^ s + bl from by omega] at h
    exact h
  have hO : dht (2 ^ s) (subSeq d1 s (2 * b + 1)) (2 ^ s + bl) =
      dht (2 ^ s) (subSeq d1 s (2 * b + 1)) bl := by
    have h := dht_period (2 ^ s) hn0 (subSeq d1 s (2 * b + 1)) bl
    rw [show bl + 2 ^ s = 2 ^ s + bl from by omega] at h
    exact h
  have hNeg : dhtNeg (2 ^ s) (subSeq d1 s (2 * b + 1)) (2 ^ s + bl) =
      dht (2 ^ s) (subSeq d1 s (2 * b + 1)) (2 ^ s - bl) := by
    have h := dhtNeg_period (2 ^ s) hn0 (subSeq d1 s (2 * b + 1)) bl
    rw [show bl + 2 ^ s = 2 ^ s + bl from by omega] at h
    rw [h]
    exact (dht_mirror (2 ^ s) hn0 (subSeq d1 s (2 * b + 1)) bl (by omega)).symm
  have hang : Real.pi * ((2 ^ s + bl : ℕ) : ℝ) / ((2 ^ s : ℕ) : ℝ) =
      (bl : ℝ) * (Real.pi / (2 : ℝ) ^ s) + Real.pi := by
    push_cast
    field_simp
    ring
  rw [hE, hO, hNeg, hang, Real.cos_add_pi, Real.sin_add_pi]
  ring

lemma dht_case_bl4 (s bl : ℕ) (d1 : ℕ → ℝ) (b : ℕ) (hbl : 1 ≤ bl)
    (hbl2 : 2 * bl < 2 ^ s) :
    dht (2 * 2 ^ s) (subSeq d1 (s + 1) b) (2 * 2 ^ s - bl) =
      dht (2 ^ s) (subSeq d1 s (2 * b)) (2 ^ s - bl)
        - (Real.sin ((bl : ℝ) * (Real.pi / (2 : ℝ) ^ s)) *
            dht (2 ^ s) (subSeq d1 s (2 * b + 1)) bl
          - Real.cos ((bl : ℝ) * (Real.pi / (2 : ℝ) ^ s)) *
            dht (2 ^ s) (subSeq d1 s (2 * b + 1)) (2 ^ s - bl)) := by
  have hn0 : 0 < 2 ^ s := Nat.pos_pow_of_pos s (by norm_num)
  have hnR : ((2 ^ s : ℕ) : ℝ) ≠ 0 := by positivity
  rw [dht_subSeq_split]
  have hE : dht (2 ^ s) (subSeq d1 s (2 * b)) (2 * 2 ^ s - bl) =
      dht (2 ^ s) (subSeq d1 s (2 * b)) (2 ^ s - bl) := by
    have h := dht_period (2 ^ s) hn0 (subSeq d1 s (2 * b)) (2 ^ s - bl)
    rw [show 2 ^ s - bl + 2 ^ s = 2 * 2 ^ s - bl from by omega] at h
    exact h
  have hO : dht (2 ^ s) (subSeq d1 s (2 * b + 1)) (2 * 2 ^ s - bl) =
      dht (2 ^ s) (subSeq d1 s (2 * b + 1)) (2 ^ s - bl) := by
    have h := dht_period (2 ^ s) hn0 (subSeq d1 s (2 * b + 1)) (2 ^ s - bl)
    rw [show 2 ^ s - bl + 2 ^ s = 2 * 2 ^ s - bl from by omega] at h
    exact h
  have hNeg : dhtNeg (2 ^ s) (subSeq d1 s (2 * b + 1)) (2 * 2 ^ s - bl) =
      dht (2 ^ s) (subSeq d1 s (2 * b + 1)) bl := by
    have h := dhtNeg_period (2 ^ s) hn0 (subSeq d1 s (2 * b + 1)) (2 ^ s - bl)
    rw [show 2 ^ s - bl + 2 ^ s = 2 * 2 ^ s - bl from by omega] at h
    rw [h]
    have h2 := dht_mirror (2 ^ s) hn0 (subSeq d1 s (2 * b + 1)) (2 ^ s - bl) (by omega)
    rw [show 2 ^ s - (2 ^ s - bl) = bl from by omega] at h2
    exact h2.symm
  have hang : Real.pi * ((2 * 2 ^ s - bl : ℕ) : ℝ) / ((2 ^ s : ℕ) : ℝ) =
      2 * Real.pi - (bl : ℝ) * (Real.pi / (2 : ℝ) ^ s) := by
    rw [Nat.cast_sub (by omega)]
    push_cast
    field_simp
    ring
  rw [hE, hO, hNeg, hang, Real.cos_two_pi_sub, Real.sin_two_pi_sub]
  ring

/-- If the input block holds the DHTs of the two decimated subsequences
(lower half even, upper half odd), the stage output at every offset of the
block is the DHT of the merged subsequence. -/
lemma stageOut_eq_dht (s : ℕ) (d1 In : ℕ → ℝ) (b o : ℕ) (ho : o < 2 * 2 ^ s)
    (hInE : ∀ t, t < 2 ^ s →
      In (b * (2 * 2 ^ s) + t) = dht (2 ^ s) (subSeq d1 s (2 * b)) t)
    (hInO : ∀ t, t < 2 ^ s →
      In (b * (2 * 2 ^ s) + (2 ^ s + t)) = dht (2 ^ s) (subSeq d1 s (2 * b + 1)) t) :
    stageOut (2 ^ s) (Real.pi / (2 : ℝ) ^ s) In (b * (2 * 2 ^ s)) o =
      dht (2 * 2 ^ s) (subSeq d1 (s + 1) b) o := by
  have hn0 : 0 < 2 ^ s := Nat.pos_pow_of_pos s (by norm_num)
  simp only [stageOut]
  by_cases ho0 : o = 0
  · subst ho0
    rw [if_pos rfl, dht_case_o0]
    have h1 := hInE 0 hn0
    have h2 := hInO 0 hn0
    rw [Nat.add_zero] at h1 h2
    rw [h1, h2]
  rw [if_neg ho0]
  by_cases hon : o = 2 ^ s
  · subst hon
    rw [if_pos rfl, dht_case_on]
    have h1 := hInE 0 hn0
    have h2 := hInO 0 hn0
    rw [Nat.add_zero] at h1 h2
    rw [h1, h2]
  rw [if_neg hon]
  by_cases hoh : o = 2 ^ s / 2
  · have hs1 : 1 ≤ s := by
      rcases Nat.eq_zero_or_pos s with hs0 | hs0
      · subst hs0
        norm_num at hoh
        exact absurd hoh ho0
      · exact hs0
    subst hoh
    rw [if_pos rfl, dht_case_ohalf s hs1]
    have hlt : 2 ^ s / 2 < 2 ^ s := by omega
    have h1 := hInE (2 ^ s / 2) hlt
    have h2 := hInO (2 ^ s / 2) hlt
    rw [show b * (2 * 2 ^ s) + 2 ^ s / 2 + 2 ^ s =
        b * (2 * 2 ^ s) + (2 ^ s + 2 ^ s / 2) from by omega, h1, h2]
  rw [if_neg hoh]
  by_cases honh : o = 2 ^ s + 2 ^ s / 2
  · have hs1 : 1 ≤ s := by
      rcases Nat.eq_zero_or_pos s with hs0 | hs0
      · subst hs0
        norm_num at honh hon
        exact absurd honh hon
      · exact hs0
    subst honh
    rw [if_pos rfl, dht_case_onhalf s hs1]
    have hlt : 2 ^ s / 2 < 2 ^ s := by omega
    have h1 := hInE (2 ^ s / 2) hlt
    have h2 := hInO (2 ^ s / 2) hlt
    rw [show b * (2 * 2 ^ s) + 2 ^ s / 2 + 2 ^ s =
        b * (2 * 2 ^ s) + (2 ^ s + 2 ^ s / 2) from by omega, h1, h2]
  rw [if_neg honh]
  obtain ⟨bl, hblv⟩ : ∃ c, blOf (2 ^ s) o = c := ⟨_, rfl⟩
  rw [hblv]
  have hble : bl ≤ 2 ^ s / 2 := hblv ▸ blOf_le_half ho
  have hblpos : 1 ≤ bl := by
    by_contra hc
    have h0 : blOf (2 ^ s) o = 0 := by omega
    rcases blOf_eq_zero_cases hn0 ho h0 with h | h
    · exact ho0 h
    · exact hon h
  have hs1 : 1 ≤ s := by
    rcases Nat.eq_zero_or_pos s with hs0 | hs0
    · exfalso
      subst hs0
      norm_num at ho ho0 hon
      omega
    · exact hs0
  have heven : 2 ^ s % 2 = 0 := by
    have h2 : (2 : ℕ) ∣ 2 ^ s := dvd_pow_self 2 (by omega)
    omega
  have hblh : bl ≠ 2 ^ s / 2 := by
    intro hceq
    rcases blOf_eq_half_cases hn0 heven ho (hceq ▸ hblv) with h | h
    · exact hoh h
    · exact honh h
  have hbl2 : 2 * bl < 2 ^ s := by omega
  have hrE1 := hInE bl (by omega)
  have hrE2 := hInE (2 ^ s - bl) (by omega)
  have hrO1 := hInO bl (by omega)
  have hrO2 := hInO (2 ^ s - bl) (by omega)
  rcases blOf_cases hn0 ho hblv with hc | hc | hc | hc
  · rw [hc, butterflyPair_apply, if_neg (by omega), if_pos rfl]
    rw [show b * (2 * 2 ^ s) + bl + 2 ^ s =
        b * (2 * 2 ^ s) + (2 ^ s + bl) from by omega,
      show b * (2 * 2 ^ s) + (2 ^ s + bl) + (2 ^ s - 2 * bl) =
        b * (2 * 2 ^ s) + (2 ^ s + (2 ^ s - bl)) from by omega,
      hrE1, hrO1, hrO2]
    exact (dht_case_bl1 s bl d1 b hblpos hbl2).symm
  · rw [hc, butterflyPair_apply, if_pos (by omega)]
    rw [show b * (2 * 2 ^ s) + bl + (2 ^ s - 2 * bl) =
        b * (2 * 2 ^ s) + (2 ^ s - bl) from by omega,
      show b * (2 * 2 ^ s) + bl + 2 ^ s =
        b * (2 * 2 ^ s) + (2 ^ s + bl) from by omega,
      show b * (2 * 2 ^ s) + (2 ^ s + bl) + (2 ^ s - 2 * bl) =
        b * (2 * 2 ^ s) + (2 ^ s + (2 ^ s - bl)) from by omega,
      hrE2, hrO1, hrO2]
    exact (dht_case_bl2 s bl d1 b hblpos hbl2).symm
  · rw [hc, butterflyPair_apply, if_neg (by omega), if_neg (by omega),
      if_neg (by omega), if_pos (by omega)]
    rw [show b * (2 * 2 ^ s) + bl + 2 ^ s =
        b * (2 * 2 ^ s) + (2 ^ s + bl) from by omega,
      show b * (2 * 2 ^ s) + (2 ^ s + bl) + (2 ^ s - 2 * bl) =
        b * (2 * 2 ^ s) + (2 ^ s + (2 ^ s - bl)) from by omega,
      hrE1, hrO1, hrO2]
    exact (dht_case_bl3 s bl d1 b hblpos hbl2).symm
  · rw [hc, butterflyPair_apply, if_neg (by omega), if_neg (by omega),
      if_pos (by omega)]
    rw [show b * (2 * 2 ^ s) + bl + (2 ^ s - 2 * bl) =
        b * (2 * 2 ^ s) + (2 ^ s - bl) from by omega,
      show b * (2 * 2 ^ s) + bl + 2 ^ s =
        b * (2 * 2 ^ s) + (2 ^ s + bl) from by omega,
      show b * (2 * 2 ^ s) + (2 ^ s + bl) + (2 ^ s - 2 * bl) =
        b * (2 * 2 ^ s) + (2 ^ s + (2 ^ s - bl)) from by omega,
      hrE2, hrO1, hrO2]
    exact (dht_case_bl4 s bl d1 b hblpos hbl2).symm

lemma dht_one (x : ℕ → ℝ) (k : ℕ) : dht 1 x k = x 0 := by
  simp [dht, cas]

/-- After `s` butterfly stages the buffer holds, block by block of size
`2^s`, the DHTs of the bit-reversed subsequences of the initial buffer. -/
lemma stagesIter_spec (M : ℕ) (d1 : ℕ → ℝ) (s : ℕ) (hs : s ≤ M) (p : ℕ) :
    stagesIter (2 ^ M) s d1 p =
      if p < 2 ^ M then dht (2 ^ s) (subSeq d1 s (p / 2 ^ s)) (p % 2 ^ s) else d1 p := by
  induction s generalizing p with
  | zero =>
    show d1 p = _
    have h1 : dht (2 ^ 0) (subSeq d1 0 (p / 2 ^ 0)) (p % 2 ^ 0) = d1 p := by
      rw [pow_zero, Nat.div_one, Nat.mod_one, dht_one]
      simp [subSeq, bitrev_zero]
    rw [h1, ite_self]
  | succ s ih =>
    have hs' : s ≤ M := by omega
    have ihp := fun q => ih hs' q
    have hn0 : 0 < 2 ^ s := Nat.pos_pow_of_pos s (by norm_num)
    have h2s1 : (2 : ℕ) ^ (s + 1) = 2 * 2 ^ s := by ring
    have hdvd : (2 * 2 ^ s) ∣ 2 ^ M := by
      rw [← h2s1]
      exact pow_dvd_pow 2 (by omega)
    have hpow : (2 : ℕ) ^ s = 1 ∨ (2 : ℕ) ^ s = 2 ∨ (4 ≤ 2 ^ s ∧ 2 ^ s % 2 = 0) := by
      match s with
      | 0 => left; rfl
      | 1 => right; left; rfl
      | (t + 2) =>
        right; right
        constructor
        · calc (4 : ℕ) = 2 ^ 2 := by norm_num
            _ ≤ 2 ^ (t + 2) := Nat.pow_le_pow_right (by norm_num) (by omega)
        · have h2 : (2 : ℕ) ∣ 2 ^ (t + 2) := dvd_pow_self 2 (by omega)
          omega
    have ha1 : (0 : ℝ) ≤ Real.pi / 2 ^ s := by positivity
    have ha2 : Real.pi / (2 : ℝ) ^ s ≤ Real.pi := by
      apply div_le_self Real.pi_pos.le
      exact one_le_pow₀ (by norm_num)
    show stagePass (2 ^ M) (2 ^ s) (Real.pi / 2 ^ s) (stagesIter (2 ^ M) s d1) p = _
    rw [stagePass_spec (2 ^ M) (2 ^ s) (Real.pi / 2 ^ s) (stagesIter (2 ^ M) s d1)
      hpow hdvd ha1 ha2 p]
    by_cases hp : p < 2 ^ M
    · rw [if_pos ((div_lt_div_iff_dvd (by omega) hdvd).2 hp), if_pos hp]
      have ho : p % (2 * 2 ^ s) < 2 * 2 ^ s := Nat.mod_lt _ (by omega)
      have hble : (p / (2 * 2 ^ s) + 1) * (2 * 2 ^ s) ≤ 2 ^ M := by
        have hlt : p / (2 * 2 ^ s) < 2 ^ M / (2 * 2 ^ s) :=
          (div_lt_div_iff_dvd (by omega) hdvd).2 hp
        have hle : p / (2 * 2 ^ s) + 1 ≤ 2 ^ M / (2 * 2 ^ s) := hlt
        calc (p / (2 * 2 ^ s) + 1) * (2 * 2 ^ s)
            ≤ 2 ^ M / (2 * 2 ^ s) * (2 * 2 ^ s) := Nat.mul_le_mul_right _ hle
          _ = 2 ^ M := Nat.div_mul_cancel hdvd
      have hInE : ∀ t, t < 2 ^ s →
          stagesIter (2 ^ M) s d1 (p / (2 * 2 ^ s) * (2 * 2 ^ s) + t) =
            dht (2 ^ s) (subSeq d1 s (2 * (p / (2 * 2 ^ s)))) t := by
        intro t ht
        have hidx : p / (2 * 2 ^ s) * (2 * 2 ^ s) + t =
            (2 * (p / (2 * 2 ^ s))) * 2 ^ s + t := by ring
        have hq : p / (2 * 2 ^ s) * (2 * 2 ^ s) + t < 2 ^ M := by
          have h1 : (p / (2 * 2 ^ s) + 1) * (2 * 2 ^ s) =
              p / (2 * 2 ^ s) * (2 * 2 ^ s) + 2 * 2 ^ s := by ring
          omega
        rw [ihp _, if_pos hq, hidx,
          (block_div_mod (2 ^ s) (2 * (p / (2 * 2 ^ s))) t ht).1,
          (block_div_mod (2 ^ s) (2 * (p / (2 * 2 ^ s))) t ht).2]
      have hInO : ∀ t, t < 2 ^ s →
          stagesIter (2 ^ M) s d1 (p / (2 * 2 ^ s) * (2 * 2 ^ s) + (2 ^ s + t)) =
            dht (2 ^ s) (subSeq d1 s (2 * (p / (2 * 2 ^ s)) + 1)) t := by
        intro t ht
        have hidx : p / (2 * 2 ^ s) * (2 * 2 ^ s) + (2 ^ s + t) =
            (2 * (p / (2 * 2 ^ s)) + 1) * 2 ^ s + t := by ring
        have hq : p / (2 * 2 ^ s) * (2 * 2 ^ s) + (2 ^ s + t) < 2 ^ M := by
          have h1 : (p / (2 * 2 ^ s) + 1) * (2 * 2 ^ s) =
              p / (2 * 2 ^ s) * (2 * 2 ^ s) + 2 * 2 ^ s := by ring
          omega
        rw [ihp _, if_pos hq, hidx,
          (block_div_mod (2 ^ s) (2 * (p / (2 * 2 ^ s)) + 1) t ht).1,
          (block_div_mod (2 ^ s) (2 * (p / (2 * 2 ^ s)) + 1) t ht).2]
      have hmain := stageOut_eq_dht s d1 (stagesIter (2 ^ M) s d1)
        (p / (2 * 2 ^ s)) (p % (2 * 2 ^ s)) ho hInE hInO
      rw [hmain, h2s1]
    · have hnd : ¬ p / (2 * 2 ^ s) < 2 ^ M / (2 * 2 ^ s) := by
        intro hc
        exact hp ((div_lt_div_iff_dvd (by omega) hdvd).1 hc)
      rw [if_neg hnd, if_neg hp, ihp p, if_neg hp]

/-- The forward FHT of a length-`2^M` buffer computes the discrete
Hartley transform of the input at every in-range index. -/
lemma FHT_forward_spec (d : ℕ → ℝ) (M : ℕ) (hM : 1 ≤ M) (p : ℕ) (hp : p < 2 ^ M) :
    FHT d M false p = dht (2 ^ M) d p := by
  show stageLoop (2 ^ M) 1 Real.pi (brPass (2 ^ M / 2) (2 ^ M) d) p = _
  rw [stageLoop_eq_stagesIter M hM,
    stagesIter_spec M (brPass (2 ^ M / 2) (2 ^ M) d) M le_rfl p, if_pos hp,
    Nat.div_eq_of_lt hp, Nat.mod_eq_of_lt hp]
  apply dht_congr
  intro j hj
  simp only [subSeq, Nat.zero_mul, Nat.zero_add]
  rw [brPass_spec M hM d (bitrev M j), if_pos (bitrev_lt M j), bitrev_bitrev M j hj]

/-- Geometric-sum evaluation of the complex exponential kernel. -/
lemma sum_exp_kernel (N : ℕ) (hN : 0 < N) (m : ℤ) :
    ∑ k ∈ Finset.range N,
        Complex.exp (((2 * Real.pi * m * k / N : ℝ) : ℂ) * Complex.I) =
      if (N : ℤ) ∣ m then (N : ℂ) else 0 := by
  have hNR : ((N : ℕ) : ℝ) ≠ 0 := Nat.cast_ne_zero.2 (by omega)
  have hNC : ((N : ℕ) : ℂ) ≠ 0 := Nat.cast_ne_zero.2 (by omega)
  have hsummand : ∀ k : ℕ,
      Complex.exp (((2 * Real.pi * m * k / N : ℝ) : ℂ) * Complex.I) =
        Complex.exp (((2 * Real.pi * m / N : ℝ) : ℂ) * Complex.I) ^ k := by
    intro k
    rw [← Complex.exp_nat_mul]
    congr 1
    push_cast
    ring
  rw [Finset.sum_congr rfl (fun k _ => hsummand k)]
  by_cases hdvd : (N : ℤ) ∣ m
  · rw [if_pos hdvd]
    obtain ⟨q, hq⟩ := hdvd
    have hz1 : Complex.exp (((2 * Real.pi * m / N : ℝ) : ℂ) * Complex.I) = 1 := by
      have harg : (((2 * Real.pi * m / N : ℝ) : ℂ) * Complex.I) =
          (q : ℂ) * (2 * (Real.pi : ℂ) * Complex.I) := by
        rw [hq]
        push_cast
        field_simp
        ring
      rw [harg, Complex.exp_int_mul_two_pi_mul_I]
    calc ∑ k ∈ Finset.range N,
          Complex.exp (((2 * Real.pi * m / N : ℝ) : ℂ) * Complex.I) ^ k
        = ∑ _k ∈ Finset.range N, (1 : ℂ) :=
          Finset.sum_congr rfl (fun k _ => by rw [hz1, one_pow])
      _ = (N : ℂ) := by simp
  · rw [if_neg hdvd]
    have hz1 : Complex.exp (((2 * Real.pi * m / N : ℝ) : ℂ) * Complex.I) ≠ 1 := by
      intro h
      obtain ⟨n, hn⟩ := Complex.exp_eq_one_iff.1 h
      have him := congrArg Complex.im hn
      simp [Complex.mul_im, Complex.mul_re] at him
      have hmr : (m : ℝ) = n * N := by
        field_simp at him
        have h2 : 2 * Real.pi * (m : ℝ) = 2 * Real.pi * ((n : ℝ) * N) := by
          linear_combination him
        exact mul_left_cancel₀ (by positivity) h2
      have hmz : m = n * N := by exact_mod_cast hmr
      exact hdvd ⟨n, by rw [hmz]; ring⟩
    rw [geom_sum_eq hz1]
    have hzN : Complex.exp (((2 * Real.pi * m / N : ℝ) : ℂ) * Complex.I) ^ N = 1 := by
      rw [← Complex.exp_nat_mul]
      have harg : ((N : ℕ) : ℂ) * (((2 * Real.pi * m / N : ℝ) : ℂ) * Complex.I) =
          (m : ℂ) * (2 * (Real.pi : ℂ) * Complex.I) := by
        push_cast
        field_simp
        ring
      rw [harg, Complex.exp_int_mul_two_pi_mul_I]
    rw [hzN, sub_self, zero_div]

lemma sum_cos_kernel (N : ℕ) (hN : 0 < N) (m : ℤ) :
    ∑ k ∈ Finset.range N, Real.cos (2 * Real.pi * m * k / N) =
      if (N : ℤ) ∣ m then (N : ℝ) else 0 := by
  have h := congrArg Complex.re (sum_exp_kernel N hN m)
  rw [Complex.re_sum] at h
  have hterm : ∀ k ∈ Finset.range N,
      (Complex.exp (((2 * Real.pi * m * k / N : ℝ) : ℂ) * Complex.I)).re =
        Real.cos (2 * Real.pi * m * k / N) :=
    fun k _ => Complex.exp_ofReal_mul_I_re _
  rw [Finset.sum_congr rfl hterm] at h
  rw [h]
  by_cases hdvd : (N : ℤ) ∣ m
  · rw [if_pos hdvd, if_pos hdvd, Complex.natCast_re]
  · rw [if_neg hdvd, if_neg hdvd, Complex.zero_re]

lemma sum_sin_kernel (N : ℕ) (hN : 0 < N) (m : ℤ) :
    ∑ k ∈ Finset.range N, Real.sin (2 * Real.pi * m * k / N) = 0 := by
  have h := congrArg Complex.im (sum_exp_kernel N hN m)
  rw [Complex.im_sum] at h
  have hterm : ∀ k ∈ Finset.range N,
      (Complex.exp (((2 * Real.pi * m * k / N : ℝ) : ℂ) * Complex.I)).im =
        Real.sin (2 * Real.pi * m * k / N) :=
    fun k _ => Complex.exp_ofReal_mul_I_im _
  rw [Finset.sum_congr rfl hterm] at h
  rw [h]
  by_cases hdvd : (N : ℤ) ∣ m
  · rw [if_pos hdvd, Complex.natCast_im]
  · rw [if_neg hdvd, Complex.zero_im]

lemma cas_mul (a b : ℝ) : cas a * cas b = Real.cos (a - b) + Real.sin (a + b) := by
  simp only [cas, Real.cos_sub, Real.sin_add]
  ring

/-- DHT inversion: applying the transform twice multiplies by `N`. -/
lemma dht_dht (N : ℕ) (hN : 0 < N) (x : ℕ → ℝ) (i : ℕ) (hi : i < N) :
    dht N (fun k => dht N x k) i = (N : ℝ) * x i := by
  have hNR : ((N : ℕ) : ℝ) ≠ 0 := Nat.cast_ne_zero.2 (by omega)
  simp only [dht]
  have hstep1 : ∀ j : ℕ,
      (∑ t ∈ Finset.range N, x t * cas (2 * Real.pi * t * j / N)) *
          cas (2 * Real.pi * j * i / N)
        = ∑ t ∈ Finset.range N, x t *
            (Real.cos (2 * Real.pi * (((t : ℤ) - i : ℤ) : ℝ) * j / N)
              + Real.sin (2 * Real.pi * (((t : ℤ) + i : ℤ) : ℝ) * j / N)) := by
    intro j
    rw [Finset.sum_mul]
    refine Finset.sum_congr rfl (fun t _ => ?_)
    rw [mul_assoc, cas_mul,
      show (2 * Real.pi * (t : ℝ) * (j : ℝ) / (N : ℝ)) -
          2 * Real.pi * (j : ℝ) * (i : ℝ) / (N : ℝ) =
        2 * Real.pi * (((t : ℤ) - i : ℤ) : ℝ) * j / N from by push_cast; ring,
      show (2 * Real.pi * (t : ℝ) * (j : ℝ) / (N : ℝ)) +
          2 * Real.pi * (j : ℝ) * (i : ℝ) / (N : ℝ) =
        2 * Real.pi * (((t : ℤ) + i : ℤ) : ℝ) * j / N from by push_cast; ring]
  rw [Finset.sum_congr rfl (fun j _ => hstep1 j), Finset.sum_comm]
  have hstep2 : ∀ t ∈ Finset.range N,
      ∑ j ∈ Finset.range N, x t *
          (Real.cos (2 * Real.pi * (((t : ℤ) - i : ℤ) : ℝ) * j / N)
            + Real.sin (2 * Real.pi * (((t : ℤ) + i : ℤ) : ℝ) * j / N))
        = x t * (if (N : ℤ) ∣ ((t : ℤ) - i) then (N : ℝ) else 0) := by
    intro t _
    rw [← Finset.mul_sum, Finset.sum_add_distrib, sum_cos_kernel N hN ((t : ℤ) - i),
      sum_sin_kernel N hN ((t : ℤ) + i), add_zero]
  rw [Finset.sum_congr rfl hstep2, Finset.sum_eq_single i]
  · rw [if_pos (by simp), mul_comm]
  · intro t htm htne
    rw [if_neg, mul_zero]
    intro hd
    have htN := Finset.mem_range.mp htm
    have habs : |(t : ℤ) - i| < N := by
      rw [abs_lt]
      constructor
      · omega
      · omega
    have h0 := Int.eq_zero_of_abs_lt_dvd hd habs
    exact htne (by omega)
  · intro hmem
    exact absurd (Finset.mem_range.mpr hi) hmem

/-- C2: for every buffer of length `2^M` with `M ≥ 1`, applying `FHT` in
forward mode and then in inverse mode (which scales every sample by
`1/2^M`) returns the original buffer at every in-range index: the inverse
transform exactly undoes the forward transform. -/
theorem FHT_inverse_forward_id (d : ℕ → ℝ) (M : ℕ) (hM : 1 ≤ M) (i : ℕ)
    (hi : i < 2 ^ M) :
    FHT (FHT d M false) M true i = d i := by
  have hN0 : (0 : ℕ) < 2 ^ M := Nat.pos_pow_of_pos M (by norm_num)
  have hNR : ((2 ^ M : ℕ) : ℝ) ≠ 0 := Nat.cast_ne_zero.2 (by omega)
  have hinv : FHT (FHT d M false) M true i =
      stageLoop (2 ^ M) 1 Real.pi (brPass (2 ^ M / 2) (2 ^ M) (FHT d M false)) i *
        (1 / ((2 ^ M : ℕ) : ℝ)) := by
    show (if i < 2 ^ M then
        stageLoop (2 ^ M) 1 Real.pi (brPass (2 ^ M / 2) (2 ^ M) (FHT d M false)) i *
          (1 / ((2 ^ M : ℕ) : ℝ))
      else stageLoop (2 ^ M) 1 Real.pi (brPass (2 ^ M / 2) (2 ^ M) (FHT d M false)) i)
        = _
    rw [if_pos hi]
  have hfwd : stageLoop (2 ^ M) 1 Real.pi
      (brPass (2 ^ M / 2) (2 ^ M) (FHT d M false)) i =
        dht (2 ^ M) (FHT d M false) i :=
    FHT_forward_spec (FHT d M false) M hM i hi
  have hcong : dht (2 ^ M) (FHT d M false) i =
      dht (2 ^ M) (fun k => dht (2 ^ M) d k) i :=
    dht_congr _ _ _ i (fun j hj => FHT_forward_spec d M hM j hj)
  rw [hinv, hfwd, hcong, dht_dht (2 ^ M) hN0 d i hi]
  field_simp

/-- Concrete instance of the round-trip identity at `M = 1`, index `0`. -/
theorem FHT_inverse_forward_id_witness :
    1 ≤ 1 ∧ 0 < 2 ^ 1 ∧
      FHT (FHT (fun p => (p : ℝ)) 1 false) 1 true 0 = ((0 : ℕ) : ℝ) :=
  ⟨le_rfl, by norm_num,
    FHT_inverse_forward_id (fun p => (p : ℝ)) 1 le_rfl 0 (by norm_num)⟩

/-- A fold whose steps only modify their own cell leaves untouched points
unchanged. -/
lemma foldl_local_unchanged (T : ℕ → ℕ → Prop) (step : (ℕ → ℝ) → ℕ → (ℕ → ℝ)) :
    ∀ (l : List ℕ), (∀ d i p, i ∈ l → ¬ T i p → step d i p = d p) →
      ∀ (d : ℕ → ℝ) (p : ℕ), (¬ ∃ i ∈ l, T i p) → l.foldl step d p = d p := by
  intro l
  induction l with
  | nil =>
    intro _ d p _
    rfl
  | cons i0 rest ih =>
    intro hw d p hnt
    rw [List.foldl_cons]
    have h1 : ¬ T i0 p := fun h => hnt ⟨i0, List.mem_cons_self i0 rest, h⟩
    have h2 : ¬ ∃ i ∈ rest, T i p := fun ⟨i, hi, h⟩ =>
      hnt ⟨i, List.mem_cons_of_mem i0 hi, h⟩
    rw [ih (fun d i p hi => hw d i p (List.mem_cons_of_mem i0 hi)) (step d i0) p h2,
      hw d i0 p (List.mem_cons_self i0 rest) h1]

/-- Two folds over the same list of pairwise-disjoint cells, whose steps
write only inside their own cell and produce equal values there whenever
their inputs restrict to the reference buffers `x` and `y` on the cell,
agree on every touched point and leave untouched points unchanged. -/
lemma foldl_pair_local (x y : ℕ → ℝ) (T : ℕ → ℕ → Prop)
    (stepA stepB : (ℕ → ℝ) → ℕ → (ℕ → ℝ)) :
    ∀ (l : List ℕ) (dA dB : ℕ → ℝ),
      (∀ d i p, i ∈ l → ¬ T i p → stepA d i p = d p) →
      (∀ d i p, i ∈ l → ¬ T i p → stepB d i p = d p) →
      (∀ (dA' dB' : ℕ → ℝ) i, i ∈ l → (∀ q, T i q → dA' q = x q) →
        (∀ q, T i q → dB' q = y q) → ∀ p, T i p → stepA dA' i p = stepB dB' i p) →
      (∀ i p, i ∈ l → T i p → dA p = x p ∧ dB p = y p) →
      l.Pairwise (fun i j => ∀ p, ¬ (T i p ∧ T j p)) →
      ∀ p, ((∃ i ∈ l, T i p) → l.foldl stepA dA p = l.foldl stepB dB p) ∧
        ((¬ ∃ i ∈ l, T i p) → l.foldl stepA dA p = dA p ∧ l.foldl stepB dB p = dB p) := by
  intro l
  induction l with
  | nil =>
    intro dA dB _ _ _ _ _ p
    exact ⟨fun ⟨i, hi, _⟩ => absurd hi (List.not_mem_nil i), fun _ => ⟨rfl, rfl⟩⟩
  | cons i0 rest ih =>
    intro dA dB hwA hwB hsym hinit hdisj p
    rw [List.foldl_cons, List.foldl_cons]
    have hd0 : ∀ j ∈ rest, ∀ q, ¬ (T i0 q ∧ T j q) := (List.pairwise_cons.1 hdisj).1
    have hdr : rest.Pairwise (fun i j => ∀ q, ¬ (T i q ∧ T j q)) :=
      (List.pairwise_cons.1 hdisj).2
    have hwA' : ∀ d i q, i ∈ rest → ¬ T i q → stepA d i q = d q :=
      fun d i q hi => hwA d i q (List.mem_cons_of_mem i0 hi)
    have hwB' : ∀ d i q, i ∈ rest → ¬ T i q → stepB d i q = d q :=
      fun d i q hi => hwB d i q (List.mem_cons_of_mem i0 hi)
    have hsym' : ∀ (dA' dB' : ℕ → ℝ) i, i ∈ rest → (∀ q, T i q → dA' q = x q) →
        (∀ q, T i q → dB' q = y q) → ∀ q, T i q → stepA dA' i q = stepB dB' i q :=
      fun dA' dB' i hi => hsym dA' dB' i (List.mem_cons_of_mem i0 hi)
    have hreadA : ∀ q, T i0 q → dA q = x q :=
      fun q hq => (hinit i0 q (List.mem_cons_self i0 rest) hq).1
    have hreadB : ∀ q, T i0 q → dB q = y q :=
      fun q hq => (hinit i0 q (List.mem_cons_self i0 rest) hq).2
    have hinit' : ∀ i q, i ∈ rest → T i q →
        stepA dA i0 q = x q ∧ stepB dB i0 q = y q := by
      intro i q hi hq
      have hnt : ¬ T i0 q := fun h0 => hd0 i hi q ⟨h0, hq⟩
      rw [hwA dA i0 q (List.mem_cons_self i0 rest) hnt,
        hwB dB i0 q (List.mem_cons_self i0 rest) hnt]
      exact hinit i q (List.mem_cons_of_mem i0 hi) hq
    have hih := ih (stepA dA i0) (stepB dB i0) hwA' hwB' hsym' hinit' hdr
    constructor
    · rintro ⟨i, hi, hTi⟩
      rcases List.mem_cons.1 hi with rfl | hir
      · have hnr : ¬ ∃ j ∈ rest, T j p := by
          rintro ⟨j, hj, hTj⟩
          exact hd0 j hj p ⟨hTi, hTj⟩
        rw [((hih p).2 hnr).1, ((hih p).2 hnr).2]
        exact hsym dA dB i (List.mem_cons_self i rest) hreadA hreadB p hTi
      · exact (hih p).1 ⟨i, hir, hTi⟩
    · intro hnt
      have h1 : ¬ T i0 p := fun h => hnt ⟨i0, List.mem_cons_self i0 rest, h⟩
      have h2 : ¬ ∃ i ∈ rest, T i p := fun ⟨i, hi, h⟩ =>
        hnt ⟨i, List.mem_cons_of_mem i0 hi, h⟩
      refine ⟨?_, ?_⟩
      · rw [((hih p).2 h2).1, hwA dA i0 p (List.mem_cons_self i0 rest) h1]
      · rw [((hih p).2 h2).2, hwB dB i0 p (List.mem_cons_self i0 rest) h1]

/-- Body of the first loop of `fht_convolve` (lines 200-210 of the source):
the bin group `{i, m-i, i+mn2, m-i+mn2}` of rows `0` and `n/2`. -/
noncomputable def convStep1 (m mn2 : ℕ) (d2 : ℕ → ℝ) (d : ℕ → ℝ) (i : ℕ) : ℕ → ℝ :=
  let k := m - i
  let a := d i * d2 i - d k * d2 k
  let b := d k * d2 i + d i * d2 k
  let du := upd (upd d i ((b + a) * (1 / 2))) k ((b - a) * (1 / 2))
  let a2 := du (i + mn2) * d2 (i + mn2) - du (k + mn2) * d2 (k + mn2)
  let b2 := du (k + mn2) * d2 (i + mn2) + du (i + mn2) * d2 (k + mn2)
  upd (upd du (i + mn2) ((b2 + a2) * (1 / 2))) (k + mn2) ((b2 - a2) * (1 / 2))

/-- Body of the second loop of `fht_convolve` (lines 211-223): the bin
group `{j*m, (n-j)*m, m/2+j*m, m/2+(n-j)*m}` of columns `0` and `m/2`. -/
noncomputable def convStep2 (m n m2 : ℕ) (d2 : ℕ → ℝ) (d : ℕ → ℝ) (j : ℕ) : ℕ → ℝ :=
  let mj := j * m
  let mL := (n - j) * m
  let a := d mj * d2 mj - d mL * d2 mL
  let b := d mL * d2 mj + d mj * d2 mL
  let du := upd (upd d mj ((b + a) * (1 / 2))) mL ((b - a) * (1 / 2))
  let a2 := du (m2 + mj) * d2 (m2 + mj) - du (m2 + mL) * d2 (m2 + mL)
  let b2 := du (m2 + mL) * d2 (m2 + mj) + du (m2 + mj) * d2 (m2 + mL)
  upd (upd du (m2 + mj) ((b2 + a2) * (1 / 2))) (m2 + mL) ((b2 - a2) * (1 / 2))

/-- Body of the inner loop of the third loop of `fht_convolve`
(lines 224-239): the interior bin group
`{i+j*m, m-i+(n-j)*m, i+(n-j)*m, m-i+j*m}`. -/
noncomputable def convStep3 (m n : ℕ) (d2 : ℕ → ℝ) (i : ℕ) (d : ℕ → ℝ) (j : ℕ) : ℕ → ℝ :=
  let k := m - i
  let mj := j * m
  let mL := (n - j) * m
  let a := d (i + mj) * d2 (i + mj) - d (k + mL) * d2 (k + mL)
  let b := d (k + mL) * d2 (i + mj) + d (i + mj) * d2 (k + mL)
  let du := upd (upd d (i + mj) ((b + a) * (1 / 2))) (k + mL) ((b - a) * (1 / 2))
  let a2 := du (i + mL) * d2 (i + mL) - du (k + mj) * d2 (k + mj)
  let b2 := du (k + mj) * d2 (i + mL) + du (i + mL) * d2 (k + mj)
  upd (upd du (i + mL) ((b2 + a2) * (1 / 2))) (k + mj) ((b2 - a2) * (1 / 2))

/-- One iteration of the outer third loop: the inner `j` loop in full. -/
noncomputable def convLoop3 (m n n2 : ℕ) (d2 : ℕ → ℝ) (d : ℕ → ℝ) (i : ℕ) : ℕ → ℝ :=
  (List.range' 1 (n2 - 1) 1).foldl (convStep3 m n d2 i) d

/-- The four self-conjugate corner bins of `fht_convolve`
(lines 195-198): `d1[0] *= d2[0]` and the three analogous statements. -/
noncomputable def cornerPhase (m2 mn2 : ℕ) (d1 d2 : ℕ → ℝ) : ℕ → ℝ :=
  let dA := upd d1 0 (d1 0 * d2 0)
  let dB := upd dA mn2 (dA mn2 * d2 mn2)
  let dC := upd dB m2 (dB m2 * d2 m2)
  upd dC (m2 + mn2) (dC (m2 + mn2) * d2 (m2 + mn2))

/-- Hartley-domain spectral multiplication `d1 *= d2` of `fht_convolve`
(lines 187-239): the four self-conjugate corner bins, then the three loops
over the remaining bin groups. -/
noncomputable def fht_convolve (d1 d2 : ℕ → ℝ) (M N : ℕ) : ℕ → ℝ :=
  let m := 2 ^ M
  let n := 2 ^ N
  let m2 := 2 ^ (M - 1)
  let n2 := 2 ^ (N - 1)
  let mn2 := m * n2
  let dD := cornerPhase m2 mn2 d1 d2
  let dE := (List.range' 1 (m2 - 1) 1).foldl (convStep1 m mn2 d2) dD
  let dF := (List.range' 1 (n2 - 1) 1).foldl (convStep2 m n m2 d2) dE
  (List.range' 1 (m2 - 1) 1).foldl (convLoop3 m n n2 d2) dF

lemma convStep1_unchanged (m mn2 : ℕ) (d2 d : ℕ → ℝ) (i p : ℕ)
    (h : ¬ (p = i ∨ p = m - i ∨ p = i + mn2 ∨ p = m - i + mn2)) :
    convStep1 m mn2 d2 d i p = d p := by
  push_neg at h
  obtain ⟨h1, h2, h3, h4⟩ := h
  simp only [convStep1, upd]
  rw [if_neg h4, if_neg h3, if_neg h2, if_neg h1]

lemma convStep1_sym (m mn2 : ℕ) (x y dA dB : ℕ → ℝ) (i : ℕ)
    (h1 : 1 ≤ i) (h2 : 2 * i + 2 ≤ m) (hm : m ≤ mn2)
    (hA : ∀ q, (q = i ∨ q = m - i ∨ q = i + mn2 ∨ q = m - i + mn2) → dA q = x q)
    (hB : ∀ q, (q = i ∨ q = m - i ∨ q = i + mn2 ∨ q = m - i + mn2) → dB q = y q)
    (p : ℕ) (hp : p = i ∨ p = m - i ∨ p = i + mn2 ∨ p = m - i + mn2) :
    convStep1 m mn2 y dA i p = convStep1 m mn2 x dB i p := by
  have hAi := hA i (Or.inl rfl)
  have hAk := hA (m - i) (Or.inr (Or.inl rfl))
  have hAi2 := hA (i + mn2) (Or.inr (Or.inr (Or.inl rfl)))
  have hAk2 := hA (m - i + mn2) (Or.inr (Or.inr (Or.inr rfl)))
  have hBi := hB i (Or.inl rfl)
  have hBk := hB (m - i) (Or.inr (Or.inl rfl))
  have hBi2 := hB (i + mn2) (Or.inr (Or.inr (Or.inl rfl)))
  have hBk2 := hB (m - i + mn2) (Or.inr (Or.inr (Or.inr rfl)))
  simp only [convStep1, upd]
  rw [hAi, hAk, hAi2, hAk2, hBi, hBk, hBi2, hBk2]
  rcases hp with rfl | rfl | rfl | rfl <;> split_ifs <;> first | omega | ring

lemma convStep2_unchanged (m n m2 : ℕ) (d2 d : ℕ → ℝ) (j p : ℕ)
    (h : ¬ (p = j * m ∨ p = (n - j) * m ∨ p = m2 + j * m ∨ p = m2 + (n - j) * m)) :
    convStep2 m n m2 d2 d j p = d p := by
  push_neg at h
  obtain ⟨h1, h2, h3, h4⟩ := h
  simp only [convStep2, upd]
  rw [if_neg h4, if_neg h3, if_neg h2, if_neg h1]

lemma convStep3_unchanged (m n : ℕ) (d2 d : ℕ → ℝ) (i j p : ℕ)
    (h : ¬ (p = i + j * m ∨ p = m - i + (n - j) * m ∨ p = i + (n - j) * m ∨
      p = m - i + j * m)) :
    convStep3 m n d2 i d j p = d p := by
  push_neg at h
  obtain ⟨h1, h2, h3, h4⟩ := h
  simp only [convStep3, upd]
  rw [if_neg h4, if_neg h3, if_neg h2, if_neg h1]

/-- Common shape of one `fht_convolve` bin-group update: two
sum/difference pairs written over their own four read locations. -/
noncomputable def binGroup (p1 p2 p3 p4 : ℕ) (c1 c2 c3 c4 : ℝ) (d : ℕ → ℝ) : ℕ → ℝ :=
  let a := d p1 * c1 - d p2 * c2
  let b := d p2 * c1 + d p1 * c2
  let du := upd (upd d p1 ((b + a) * (1 / 2))) p2 ((b - a) * (1 / 2))
  let a2 := du p3 * c3 - du p4 * c4
  let b2 := du p4 * c3 + du p3 * c4
  upd (upd du p3 ((b2 + a2) * (1 / 2))) p4 ((b2 - a2) * (1 / 2))

lemma binGroup_sym (p1 p2 p3 p4 : ℕ) (x y dA dB : ℕ → ℝ)
    (h21 : p2 ≠ p1) (h31 : p3 ≠ p1) (h32 : p3 ≠ p2) (h41 : p4 ≠ p1)
    (h42 : p4 ≠ p2) (h43 : p4 ≠ p3)
    (hA1 : dA p1 = x p1) (hA2 : dA p2 = x p2) (hA3 : dA p3 = x p3)
    (hA4 : dA p4 = x p4)
    (hB1 : dB p1 = y p1) (hB2 : dB p2 = y p2) (hB3 : dB p3 = y p3)
    (hB4 : dB p4 = y p4)
    (p : ℕ) (hp : p = p1 ∨ p = p2 ∨ p = p3 ∨ p = p4) :
    binGroup p1 p2 p3 p4 (y p1) (y p2) (y p3) (y p4) dA p =
      binGroup p1 p2 p3 p4 (x p1) (x p2) (x p3) (x p4) dB p := by
  simp only [binGroup, upd]
  rw [hA1, hA2, hA3, hA4, hB1, hB2, hB3, hB4]
  rcases hp with rfl | rfl | rfl | rfl <;> split_ifs <;> first | omega | ring

lemma binGroup_unchanged (p1 p2 p3 p4 : ℕ) (c1 c2 c3 c4 : ℝ) (d : ℕ → ℝ) (p : ℕ)
    (h : ¬ (p = p1 ∨ p = p2 ∨ p = p3 ∨ p = p4)) :
    binGroup p1 p2 p3 p4 c1 c2 c3 c4 d p = d p := by
  push_neg at h
  obtain ⟨h1, h2, h3, h4⟩ := h
  simp only [binGroup, upd]
  rw [if_neg h4, if_neg h3, if_neg h2, if_neg h1]

lemma convStep2_eq_binGroup (m n m2 : ℕ) (d2 d : ℕ → ℝ) (j : ℕ) :
    convStep2 m n m2 d2 d j =
      binGroup (j * m) ((n - j) * m) (m2 + j * m) (m2 + (n - j) * m)
        (d2 (j * m)) (d2 ((n - j) * m)) (d2 (m2 + j * m)) (d2 (m2 + (n - j) * m)) d :=
  rfl

lemma convStep3_eq_binGroup (m n : ℕ) (d2 d : ℕ → ℝ) (i j : ℕ) :
    convStep3 m n d2 i d j =
      binGroup (i + j * m) (m - i + (n - j) * m) (i + (n - j) * m) (m - i + j * m)
        (d2 (i + j * m)) (d2 (m - i + (n - j) * m)) (d2 (i + (n - j) * m))
        (d2 (m - i + j * m)) d :=
  rfl

lemma convStep1_eq_binGroup (m mn2 : ℕ) (d2 d : ℕ → ℝ) (i : ℕ) :
    convStep1 m mn2 d2 d i =
      binGroup i (m - i) (i + mn2) (m - i + mn2)
        (d2 i) (d2 (m - i)) (d2 (i + mn2)) (d2 (m - i + mn2)) d :=
  rfl

lemma convStep2_sym (m n m2 : ℕ) (x y dA dB : ℕ → ℝ) (j : ℕ)
    (_h1 : 1 ≤ j) (h2 : 2 * j + 2 ≤ n) (hm2 : 1 ≤ m2) (hmm : 2 * m2 ≤ m)
    (hA : ∀ q, (q = j * m ∨ q = (n - j) * m ∨ q = m2 + j * m ∨
      q = m2 + (n - j) * m) → dA q = x q)
    (hB : ∀ q, (q = j * m ∨ q = (n - j) * m ∨ q = m2 + j * m ∨
      q = m2 + (n - j) * m) → dB q = y q)
    (p : ℕ) (hp : p = j * m ∨ p = (n - j) * m ∨ p = m2 + j * m ∨
      p = m2 + (n - j) * m) :
    convStep2 m n m2 y dA j p = convStep2 m n m2 x dB j p := by
  have hgap : j * m + m ≤ (n - j) * m := by
    have h := Nat.mul_le_mul_right m (show j + 1 ≤ n - j from by omega)
    rw [Nat.add_mul, one_mul] at h
    exact h
  rw [convStep2_eq_binGroup, convStep2_eq_binGroup]
  exact binGroup_sym (j * m) ((n - j) * m) (m2 + j * m) (m2 + (n - j) * m) x y dA dB
    (by omega) (by omega) (by omega) (by omega) (by omega) (by omega)
    (hA _ (Or.inl rfl)) (hA _ (Or.inr (Or.inl rfl)))
    (hA _ (Or.inr (Or.inr (Or.inl rfl)))) (hA _ (Or.inr (Or.inr (Or.inr rfl))))
    (hB _ (Or.inl rfl)) (hB _ (Or.inr (Or.inl rfl)))
    (hB _ (Or.inr (Or.inr (Or.inl rfl)))) (hB _ (Or.inr (Or.inr (Or.inr rfl))))
    p hp

lemma convStep3_sym (m n : ℕ) (x y dA dB : ℕ → ℝ) (i j : ℕ)
    (hi1 : 1 ≤ i) (hi2 : 2 * i + 2 ≤ m) (_hj1 : 1 ≤ j) (hj2 : 2 * j + 2 ≤ n)
    (hA : ∀ q, (q = i + j * m ∨ q = m - i + (n - j) * m ∨ q = i + (n - j) * m ∨
      q = m - i + j * m) → dA q = x q)
    (hB : ∀ q, (q = i + j * m ∨ q = m - i + (n - j) * m ∨ q = i + (n - j) * m ∨
      q = m - i + j * m) → dB q = y q)
    (p : ℕ) (hp : p = i + j * m ∨ p = m - i + (n - j) * m ∨ p = i + (n - j) * m ∨
      p = m - i + j * m) :
    convStep3 m n y i dA j p = convStep3 m n x i dB j p := by
  have hgap : j * m + m ≤ (n - j) * m := by
    have h := Nat.mul_le_mul_right m (show j + 1 ≤ n - j from by omega)
    rw [Nat.add_mul, one_mul] at h
    exact h
  rw [convStep3_eq_binGroup, convStep3_eq_binGroup]
  exact binGroup_sym (i + j * m) (m - i + (n - j) * m) (i + (n - j) * m)
    (m - i + j * m) x y dA dB
    (by omega) (by omega) (by omega) (by omega) (by omega) (by omega)
    (hA _ (Or.inl rfl)) (hA _ (Or.inr (Or.inl rfl)))
    (hA _ (Or.inr (Or.inr (Or.inl rfl)))) (hA _ (Or.inr (Or.inr (Or.inr rfl))))
    (hB _ (Or.inl rfl)) (hB _ (Or.inr (Or.inl rfl)))
    (hB _ (Or.inr (Or.inr (Or.inl rfl)))) (hB _ (Or.inr (Or.inr (Or.inr rfl))))
    p hp

lemma pairwise_range'_of (s t : ℕ) (R : ℕ → ℕ → Prop) (h : ∀ i j, i < j → R i j) :
    (List.range' s t 1).Pairwise R :=
  (List.pairwise_lt_range' s t).imp (fun hab => h _ _ hab)

lemma corner_rowcol (m n2 m2 mn2 : ℕ) (hm2 : 2 * m2 = m) (hm2p : 1 ≤ m2)
    (hmn2 : mn2 = m * n2) (p : ℕ)
    (h : p = 0 ∨ p = mn2 ∨ p = m2 ∨ p = m2 + mn2) :
    (p % m = 0 ∨ p % m = m2) ∧ (p / m = 0 ∨ p / m = n2) := by
  have hm0 : 0 < m := by omega
  rcases h with rfl | rfl | rfl | rfl
  · simp
  · have h1 := block_div_mod m n2 0 hm0
    rw [Nat.add_zero] at h1
    rw [hmn2, Nat.mul_comm m n2, h1.1, h1.2]
    omega
  · rw [Nat.mod_eq_of_lt (by omega), Nat.div_eq_of_lt (by omega)]
    omega
  · have h1 := block_div_mod m n2 m2 (by omega)
    rw [hmn2, show m2 + m * n2 = n2 * m + m2 from by ring, h1.1, h1.2]
    omega

lemma corner_of_rowcol (m n2 m2 mn2 : ℕ) (hm2 : 2 * m2 = m)
    (hmn2 : mn2 = m * n2) (p : ℕ)
    (h : (p % m = 0 ∨ p % m = m2) ∧ (p / m = 0 ∨ p / m = n2)) :
    p = 0 ∨ p = mn2 ∨ p = m2 ∨ p = m2 + mn2 := by
  have hdm := Nat.div_add_mod p m
  rcases h.1 with h1 | h1 <;> rcases h.2 with h2 | h2 <;> rw [h1, h2] at hdm <;> omega

lemma touch1_rowcol (m n2 m2 mn2 : ℕ) (hm2 : 2 * m2 = m) (hmn2 : mn2 = m * n2)
    (i p : ℕ) (hb : 1 ≤ i ∧ 2 * i + 2 ≤ m)
    (hc : p = i ∨ p = m - i ∨ p = i + mn2 ∨ p = m - i + mn2) :
    (p / m = 0 ∨ p / m = n2) ∧ ¬ (p % m = 0 ∨ p % m = m2) := by
  have hm0 : 0 < m := by omega
  rcases hc with rfl | rfl | rfl | rfl
  · rw [Nat.mod_eq_of_lt (by omega), Nat.div_eq_of_lt (by omega)]
    omega
  · rw [Nat.mod_eq_of_lt (by omega), Nat.div_eq_of_lt (by omega)]
    omega
  · have h1 := block_div_mod m n2 i (by omega)
    rw [hmn2, show i + m * n2 = n2 * m + i from by ring, h1.1, h1.2]
    omega
  · have h1 := block_div_mod m n2 (m - i) (by omega)
    rw [hmn2, show m - i + m * n2 = n2 * m + (m - i) from by ring, h1.1, h1.2]
    omega

lemma touch1_of_rowcol (m n2 m2 mn2 : ℕ) (hm2 : 2 * m2 = m)
    (hm2p : 1 ≤ m2) (hmn2 : mn2 = m * n2) (p : ℕ)
    (h : (p / m = 0 ∨ p / m = n2) ∧ ¬ (p % m = 0 ∨ p % m = m2)) :
    ∃ i ∈ List.range' 1 (m2 - 1) 1, (1 ≤ i ∧ 2 * i + 2 ≤ m) ∧
      (p = i ∨ p = m - i ∨ p = i + mn2 ∨ p = m - i + mn2) := by
  have hm0 : 0 < m := by omega
  have hdm := Nat.div_add_mod p m
  have hcm : p % m < m := Nat.mod_lt _ hm0
  push_neg at h
  obtain ⟨hr, hc0, hcm2⟩ : (p / m = 0 ∨ p / m = n2) ∧ p % m ≠ 0 ∧ p % m ≠ m2 :=
    ⟨h.1, h.2.1, h.2.2⟩
  by_cases hlow : p % m < m2
  · refine ⟨p % m, List.mem_range'_1.2 (by omega), ⟨by omega, by omega⟩, ?_⟩
    rcases hr with hr | hr <;> rw [hr] at hdm
    · left
      omega
    · right; right; left
      rw [hmn2]
      omega
  · refine ⟨m - p % m, List.mem_range'_1.2 (by omega), ⟨by omega, by omega⟩, ?_⟩
    rcases hr with hr | hr <;> rw [hr] at hdm
    · right; left
      omega
    · right; right; right
      rw [hmn2]
      omega

lemma touch2_rowcol (m n n2 m2 : ℕ) (hm2 : 2 * m2 = m) (hn2 : 2 * n2 = n)
    (hm2p : 1 ≤ m2) (j p : ℕ) (hb : 1 ≤ j ∧ 2 * j + 2 ≤ n)
    (hc : p = j * m ∨ p = (n - j) * m ∨ p = m2 + j * m ∨ p = m2 + (n - j) * m) :
    (p % m = 0 ∨ p % m = m2) ∧ ¬ (p / m = 0 ∨ p / m = n2) := by
  have hm0 : 0 < m := by omega
  rcases hc with rfl | rfl | rfl | rfl
  · have h1 := block_div_mod m j 0 hm0
    rw [Nat.add_zero] at h1
    rw [h1.1, h1.2]
    omega
  · have h1 := block_div_mod m (n - j) 0 hm0
    rw [Nat.add_zero] at h1
    rw [h1.1, h1.2]
    omega
  · have h1 := block_div_mod m j m2 (by omega)
    rw [show m2 + j * m = j * m + m2 from by ring, h1.1, h1.2]
    omega
  · have h1 := block_div_mod m (n - j) m2 (by omega)
    rw [show m2 + (n - j) * m = (n - j) * m + m2 from by ring, h1.1, h1.2]
    omega

lemma touch2_of_rowcol (m n n2 m2 : ℕ) (hm2 : 2 * m2 = m) (hn2 : 2 * n2 = n)
    (hm2p : 1 ≤ m2) (hn2p : 1 ≤ n2) (p : ℕ) (hp : p < m * n)
    (h : (p % m = 0 ∨ p % m = m2) ∧ ¬ (p / m = 0 ∨ p / m = n2)) :
    ∃ j ∈ List.range' 1 (n2 - 1) 1, (1 ≤ j ∧ 2 * j + 2 ≤ n) ∧
      (p = j * m ∨ p = (n - j) * m ∨ p = m2 + j * m ∨ p = m2 + (n - j) * m) := by
  have hm0 : 0 < m := by omega
  have hdm := Nat.div_add_mod p m
  have hrn : p / m < n := Nat.div_lt_of_lt_mul hp
  push_neg at h
  obtain ⟨hc, hr0, hrn2⟩ : (p % m = 0 ∨ p % m = m2) ∧ p / m ≠ 0 ∧ p / m ≠ n2 :=
    ⟨h.1, h.2.1, h.2.2⟩
  obtain ⟨q, hq⟩ : ∃ q, q = p / m := ⟨_, rfl⟩
  rw [← hq] at hdm hrn hr0 hrn2
  by_cases hlow : q < n2
  · have hmem : q ∈ List.range' 1 (n2 - 1) 1 := List.mem_range'_1.2 ⟨by omega, by omega⟩
    refine ⟨q, hmem, ⟨by omega, by omega⟩, ?_⟩
    rcases hc with hc | hc <;> rw [hc] at hdm
    · left
      rw [Nat.mul_comm]
      omega
    · right; right; left
      rw [Nat.mul_comm q m]
      omega
  · have hmem : n - q ∈ List.range' 1 (n2 - 1) 1 := List.mem_range'_1.2 ⟨by omega, by omega⟩
    refine ⟨n - q, hmem, ⟨by omega, by omega⟩, ?_⟩
    have hnn : n - (n - q) = q := by omega
    rw [hnn]
    rcases hc with hc | hc <;> rw [hc] at hdm
    · right; left
      rw [Nat.mul_comm]
      omega
    · right; right; right
      rw [Nat.mul_comm q m]
      omega

lemma touch3_of_rowcol (m n n2 m2 : ℕ) (hm2 : 2 * m2 = m) (hn2 : 2 * n2 = n)
    (hm2p : 1 ≤ m2) (p : ℕ) (hp : p < m * n)
    (h : ¬ (p % m = 0 ∨ p % m = m2) ∧ ¬ (p / m = 0 ∨ p / m = n2)) :
    ∃ i ∈ List.range' 1 (m2 - 1) 1, (1 ≤ i ∧ 2 * i + 2 ≤ m) ∧
      (p % m = i ∨ p % m = m - i) ∧
      (1 ≤ p / m ∧ p / m ≤ n - 1 ∧ p / m ≠ n2) := by
  have hm0 : 0 < m := by omega
  have hrn : p / m < n := Nat.div_lt_of_lt_mul hp
  have hcm : p % m < m := Nat.mod_lt _ hm0
  push_neg at h
  obtain ⟨hc0, hcm2, hr0, hrn2⟩ :
      p % m ≠ 0 ∧ p % m ≠ m2 ∧ p / m ≠ 0 ∧ p / m ≠ n2 :=
    ⟨h.1.1, h.1.2, h.2.1, h.2.2⟩
  obtain ⟨q, hq⟩ : ∃ q, q = p / m := ⟨_, rfl⟩
  obtain ⟨c, hcq⟩ : ∃ c, c = p % m := ⟨_, rfl⟩
  rw [← hq] at hrn hr0 hrn2 ⊢
  rw [← hcq] at hcm hc0 hcm2 ⊢
  by_cases hlow : c < m2
  · exact ⟨c, List.mem_range'_1.2 ⟨by omega, by omega⟩, ⟨by omega, by omega⟩,
      Or.inl rfl, by omega, by omega, hrn2⟩
  · exact ⟨m - c, List.mem_range'_1.2 ⟨by omega, by omega⟩, ⟨by omega, by omega⟩,
      Or.inr (by omega), by omega, by omega, hrn2⟩

lemma touch3in_exists (m n n2 m2 : ℕ) (hm2 : 2 * m2 = m) (hn2 : 2 * n2 = n)
    (hn2p : 1 ≤ n2) (i p : ℕ) (hi : 1 ≤ i ∧ 2 * i + 2 ≤ m)
    (hcol : p % m = i ∨ p % m = m - i)
    (hrow : 1 ≤ p / m ∧ p / m ≤ n - 1 ∧ p / m ≠ n2) :
    ∃ j ∈ List.range' 1 (n2 - 1) 1, (1 ≤ j ∧ 2 * j + 2 ≤ n) ∧
      (p = i + j * m ∨ p = m - i + (n - j) * m ∨ p = i + (n - j) * m ∨
        p = m - i + j * m) := by
  have hm0 : 0 < m := by omega
  have hdm := Nat.div_add_mod p m
  obtain ⟨q, hq⟩ : ∃ q, q = p / m := ⟨_, rfl⟩
  rw [← hq] at hdm hrow
  by_cases hlow : q < n2
  · refine ⟨q, List.mem_range'_1.2 ⟨by omega, by omega⟩, ⟨by omega, by omega⟩, ?_⟩
    rcases hcol with hc | hc <;> rw [hc] at hdm
    · left
      rw [Nat.mul_comm q m]
      omega
    · right; right; right
      rw [Nat.mul_comm q m]
      omega
  · refine ⟨n - q, List.mem_range'_1.2 ⟨by omega, by omega⟩, ⟨by omega, by omega⟩, ?_⟩
    have hnn : n - (n - q) = q := by omega
    rw [hnn]
    rcases hcol with hc | hc <;> rw [hc] at hdm
    · right; right; left
      rw [Nat.mul_comm q m]
      omega
    · right; left
      rw [Nat.mul_comm q m]
      omega

lemma cornerPhase_apply (m2 mn2 : ℕ) (hm2p : 1 ≤ m2) (hlt : m2 < mn2)
    (d1 d2 : ℕ → ℝ) (p : ℕ) :
    cornerPhase m2 mn2 d1 d2 p =
      if p = 0 ∨ p = mn2 ∨ p = m2 ∨ p = m2 + mn2 then d1 p * d2 p else d1 p := by
  simp only [cornerPhase, upd]
  by_cases h4 : p = m2 + mn2
  · subst h4
    rw [if_pos rfl, if_neg (by omega), if_neg (by omega), if_neg (by omega),
      if_pos (by omega)]
  rw [if_neg h4]
  by_cases h3 : p = m2
  · subst h3
    rw [if_pos rfl, if_neg (by omega), if_neg (by omega), if_pos (by omega)]
  rw [if_neg h3]
  by_cases h2 : p = mn2
  · subst h2
    rw [if_pos rfl, if_neg (by omega), if_pos (by omega)]
  rw [if_neg h2]
  by_cases h1 : p = 0
  · subst h1
    rw [if_pos rfl, if_pos (by omega)]
  rw [if_neg h1, if_neg (by omega)]

lemma mul_le_bridge (a b m : ℕ) (h : a + 1 ≤ b) : a * m + m ≤ b * m := by
  have h2 := Nat.mul_le_mul_right m h
  rw [Nat.add_mul, one_mul] at h2
  exact h2

lemma cell3_rowcol (m n : ℕ) (i j q : ℕ) (hi : 1 ≤ i) (him : i < m)
    (hc : q = i + j * m ∨ q = m - i + (n - j) * m ∨ q = i + (n - j) * m ∨
      q = m - i + j * m) :
    (q % m = i ∨ q % m = m - i) ∧ (q / m = j ∨ q / m = n - j) := by
  rcases hc with rfl | rfl | rfl | rfl
  · have h := block_div_mod m j i him
    rw [show i + j * m = j * m + i from by ring, h.1, h.2]
    exact ⟨Or.inl rfl, Or.inl rfl⟩
  · have h := block_div_mod m (n - j) (m - i) (by omega)
    rw [show m - i + (n - j) * m = (n - j) * m + (m - i) from by ring, h.1, h.2]
    exact ⟨Or.inr rfl, Or.inr rfl⟩
  · have h := block_div_mod m (n - j) i him
    rw [show i + (n - j) * m = (n - j) * m + i from by ring, h.1, h.2]
    exact ⟨Or.inl rfl, Or.inr rfl⟩
  · have h := block_div_mod m j (m - i) (by omega)
    rw [show m - i + j * m = j * m + (m - i) from by ring, h.1, h.2]
    exact ⟨Or.inr rfl, Or.inl rfl⟩

/-- C10: the Hartley-domain spectral multiplication is commutative: for
buffers of identical power-of-two dimensions `2^N` rows by `2^M` columns
with `M, N ≥ 1`, the contents `fht_convolve x y` leaves in `x` equal the
contents `fht_convolve y x` leaves in `y` at every bin: each bin group is
read before it is written and the sum/difference formulas are symmetric
in the two operands. -/
theorem fht_convolve_comm (x y : ℕ → ℝ) (M N : ℕ) (hM : 1 ≤ M) (hN : 1 ≤ N)
    (p : ℕ) (hp : p < 2 ^ M * 2 ^ N) :
    fht_convolve x y M N p = fht_convolve y x M N p := by
  have h2m : 2 * 2 ^ (M - 1) = 2 ^ M := by
    rw [← pow_succ']
    congr 1
    omega
  have h2n : 2 * 2 ^ (N - 1) = 2 ^ N := by
    rw [← pow_succ']
    congr 1
    omega
  have hm2p : 1 ≤ 2 ^ (M - 1) := Nat.one_le_two_pow
  have hn2p : 1 ≤ 2 ^ (N - 1) := Nat.one_le_two_pow
  simp only [fht_convolve]
  obtain ⟨m2, hm2v⟩ : ∃ v, v = 2 ^ (M - 1) := ⟨_, rfl⟩
  obtain ⟨n2, hn2v⟩ : ∃ v, v = 2 ^ (N - 1) := ⟨_, rfl⟩
  obtain ⟨m, hmv⟩ : ∃ v, v = 2 ^ M := ⟨_, rfl⟩
  obtain ⟨n, hnv⟩ : ∃ v, v = 2 ^ N := ⟨_, rfl⟩
  rw [← hm2v] at h2m hm2p ⊢
  rw [← hn2v] at h2n hn2p ⊢
  rw [← hmv] at h2m hp ⊢
  rw [← hnv] at h2n hp ⊢
  have hm0 : 0 < m := by omega
  have hmge : m ≤ m * n2 := Nat.le_mul_of_pos_right m (by omega)
  have hm2lt : m2 < m * n2 := by omega
  -- corner phase
  have hD : ∀ q, (q = 0 ∨ q = m * n2 ∨ q = m2 ∨ q = m2 + m * n2) →
      cornerPhase m2 (m * n2) x y q = cornerPhase m2 (m * n2) y x q := by
    intro q hq
    rw [cornerPhase_apply m2 (m * n2) hm2p hm2lt, if_pos hq,
      cornerPhase_apply m2 (m * n2) hm2p hm2lt, if_pos hq]
    ring
  have hDx : ∀ q, ¬ (q = 0 ∨ q = m * n2 ∨ q = m2 ∨ q = m2 + m * n2) →
      cornerPhase m2 (m * n2) x y q = x q := by
    intro q hq
    rw [cornerPhase_apply m2 (m * n2) hm2p hm2lt, if_neg hq]
  have hDy : ∀ q, ¬ (q = 0 ∨ q = m * n2 ∨ q = m2 ∨ q = m2 + m * n2) →
      cornerPhase m2 (m * n2) y x q = y q := by
    intro q hq
    rw [cornerPhase_apply m2 (m * n2) hm2p hm2lt, if_neg hq]
  -- loop 1
  have hpair1 := foldl_pair_local x y
    (fun i q => (1 ≤ i ∧ 2 * i + 2 ≤ m) ∧
      (q = i ∨ q = m - i ∨ q = i + m * n2 ∨ q = m - i + m * n2))
    (convStep1 m (m * n2) y) (convStep1 m (m * n2) x)
    (List.range' 1 (m2 - 1) 1)
    (cornerPhase m2 (m * n2) x y) (cornerPhase m2 (m * n2) y x)
    (fun d i q hi hnt => convStep1_unchanged m (m * n2) y d i q (fun hcell => by
      have hb := List.mem_range'_1.1 hi
      exact hnt ⟨⟨by omega, by omega⟩, hcell⟩))
    (fun d i q hi hnt => convStep1_unchanged m (m * n2) x d i q (fun hcell => by
      have hb := List.mem_range'_1.1 hi
      exact hnt ⟨⟨by omega, by omega⟩, hcell⟩))
    (fun dA' dB' i _hi hA hB q hq =>
      convStep1_sym m (m * n2) x y dA' dB' i hq.1.1 hq.1.2 hmge
        (fun r hr => hA r ⟨hq.1, hr⟩) (fun r hr => hB r ⟨hq.1, hr⟩) q hq.2)
    (fun i q _hi hT => by
      have hnc : ¬ (q = 0 ∨ q = m * n2 ∨ q = m2 ∨ q = m2 + m * n2) := by
        obtain ⟨⟨hb1, hb2⟩, hcell⟩ := hT
        rcases hcell with rfl | rfl | rfl | rfl <;> omega
      exact ⟨hDx q hnc, hDy q hnc⟩)
    (pairwise_range'_of 1 (m2 - 1) _ (fun i j hij => by
      rintro q ⟨⟨⟨hbi1, hbi2⟩, hci⟩, ⟨hbj1, hbj2⟩, hcj⟩
      rcases hci with rfl | rfl | rfl | rfl <;>
        rcases hcj with h | h | h | h <;> omega))
  -- loop 2
  have hpair2 := foldl_pair_local x y
    (fun j q => (1 ≤ j ∧ 2 * j + 2 ≤ n) ∧
      (q = j * m ∨ q = (n - j) * m ∨ q = m2 + j * m ∨ q = m2 + (n - j) * m))
    (convStep2 m n m2 y) (convStep2 m n m2 x)
    (List.range' 1 (n2 - 1) 1)
    ((List.range' 1 (m2 - 1) 1).foldl (convStep1 m (m * n2) y)
      (cornerPhase m2 (m * n2) x y))
    ((List.range' 1 (m2 - 1) 1).foldl (convStep1 m (m * n2) x)
      (cornerPhase m2 (m * n2) y x))
    (fun d j q hj hnt => convStep2_unchanged m n m2 y d j q (fun hcell => by
      have hb := List.mem_range'_1.1 hj
      exact hnt ⟨⟨by omega, by omega⟩, hcell⟩))
    (fun d j q hj hnt => convStep2_unchanged m n m2 x d j q (fun hcell => by
      have hb := List.mem_range'_1.1 hj
      exact hnt ⟨⟨by omega, by omega⟩, hcell⟩))
    (fun dA' dB' j _hj hA hB q hq =>
      convStep2_sym m n m2 x y dA' dB' j hq.1.1 hq.1.2 hm2p (by omega)
        (fun r hr => hA r ⟨hq.1, hr⟩) (fun r hr => hB r ⟨hq.1, hr⟩) q hq.2)
    (fun j q _hj hT => by
      have hrc := touch2_rowcol m n n2 m2 h2m h2n hm2p j q hT.1 hT.2
      have hnt1 : ¬ ∃ i ∈ List.range' 1 (m2 - 1) 1,
          (1 ≤ i ∧ 2 * i + 2 ≤ m) ∧
          (q = i ∨ q = m - i ∨ q = i + m * n2 ∨ q = m - i + m * n2) := by
        rintro ⟨i, _hi, hTi⟩
        exact (touch1_rowcol m n2 m2 (m * n2) h2m rfl i q hTi.1 hTi.2).2 hrc.1
      have hnc : ¬ (q = 0 ∨ q = m * n2 ∨ q = m2 ∨ q = m2 + m * n2) := by
        intro hcor
        exact hrc.2 (corner_rowcol m n2 m2 (m * n2) h2m hm2p rfl q hcor).2
      have h1 := (hpair1 q).2 hnt1
      exact ⟨h1.1.trans (hDx q hnc), h1.2.trans (hDy q hnc)⟩)
    (pairwise_range'_of 1 (n2 - 1) _ (fun j j' hjj => by
      rintro q ⟨⟨⟨hbj1, hbj2⟩, hcj⟩, ⟨hbj1', hbj2'⟩, hcj'⟩
      have b1 : j * m + m ≤ j' * m := mul_le_bridge j j' m (by omega)
      have b2 : j' * m + m ≤ (n - j') * m := mul_le_bridge j' (n - j') m (by omega)
      have b3 : (n - j') * m + m ≤ (n - j) * m :=
        mul_le_bridge (n - j') (n - j) m (by omega)
      rcases hcj with rfl | rfl | rfl | rfl <;>
        rcases hcj' with h | h | h | h <;> omega))
  -- loop 3
  have hpair3 := foldl_pair_local x y
    (fun i q => (1 ≤ i ∧ 2 * i + 2 ≤ m) ∧
      (q % m = i ∨ q % m = m - i) ∧
      (1 ≤ q / m ∧ q / m ≤ n - 1 ∧ q / m ≠ n2))
    (convLoop3 m n n2 y) (convLoop3 m n n2 x)
    (List.range' 1 (m2 - 1) 1)
    ((List.range' 1 (n2 - 1) 1).foldl (convStep2 m n m2 y)
      ((List.range' 1 (m2 - 1) 1).foldl (convStep1 m (m * n2) y)
        (cornerPhase m2 (m * n2) x y)))
    ((List.range' 1 (n2 - 1) 1).foldl (convStep2 m n m2 x)
      ((List.range' 1 (m2 - 1) 1).foldl (convStep1 m (m * n2) x)
        (cornerPhase m2 (m * n2) y x)))
    (fun d i q hi hnt => by
      have hb := List.mem_range'_1.1 hi
      refine foldl_local_unchanged
        (fun j r => (1 ≤ j ∧ 2 * j + 2 ≤ n) ∧
          (r = i + j * m ∨ r = m - i + (n - j) * m ∨ r = i + (n - j) * m ∨
            r = m - i + j * m))
        (convStep3 m n y i) (List.range' 1 (n2 - 1) 1)
        (fun d' j r hj hntin => convStep3_unchanged m n y d' i j r (fun hcell => by
          have hbj := List.mem_range'_1.1 hj
          exact hntin ⟨⟨by omega, by omega⟩, hcell⟩)) d q ?_
      rintro ⟨j, hj, ⟨hbj, hcell⟩⟩
      have hrc := cell3_rowcol m n i j q (by omega) (by omega) hcell
      exact hnt ⟨⟨by omega, by omega⟩, hrc.1, by
        rcases hrc.2 with h | h <;> omega⟩)
    (fun d i q hi hnt => by
      have hb := List.mem_range'_1.1 hi
      refine foldl_local_unchanged
        (fun j r => (1 ≤ j ∧ 2 * j + 2 ≤ n) ∧
          (r = i + j * m ∨ r = m - i + (n - j) * m ∨ r = i + (n - j) * m ∨
            r = m - i + j * m))
        (convStep3 m n x i) (List.range' 1 (n2 - 1) 1)
        (fun d' j r hj hntin => convStep3_unchanged m n x d' i j r (fun hcell => by
          have hbj := List.mem_range'_1.1 hj
          exact hntin ⟨⟨by omega, by omega⟩, hcell⟩)) d q ?_
      rintro ⟨j, hj, ⟨hbj, hcell⟩⟩
      have hrc := cell3_rowcol m n i j q (by omega) (by omega) hcell
      exact hnt ⟨⟨by omega, by omega⟩, hrc.1, by
        rcases hrc.2 with h | h <;> omega⟩)
    (fun dA' dB' i _hi hA hB q hq => by
      have hinner := foldl_pair_local x y
        (fun j r => (1 ≤ j ∧ 2 * j + 2 ≤ n) ∧
          (r = i + j * m ∨ r = m - i + (n - j) * m ∨ r = i + (n - j) * m ∨
            r = m - i + j * m))
        (convStep3 m n y i) (convStep3 m n x i)
        (List.range' 1 (n2 - 1) 1) dA' dB'
        (fun d' j r hj hntin => convStep3_unchanged m n y d' i j r (fun hcell => by
          have hbj := List.mem_range'_1.1 hj
          exact hntin ⟨⟨by omega, by omega⟩, hcell⟩))
        (fun d' j r hj hntin => convStep3_unchanged m n x d' i j r (fun hcell => by
          have hbj := List.mem_range'_1.1 hj
          exact hntin ⟨⟨by omega, by omega⟩, hcell⟩))
        (fun dA'' dB'' j _hj hA'' hB'' r hr =>
          convStep3_sym m n x y dA'' dB'' i j hq.1.1 hq.1.2 hr.1.1 hr.1.2
            (fun s hs => hA'' s ⟨hr.1, hs⟩) (fun s hs => hB'' s ⟨hr.1, hs⟩) r hr.2)
        (fun j r _hj hTin => by
          have hrc := cell3_rowcol m n i j r hq.1.1 (by omega) hTin.2
          have hT3 : (1 ≤ i ∧ 2 * i + 2 ≤ m) ∧
              (r % m = i ∨ r % m = m - i) ∧
              (1 ≤ r / m ∧ r / m ≤ n - 1 ∧ r / m ≠ n2) := by
            obtain ⟨hbj, _⟩ := hTin
            exact ⟨hq.1, hrc.1, by rcases hrc.2 with h | h <;> omega⟩
          exact ⟨hA r hT3, hB r hT3⟩)
        (pairwise_range'_of 1 (n2 - 1) _ (fun j j' hjj => by
          rintro r ⟨⟨⟨hbj1, hbj2⟩, hcj⟩, ⟨hbj1', hbj2'⟩, hcj'⟩
          have b1 : j * m + m ≤ j' * m := mul_le_bridge j j' m (by omega)
          have b2 : j' * m + m ≤ (n - j') * m := mul_le_bridge j' (n - j') m (by omega)
          have b3 : (n - j') * m + m ≤ (n - j) * m :=
            mul_le_bridge (n - j') (n - j) m (by omega)
          have hi2 := hq.1.2
          rcases hcj with rfl | rfl | rfl | rfl <;>
            rcases hcj' with h | h | h | h <;> omega))
      obtain ⟨j, hj, hTin⟩ :=
        touch3in_exists m n n2 m2 h2m h2n hn2p i q hq.1 hq.2.1 hq.2.2
      exact (hinner q).1 ⟨j, hj, hTin⟩)
    (fun i q _hi hT => by
      have hnt2 : ¬ ∃ j ∈ List.range' 1 (n2 - 1) 1,
          (1 ≤ j ∧ 2 * j + 2 ≤ n) ∧
          (q = j * m ∨ q = (n - j) * m ∨ q = m2 + j * m ∨ q = m2 + (n - j) * m) := by
        rintro ⟨j, _hj, hTj⟩
        have hrc2 := touch2_rowcol m n n2 m2 h2m h2n hm2p j q hTj.1 hTj.2
        obtain ⟨⟨hi1, hi2⟩, hcol, _⟩ := hT
        rcases hrc2.1 with h | h <;> rcases hcol with h2 | h2 <;> omega
      have hnt1 : ¬ ∃ i' ∈ List.range' 1 (m2 - 1) 1,
          (1 ≤ i' ∧ 2 * i' + 2 ≤ m) ∧
          (q = i' ∨ q = m - i' ∨ q = i' + m * n2 ∨ q = m - i' + m * n2) := by
        rintro ⟨i', _hi', hTi⟩
        have hrc1 := touch1_rowcol m n2 m2 (m * n2) h2m rfl i' q hTi.1 hTi.2
        obtain ⟨_, _, hrow⟩ := hT
        rcases hrc1.1 with h | h <;> omega
      have hnc : ¬ (q = 0 ∨ q = m * n2 ∨ q = m2 ∨ q = m2 + m * n2) := by
        intro hcor
        have hrcc := corner_rowcol m n2 m2 (m * n2) h2m hm2p rfl q hcor
        obtain ⟨_, _, hrow⟩ := hT
        rcases hrcc.2 with h | h <;> omega
      have h2 := (hpair2 q).2 hnt2
      have h1 := (hpair1 q).2 hnt1
      exact ⟨(h2.1.trans h1.1).trans (hDx q hnc),
        (h2.2.trans h1.2).trans (hDy q hnc)⟩)
    (pairwise_range'_of 1 (m2 - 1) _ (fun i i' hii => by
      rintro q ⟨⟨⟨hbi1, hbi2⟩, hci, _⟩, ⟨hbi1', hbi2'⟩, hci', _⟩
      rcases hci with h | h <;> rcases hci' with h' | h' <;> omega))
  -- final case analysis on the row and column of p
  by_cases hcol : p % m = 0 ∨ p % m = m2
  · by_cases hrow : p / m = 0 ∨ p / m = n2
    · have hnt3 : ¬ ∃ i ∈ List.range' 1 (m2 - 1) 1,
          (1 ≤ i ∧ 2 * i + 2 ≤ m) ∧
          (p % m = i ∨ p % m = m - i) ∧
          (1 ≤ p / m ∧ p / m ≤ n - 1 ∧ p / m ≠ n2) := by
        rintro ⟨i, _hi, ⟨hb1, hb2⟩, hcolc, _⟩
        rcases hcolc with h | h <;> rcases hcol with h2 | h2 <;> omega
      have hnt2 : ¬ ∃ j ∈ List.range' 1 (n2 - 1) 1,
          (1 ≤ j ∧ 2 * j + 2 ≤ n) ∧
          (p = j * m ∨ p = (n - j) * m ∨ p = m2 + j * m ∨ p = m2 + (n - j) * m) := by
        rintro ⟨j, _hj, hTj⟩
        exact (touch2_rowcol m n n2 m2 h2m h2n hm2p j p hTj.1 hTj.2).2 hrow
      have hnt1 : ¬ ∃ i ∈ List.range' 1 (m2 - 1) 1,
          (1 ≤ i ∧ 2 * i + 2 ≤ m) ∧
          (p = i ∨ p = m - i ∨ p = i + m * n2 ∨ p = m - i + m * n2) := by
        rintro ⟨i, _hi, hTi⟩
        exact (touch1_rowcol m n2 m2 (m * n2) h2m rfl i p hTi.1 hTi.2).2 hcol
      have hcor := corner_of_rowcol m n2 m2 (m * n2) h2m rfl p ⟨hcol, hrow⟩
      rw [((hpair3 p).2 hnt3).1, ((hpair3 p).2 hnt3).2,
        ((hpair2 p).2 hnt2).1, ((hpair2 p).2 hnt2).2,
        ((hpair1 p).2 hnt1).1, ((hpair1 p).2 hnt1).2]
      exact hD p hcor
    · have hnt3 : ¬ ∃ i ∈ List.range' 1 (m2 - 1) 1,
          (1 ≤ i ∧ 2 * i + 2 ≤ m) ∧
          (p % m = i ∨ p % m = m - i) ∧
          (1 ≤ p / m ∧ p / m ≤ n - 1 ∧ p / m ≠ n2) := by
        rintro ⟨i, _hi, ⟨hb1, hb2⟩, hcolc, _⟩
        rcases hcolc with h | h <;> rcases hcol with h2 | h2 <;> omega
      have ht2 := touch2_of_rowcol m n n2 m2 h2m h2n hm2p hn2p p hp ⟨hcol, hrow⟩
      rw [((hpair3 p).2 hnt3).1, ((hpair3 p).2 hnt3).2]
      exact (hpair2 p).1 ht2
  · by_cases hrow : p / m = 0 ∨ p / m = n2
    · have hnt3 : ¬ ∃ i ∈ List.range' 1 (m2 - 1) 1,
          (1 ≤ i ∧ 2 * i + 2 ≤ m) ∧
          (p % m = i ∨ p % m = m - i) ∧
          (1 ≤ p / m ∧ p / m ≤ n - 1 ∧ p / m ≠ n2) := by
        rintro ⟨i, _hi, _, _, hrow1, hrow2, hrow3⟩
        rcases hrow with h | h <;> omega
      have hnt2 : ¬ ∃ j ∈ List.range' 1 (n2 - 1) 1,
          (1 ≤ j ∧ 2 * j + 2 ≤ n) ∧
          (p = j * m ∨ p = (n - j) * m ∨ p = m2 + j * m ∨ p = m2 + (n - j) * m) := by
        rintro ⟨j, _hj, hTj⟩
        exact (touch2_rowcol m n n2 m2 h2m h2n hm2p j p hTj.1 hTj.2).2 hrow
      have ht1 := touch1_of_rowcol m n2 m2 (m * n2) h2m hm2p rfl p ⟨hrow, hcol⟩
      rw [((hpair3 p).2 hnt3).1, ((hpair3 p).2 hnt3).2,
        ((hpair2 p).2 hnt2).1, ((hpair2 p).2 hnt2).2]
      exact (hpair1 p).1 ht1
    · have ht3 := touch3_of_rowcol m n n2 m2 h2m h2n hm2p p hp ⟨hcol, hrow⟩
      exact (hpair3 p).1 ht3

/-- Concrete instance of spectral-multiplication commutativity at
`M = N = 1`, bin `0`. -/
theorem fht_convolve_comm_witness :
    1 ≤ 1 ∧ 0 < 2 ^ 1 * 2 ^ 1 ∧
      fht_convolve (fun _ => (1 : ℝ)) (fun _ => (2 : ℝ)) 1 1 0 =
        fht_convolve (fun _ => (2 : ℝ)) (fun _ => (1 : ℝ)) 1 1 0 :=
  ⟨le_rfl, by norm_num,
    fht_convolve_comm (fun _ => 1) (fun _ => 2) 1 1 le_rfl le_rfl 0 (by norm_num)⟩

/-- Single-run version of `foldl_pair_local`: a fold over pairwise-disjoint
cells whose steps write only their own cell, with values determined by the
reference buffer `x` on the cell, evaluates pointwise. -/
lemma foldl_local_eval (x : ℕ → ℝ) (T : ℕ → ℕ → Prop)
    (step : (ℕ → ℝ) → ℕ → (ℕ → ℝ)) (out : ℕ → ℕ → ℝ) :
    ∀ (l : List ℕ) (dA : ℕ → ℝ),
      (∀ d i p, i ∈ l → ¬ T i p → step d i p = d p) →
      (∀ (d : ℕ → ℝ) i p, i ∈ l → (∀ q, T i q → d q = x q) → T i p →
        step d i p = out i p) →
      (∀ i p, i ∈ l → T i p → dA p = x p) →
      l.Pairwise (fun i j => ∀ p, ¬ (T i p ∧ T j p)) →
      ∀ p, (∀ i ∈ l, T i p → l.foldl step dA p = out i p) ∧
        ((¬ ∃ i ∈ l, T i p) → l.foldl step dA p = dA p) := by
  intro l
  induction l with
  | nil =>
    intro dA _ _ _ _ p
    exact ⟨fun i hi _ => absurd hi (List.not_mem_nil i), fun _ => rfl⟩
  | cons i0 rest ih =>
    intro dA hw hval hinit hdisj p
    rw [List.foldl_cons]
    have hd0 : ∀ j ∈ rest, ∀ q, ¬ (T i0 q ∧ T j q) := (List.pairwise_cons.1 hdisj).1
    have hdr := (List.pairwise_cons.1 hdisj).2
    have hw' : ∀ d i q, i ∈ rest → ¬ T i q → step d i q = d q :=
      fun d i q hi => hw d i q (List.mem_cons_of_mem i0 hi)
    have hval' : ∀ (d : ℕ → ℝ) i q, i ∈ rest → (∀ r, T i r → d r = x r) → T i q →
        step d i q = out i q :=
      fun d i q hi => hval d i q (List.mem_cons_of_mem i0 hi)
    have hread0 : ∀ q, T i0 q → dA q = x q :=
      fun q hq => hinit i0 q (List.mem_cons_self i0 rest) hq
    have hinit' : ∀ i q, i ∈ rest → T i q → step dA i0 q = x q := by
      intro i q hi hq
      have hnt : ¬ T i0 q := fun h0 => hd0 i hi q ⟨h0, hq⟩
      rw [hw dA i0 q (List.mem_cons_self i0 rest) hnt]
      exact hinit i q (List.mem_cons_of_mem i0 hi) hq
    have hih := ih (step dA i0) hw' hval' hinit' hdr
    constructor
    · intro i hi hTi
      rcases List.mem_cons.1 hi with rfl | hir
      · have hnr : ¬ ∃ j ∈ rest, T j p := by
          rintro ⟨j, hj, hTj⟩
          exact hd0 j hj p ⟨hTi, hTj⟩
        rw [(hih p).2 hnr]
        exact hval dA i p (List.mem_cons_self i rest) hread0 hTi
      · exact (hih p).1 i hir hTi
    · intro hnt
      have h1 : ¬ T i0 p := fun h => hnt ⟨i0, List.mem_cons_self i0 rest, h⟩
      have h2 : ¬ ∃ i ∈ rest, T i p := fun ⟨i, hi, h⟩ =>
        hnt ⟨i, List.mem_cons_of_mem i0 hi, h⟩
      rw [(hih p).2 h2, hw dA i0 p (List.mem_cons_self i0 rest) h1]

/-- A row-by-row nested fold over a `kh × kw` grid equals the flat fold
over the row-major pixel indices. -/
lemma nested_foldl {σ : Type} (f : σ → ℕ → σ) :
    ∀ (kh kw : ℕ) (init : σ),
      (List.range kh).foldl
        (fun s y => (List.range kw).foldl (fun s2 x => f s2 (y * kw + x)) s) init
        = (List.range (kh * kw)).foldl f init := by
  intro kh
  induction kh with
  | zero =>
    intro kw init
    rw [Nat.zero_mul]
    rfl
  | succ kh ih =>
    intro kw init
    rw [List.range_succ, List.foldl_append, List.foldl_cons, List.foldl_nil, ih,
      show (kh + 1) * kw = kh * kw + kw from by ring, List.range_add,
      List.foldl_append, List.foldl_map]

/-- Per-channel kernel weight accumulation of `convolve` (lines 274-280):
`wt[c] += kernel[(y*kw+x)*4 + c]` over all kernel pixels. -/
noncomputable def wtsum (kw kh : ℕ) (ker : ℕ → ℝ) (c : ℕ) : ℝ :=
  (List.range kh).foldl
    (fun s y => (List.range kw).foldl
      (fun s2 x => s2 + ker ((y * kw + x) * 4 + c)) s) 0

/-- Kernel normalization of `convolve` (lines 273-296): accumulate the
three channel sums, replace each nonzero sum by its reciprocal, then
multiply every kernel pixel's three color channels by the weights
(`mul_v3_v3(colp[x], wt)`); the alpha channel is untouched. -/
noncomputable def normalizeKernelF (kw kh : ℕ) (ker : ℕ → ℝ) : ℕ → ℝ :=
  let wt0 := if wtsum kw kh ker 0 ≠ 0 then 1 / wtsum kw kh ker 0 else wtsum kw kh ker 0
  let wt1 := if wtsum kw kh ker 1 ≠ 0 then 1 / wtsum kw kh ker 1 else wtsum kw kh ker 1
  let wt2 := if wtsum kw kh ker 2 ≠ 0 then 1 / wtsum kw kh ker 2 else wtsum kw kh ker 2
  (List.range kh).foldl
    (fun d y => (List.range kw).foldl
      (fun d2 x =>
        upd (upd (upd d2
          ((y * kw + x) * 4) (d2 ((y * kw + x) * 4) * wt0))
          ((y * kw + x) * 4 + 1) (d2 ((y * kw + x) * 4 + 1) * wt1))
          ((y * kw + x) * 4 + 2) (d2 ((y * kw + x) * 4 + 2) * wt2))
      d) ker

lemma pairwise_range_of (t : ℕ) (R : ℕ → ℕ → Prop) (h : ∀ i j, i < j → R i j) :
    (List.range t).Pairwise R := by
  rw [List.range_eq_range']
  exact pairwise_range'_of 0 t R h

lemma normalizeKernelF_apply (kw kh : ℕ) (ker : ℕ → ℝ) (q : ℕ) :
    normalizeKernelF kw kh ker q =
      if q / 4 < kh * kw ∧ q % 4 < 3 then
        ker q *
          (if q % 4 = 0 then
            (if wtsum kw kh ker 0 ≠ 0 then 1 / wtsum kw kh ker 0 else wtsum kw kh ker 0)
          else if q % 4 = 1 then
            (if wtsum kw kh ker 1 ≠ 0 then 1 / wtsum kw kh ker 1 else wtsum kw kh ker 1)
          else
            (if wtsum kw kh ker 2 ≠ 0 then 1 / wtsum kw kh ker 2 else wtsum kw kh ker 2))
      else ker q := by
  simp only [normalizeKernelF]
  have hflat := nested_foldl
    (fun d2 p =>
      upd (upd (upd d2
        (p * 4) (d2 (p * 4) *
          (if wtsum kw kh ker 0 ≠ 0 then 1 / wtsum kw kh ker 0 else wtsum kw kh ker 0)))
        (p * 4 + 1) (d2 (p * 4 + 1) *
          (if wtsum kw kh ker 1 ≠ 0 then 1 / wtsum kw kh ker 1 else wtsum kw kh ker 1)))
        (p * 4 + 2) (d2 (p * 4 + 2) *
          (if wtsum kw kh ker 2 ≠ 0 then 1 / wtsum kw kh ker 2 else wtsum kw kh ker 2)))
    kh kw ker
  beta_reduce at hflat
  rw [hflat]
  have hchar := foldl_local_eval ker
    (fun p r => r = p * 4 ∨ r = p * 4 + 1 ∨ r = p * 4 + 2)
    (fun d2 p =>
      upd (upd (upd d2
        (p * 4) (d2 (p * 4) *
          (if wtsum kw kh ker 0 ≠ 0 then 1 / wtsum kw kh ker 0 else wtsum kw kh ker 0)))
        (p * 4 + 1) (d2 (p * 4 + 1) *
          (if wtsum kw kh ker 1 ≠ 0 then 1 / wtsum kw kh ker 1 else wtsum kw kh ker 1)))
        (p * 4 + 2) (d2 (p * 4 + 2) *
          (if wtsum kw kh ker 2 ≠ 0 then 1 / wtsum kw kh ker 2 else wtsum kw kh ker 2)))
    (fun p r => ker r *
      (if r = p * 4 then
        (if wtsum kw kh ker 0 ≠ 0 then 1 / wtsum kw kh ker 0 else wtsum kw kh ker 0)
      else if r = p * 4 + 1 then
        (if wtsum kw kh ker 1 ≠ 0 then 1 / wtsum kw kh ker 1 else wtsum kw kh ker 1)
      else
        (if wtsum kw kh ker 2 ≠ 0 then 1 / wtsum kw kh ker 2 else wtsum kw kh ker 2)))
    (List.range (kh * kw)) ker
    (fun d p r _hp hnt => by
      beta_reduce at hnt
      push_neg at hnt
      simp only [upd]
      rw [if_neg hnt.2.2, if_neg hnt.2.1, if_neg hnt.1])
    (fun d p r _hp hread hr => by
      have h0 := hread (p * 4) (Or.inl rfl)
      have h1 := hread (p * 4 + 1) (Or.inr (Or.inl rfl))
      have h2 := hread (p * 4 + 2) (Or.inr (Or.inr rfl))
      simp only [upd]
      rw [h0, h1, h2]
      rcases hr with rfl | rfl | rfl <;> split_ifs <;> first | rfl | omega)
    (fun _p _r _hp _hT => rfl)
    (pairwise_range_of (kh * kw) _ (fun p p' hpp => by
      rintro r ⟨h1, h2⟩
      rcases h1 with rfl | rfl | rfl <;> rcases h2 with h | h | h <;> omega))
  by_cases hq : q / 4 < kh * kw ∧ q % 4 < 3
  · rw [if_pos hq]
    have hcell : q = q / 4 * 4 ∨ q = q / 4 * 4 + 1 ∨ q = q / 4 * 4 + 2 := by
      have hdm := Nat.div_add_mod q 4
      rcases (by omega : q % 4 = 0 ∨ q % 4 = 1 ∨ q % 4 = 2) with h | h | h <;> omega
    have hres := (hchar q).1 (q / 4) (List.mem_range.2 hq.1) hcell
    rw [hres]
    beta_reduce
    have hdm := Nat.div_add_mod q 4
    rcases (show q % 4 = 0 ∨ q % 4 = 1 ∨ q % 4 = 2 from by omega) with h | h | h
    · rw [h, if_pos (show q = q / 4 * 4 from by omega), if_pos (rfl : (0 : ℕ) = 0)]
    · rw [h, if_neg (show ¬ q = q / 4 * 4 from by omega),
        if_pos (show q = q / 4 * 4 + 1 from by omega),
        if_neg (show ¬ (1 : ℕ) = 0 from by norm_num), if_pos (rfl : (1 : ℕ) = 1)]
    · rw [h, if_neg (show ¬ q = q / 4 * 4 from by omega),
        if_neg (show ¬ q = q / 4 * 4 + 1 from by omega),
        if_neg (show ¬ (2 : ℕ) = 0 from by norm_num),
        if_neg (show ¬ (2 : ℕ) = 1 from by norm_num)]
  · rw [if_neg hq]
    refine (hchar q).2 ?_
    rintro ⟨p, hp, hcell⟩
    have hpm := List.mem_range.1 hp
    rcases hcell with rfl | rfl | rfl <;> omega

lemma foldl_add_eq_sum (f : ℕ → ℝ) :
    ∀ (t : ℕ) (init : ℝ),
      (List.range t).foldl (fun s i => s + f i) init =
        init + ∑ i ∈ Finset.range t, f i := by
  intro t
  induction t with
  | zero =>
    intro init
    simp
  | succ t ih =>
    intro init
    rw [List.range_succ, List.foldl_append, List.foldl_cons, List.foldl_nil, ih,
      Finset.sum_range_succ]
    ring

lemma wtsum_eq_sum (kw kh : ℕ) (ker : ℕ → ℝ) (c : ℕ) :
    wtsum kw kh ker c = ∑ p ∈ Finset.range (kh * kw), ker (p * 4 + c) := by
  have hflat := nested_foldl (fun s p => s + ker (p * 4 + c)) kh kw (0 : ℝ)
  beta_reduce at hflat
  rw [wtsum, hflat, foldl_add_eq_sum, zero_add]

/-- C4 (amended): kernel normalization scales each color channel by the
reciprocal of that channel's total sum, so a channel with nonzero sum
sums to `1` afterwards; a channel whose sum is exactly zero is multiplied
by the weight `0` (no division is performed), wiping the channel to zero
rather than leaving it unchanged. -/
theorem normalize_kernel_channels (kw kh c : ℕ) (ker : ℕ → ℝ) (hc : c < 3) :
    (wtsum kw kh ker c ≠ 0 → wtsum kw kh (normalizeKernelF kw kh ker) c = 1) ∧
    (wtsum kw kh ker c = 0 → ∀ p, p < kh * kw →
      normalizeKernelF kw kh ker (p * 4 + c) = 0) := by
  constructor
  · intro hs
    rw [wtsum_eq_sum]
    have hterm : ∀ p ∈ Finset.range (kh * kw),
        normalizeKernelF kw kh ker (p * 4 + c) =
          ker (p * 4 + c) * (1 / wtsum kw kh ker c) := by
      intro p hp
      have hpm := Finset.mem_range.1 hp
      rcases (show c = 0 ∨ c = 1 ∨ c = 2 from by omega) with rfl | rfl | rfl
      · have hdm := block_div_mod 4 p 0 (by omega)
        rw [normalizeKernelF_apply,
          if_pos ⟨by rw [hdm.1]; exact hpm, by rw [hdm.2]; omega⟩, hdm.2,
          if_pos rfl, if_pos hs]
      · have hdm := block_div_mod 4 p 1 (by omega)
        rw [normalizeKernelF_apply,
          if_pos ⟨by rw [hdm.1]; exact hpm, by rw [hdm.2]; omega⟩, hdm.2,
          if_neg (show ¬ (1 : ℕ) = 0 from by norm_num), if_pos rfl, if_pos hs]
      · have hdm := block_div_mod 4 p 2 (by omega)
        rw [normalizeKernelF_apply,
          if_pos ⟨by rw [hdm.1]; exact hpm, by rw [hdm.2]; omega⟩, hdm.2,
          if_neg (show ¬ (2 : ℕ) = 0 from by norm_num),
          if_neg (show ¬ (2 : ℕ) = 1 from by norm_num), if_pos hs]
    rw [Finset.sum_congr rfl hterm, ← Finset.sum_mul, ← wtsum_eq_sum,
      mul_one_div, div_self hs]
  · intro hs p hp
    have hns : ¬ wtsum kw kh ker c ≠ 0 := not_not.2 hs
    rcases (show c = 0 ∨ c = 1 ∨ c = 2 from by omega) with rfl | rfl | rfl
    · have hdm := block_div_mod 4 p 0 (by omega)
      rw [normalizeKernelF_apply,
        if_pos ⟨by rw [hdm.1]; exact hp, by rw [hdm.2]; omega⟩, hdm.2,
        if_pos rfl, if_neg hns, hs, mul_zero]
    · have hdm := block_div_mod 4 p 1 (by omega)
      rw [normalizeKernelF_apply,
        if_pos ⟨by rw [hdm.1]; exact hp, by rw [hdm.2]; omega⟩, hdm.2,
        if_neg (show ¬ (1 : ℕ) = 0 from by norm_num), if_pos rfl,
        if_neg hns, hs, mul_zero]
    · have hdm := block_div_mod 4 p 2 (by omega)
      rw [normalizeKernelF_apply,
        if_pos ⟨by rw [hdm.1]; exact hp, by rw [hdm.2]; omega⟩, hdm.2,
        if_neg (show ¬ (2 : ℕ) = 0 from by norm_num),
        if_neg (show ¬ (2 : ℕ) = 1 from by norm_num), if_neg hns, hs, mul_zero]

/-- Concrete instance of the normalization characterization at a 1×1
all-ones kernel, channel 0. -/
theorem normalize_kernel_channels_witness :
    0 < 3 ∧
      ((wtsum 1 1 (fun _ => (1 : ℝ)) 0 ≠ 0 →
        wtsum 1 1 (normalizeKernelF 1 1 (fun _ => (1 : ℝ))) 0 = 1) ∧
      (wtsum 1 1 (fun _ => (1 : ℝ)) 0 = 0 → ∀ p, p < 1 * 1 →
        normalizeKernelF 1 1 (fun _ => (1 : ℝ)) (p * 4 + 0) = 0)) :=
  ⟨by norm_num, normalize_kernel_channels 1 1 0 (fun _ => (1 : ℝ)) (by norm_num)⟩

/-- The kernel used to refute the original C4 wording: channel 0 holds
the values `1` and `-1`, summing to zero. -/
noncomputable def kerCex : ℕ → ℝ := fun q => if q = 0 then 1 else if q = 4 then -1 else 0

/-- A channel whose sum is exactly zero is not left unchanged: its entries
are multiplied by the zero weight, so the pixel value `1` becomes `0`. -/
theorem normalize_kernel_zero_sum_cex :
    wtsum 2 1 kerCex 0 = 0 ∧ normalizeKernelF 2 1 kerCex 0 = 0 ∧ kerCex 0 = 1 := by
  have h0 : wtsum 2 1 kerCex 0 = 0 := by
    simp [wtsum, List.range_succ, kerCex]
  refine ⟨h0, ?_, by simp [kerCex]⟩
  rw [normalizeKernelF_apply,
    if_pos (by norm_num : (0 : ℕ) / 4 < 1 * 2 ∧ (0 : ℕ) % 4 < 3),
    if_pos (by norm_num : (0 : ℕ) % 4 = 0), if_neg (by rw [h0]; simp), h0, mul_zero]

/-- Bounds-checked read of a float buffer. -/
def rd (l : List ℝ) (i : ℕ) : Option ℝ := l[i]?

/-- Bounds-checked write of a float buffer. -/
def wr (l : List ℝ) (i : ℕ) (v : ℝ) : Option (List ℝ) :=
  if i < l.length then some (l.set i v) else none

/-- An `Option`-valued fold whose steps succeed and preserve an invariant
succeeds and preserves the invariant. -/
lemma foldlM_some {σ : Type} (P : σ → Prop) (f : σ → ℕ → Option σ) :
    ∀ (l : List ℕ) (s : σ), P s →
      (∀ s' a, a ∈ l → P s' → ∃ s'', f s' a = some s'' ∧ P s'') →
      ∃ s'', l.foldlM f s = some s'' ∧ P s'' := by
  intro l
  induction l with
  | nil =>
    intro s hP _
    exact ⟨s, rfl, hP⟩
  | cons a l ih =>
    intro s hP hstep
    obtain ⟨s1, hf, hP1⟩ := hstep s a (List.mem_cons_self a l) hP
    obtain ⟨s2, hfold, hP2⟩ :=
      ih s1 hP1 (fun s' b hb => hstep s' b (List.mem_cons_of_mem a hb))
    refine ⟨s2, ?_, hP2⟩
    rw [List.foldlM_cons, hf]
    simpa using hfold

/-- Tile extraction of `convolve` (lines 333-348): zero the padded
per-tile buffer (`memset(data2, 0, ...)`), then copy the block's samples
of channel `ch`, skipping rows and columns that fall outside the image. -/
def extractTile (image : List ℝ) (W H ch w2 h2 xbsz ybsz xbl ybl : ℕ) :
    Option (List ℝ) :=
  (List.range ybsz).foldlM
    (fun d y =>
      if H ≤ ybl * ybsz + y then some d
      else (List.range xbsz).foldlM
        (fun d2 x =>
          if W ≤ xbl * xbsz + x then some d2
          else do
            let v ← rd image ((ybl * ybsz + y) * (W * 4) + (xbl * xbsz + x) * 4 + ch)
            wr d2 (y * w2 + x) v)
        d)
    (List.replicate (w2 * h2) (0 : ℝ))

/-- Overlap-add accumulation of `convolve` (lines 365-381): add the
tile's convolution result into the destination, skipping positions that
fall outside the image. -/
def overlapAdd (data2 rdst : List ℝ) (W H ch w2 h2 xbsz ybsz hw hh xbl ybl : ℕ) :
    Option (List ℝ) :=
  (List.range h2).foldlM
    (fun d y =>
      if ybl * ybsz + y < hh ∨ H ≤ ybl * ybsz + y - hh then some d
      else (List.range w2).foldlM
        (fun d2 x =>
          if xbl * xbsz + x < hw ∨ W ≤ xbl * xbsz + x - hw then some d2
          else do
            let v ← rd data2 (y * w2 + x)
            let cur ← rd d2
              ((ybl * ybsz + y - hh) * (W * 4) + (xbl * xbsz + x - hw) * 4 + ch)
            wr d2 ((ybl * ybsz + y - hh) * (W * 4) + (xbl * xbsz + x - hw) * 4 + ch)
              (cur + v))
        d)
    rdst

/-- C5: in every tile iteration of `convolve`, the padded per-tile buffer
starts from all zeros (the `memset`), every read of the source image during
tile extraction and every accumulation into the destination during
overlap-add uses in-bounds indices, and out-of-range positions are skipped:
both checked loops complete without any out-of-bounds access and preserve
the buffer sizes. -/
theorem tile_extraction_overlap_in_bounds
    (image data2 rdst : List ℝ) (W H ch w2 h2 xbsz ybsz hw hh xbl ybl : ℕ)
    (hch : ch < 4) (himg : image.length = 4 * W * H)
    (hxb : xbsz ≤ w2) (hyb : ybsz ≤ h2)
    (hd2 : data2.length = w2 * h2) (hrd : rdst.length = 4 * W * H) :
    (∃ d, extractTile image W H ch w2 h2 xbsz ybsz xbl ybl = some d ∧
      d.length = w2 * h2) ∧
    (∃ r, overlapAdd data2 rdst W H ch w2 h2 xbsz ybsz hw hh xbl ybl = some r ∧
      r.length = 4 * W * H) := by
  constructor
  · refine foldlM_some (fun d => d.length = w2 * h2) _ (List.range ybsz)
      (List.replicate (w2 * h2) (0 : ℝ)) (by simp) ?_
    intro d y hy hlen
    by_cases hskip : H ≤ ybl * ybsz + y
    · exact ⟨d, by rw [if_pos hskip], hlen⟩
    · have hy2 := List.mem_range.1 hy
      have hstepx : ∀ (d2 : List ℝ) (x : ℕ), x ∈ List.range xbsz →
          d2.length = w2 * h2 →
          ∃ d'', (if W ≤ xbl * xbsz + x then some d2
            else do
              let v ← rd image ((ybl * ybsz + y) * (W * 4) + (xbl * xbsz + x) * 4 + ch)
              wr d2 (y * w2 + x) v) = some d'' ∧ d''.length = w2 * h2 := by
        intro d2 x hx hlen2
        by_cases hskipx : W ≤ xbl * xbsz + x
        · exact ⟨d2, by rw [if_pos hskipx], hlen2⟩
        · have hx2 := List.mem_range.1 hx
          have hidx : (ybl * ybsz + y) * (W * 4) + (xbl * xbsz + x) * 4 + ch <
              image.length := by
            have b1 := mul_le_bridge (ybl * ybsz + y) H (W * 4) (by omega)
            have b2 := mul_le_bridge (xbl * xbsz + x) W 4 (by omega)
            have heq : H * (W * 4) = 4 * W * H := by ring
            omega
          have hwidx : y * w2 + x < d2.length := by
            have b1 := mul_le_bridge y h2 w2 (by omega)
            have heq : h2 * w2 = w2 * h2 := Nat.mul_comm h2 w2
            omega
          obtain ⟨v, hv⟩ : ∃ v, image[(ybl * ybsz + y) * (W * 4) +
              (xbl * xbsz + x) * 4 + ch]? = some v :=
            ⟨_, List.getElem?_eq_getElem hidx⟩
          refine ⟨d2.set (y * w2 + x) v, ?_, by rw [List.length_set]; exact hlen2⟩
          rw [if_neg hskipx]
          show (rd image _).bind (fun v => wr d2 (y * w2 + x) v) = _
          rw [show rd image ((ybl * ybsz + y) * (W * 4) + (xbl * xbsz + x) * 4 + ch)
              = some v from hv]
          show wr d2 (y * w2 + x) v = _
          rw [wr, if_pos hwidx]
      obtain ⟨d', hin, hlen'⟩ := foldlM_some (fun d2 => d2.length = w2 * h2) _
        (List.range xbsz) d hlen hstepx
      exact ⟨d', by rw [if_neg hskip]; exact hin, hlen'⟩
  · refine foldlM_some (fun r => r.length = 4 * W * H) _ (List.range h2)
      rdst hrd ?_
    intro r y hy hlen
    by_cases hskip : ybl * ybsz + y < hh ∨ H ≤ ybl * ybsz + y - hh
    · exact ⟨r, by rw [if_pos hskip], hlen⟩
    · have hy2 := List.mem_range.1 hy
      have hskip2 : hh ≤ ybl * ybsz + y ∧ ybl * ybsz + y - hh < H := by
        push_neg at hskip
        exact hskip
      have hstepx : ∀ (r2 : List ℝ) (x : ℕ), x ∈ List.range w2 →
          r2.length = 4 * W * H →
          ∃ r'', (if xbl * xbsz + x < hw ∨ W ≤ xbl * xbsz + x - hw then some r2
            else do
              let v ← rd data2 (y * w2 + x)
              let cur ← rd r2
                ((ybl * ybsz + y - hh) * (W * 4) + (xbl * xbsz + x - hw) * 4 + ch)
              wr r2 ((ybl * ybsz + y - hh) * (W * 4) + (xbl * xbsz + x - hw) * 4 + ch)
                (cur + v)) = some r'' ∧ r''.length = 4 * W * H := by
        intro r2 x hx hlen2
        by_cases hskipx : xbl * xbsz + x < hw ∨ W ≤ xbl * xbsz + x - hw
        · exact ⟨r2, by rw [if_pos hskipx], hlen2⟩
        · have hx2 := List.mem_range.1 hx
          have hskipx2 : hw ≤ xbl * xbsz + x ∧ xbl * xbsz + x - hw < W := by
            push_neg at hskipx
            exact hskipx
          have hidx2 : y * w2 + x < data2.length := by
            have b1 := mul_le_bridge y h2 w2 (by omega)
            have heq : h2 * w2 = w2 * h2 := Nat.mul_comm h2 w2
            omega
          have hidxr : (ybl * ybsz + y - hh) * (W * 4) +
              (xbl * xbsz + x - hw) * 4 + ch < r2.length := by
            have b1 := mul_le_bridge (ybl * ybsz + y - hh) H (W * 4) (by omega)
            have b2 := mul_le_bridge (xbl * xbsz + x - hw) W 4 (by omega)
            have heq : H * (W * 4) = 4 * W * H := by ring
            omega
          obtain ⟨v, hv⟩ : ∃ v, data2[y * w2 + x]? = some v :=
            ⟨_, List.getElem?_eq_getElem hidx2⟩
          obtain ⟨cur, hcur⟩ : ∃ c, r2[(ybl * ybsz + y - hh) * (W * 4) +
              (xbl * xbsz + x - hw) * 4 + ch]? = some c :=
            ⟨_, List.getElem?_eq_getElem hidxr⟩
          refine ⟨r2.set ((ybl * ybsz + y - hh) * (W * 4) +
              (xbl * xbsz + x - hw) * 4 + ch) (cur + v), ?_,
            by rw [List.length_set]; exact hlen2⟩
          rw [if_neg hskipx]
          show (rd data2 _).bind _ = _
          rw [show rd data2 (y * w2 + x) = some v from hv]
          show (rd r2 _).bind _ = _
          rw [show rd r2 ((ybl * ybsz + y - hh) * (W * 4) +
              (xbl * xbsz + x - hw) * 4 + ch) = some cur from hcur]
          show wr r2 _ (cur + v) = _
          rw [wr, if_pos hidxr]
      obtain ⟨r', hin, hlen'⟩ := foldlM_some (fun r2 => r2.length = 4 * W * H) _
        (List.range w2) r hlen hstepx
      exact ⟨r', by rw [if_neg hskip]; exact hin, hlen'⟩

/-- Concrete instance of the tile bounds theorem: a 1×1 image with a 4×4
padded tile. -/
theorem tile_extraction_overlap_in_bounds_witness :
    (∃ d, extractTile (List.replicate 4 (0 : ℝ)) 1 1 0 4 4 3 3 0 0 = some d ∧
      d.length = 4 * 4) ∧
    (∃ r, overlapAdd (List.replicate 16 (0 : ℝ)) (List.replicate 4 (0 : ℝ))
        1 1 0 4 4 3 3 1 1 0 0 = some r ∧ r.length = 4 * 1 * 1) :=
  tile_extraction_overlap_in_bounds (List.replicate 4 0) (List.replicate 16 0)
    (List.replicate 4 0) 1 1 0 4 4 3 3 1 1 0 0
    (by norm_num) (by simp) (by norm_num) (by norm_num) (by simp) (by simp)

/-- One butterfly stage of the checked `FHT` (body of the `do ... while`
loop, lines 58-100): the `k`-loop of plain butterflies, the `bl`-loop of
trig-weighted butterflies with the coefficient recurrence, and the
half-offset `k`-loop. All accesses are bounds-checked relative to the
row base `off`. -/
noncomputable def stagePassC (len off n : ℕ) (a : ℝ) (d : List ℝ) : Option (List ℝ) :=
  let istep := 2 * n
  ((List.range ((len + istep - 1) / istep)).foldlM (fun dd ki => do
      let k := ki * istep
      let t1 ← rd dd (off + n + k)
      let t0 ← rd dd (off + k)
      let d1 ← wr dd (off + n + k) (t0 - t1)
      wr d1 (off + k) (t0 + t1)) d).bind fun dA =>
  (if 2 < n then
    let dc := Real.cos a
    let ds := Real.sqrt (1 - dc * dc)
    ((List.range' 1 (n / 2 - 1) 1).foldlM
      (fun (st : ℝ × ℝ × ℕ × List ℝ) bl =>
        ((List.range ((len - bl + istep - 1) / istep)).foldlM (fun dd ki => do
            let k := bl + ki * istep
            let vn ← rd dd (off + n + k)
            let vnbd ← rd dd (off + n + st.2.2.1 + k)
            let v0 ← rd dd (off + k)
            let vbd ← rd dd (off + st.2.2.1 + k)
            let d1 ← wr dd (off + n + k) (v0 - (st.1 * vn + st.2.1 * vnbd))
            let d2 ← wr d1 (off + n + st.2.2.1 + k)
              (vbd - (st.2.1 * vn - st.1 * vnbd))
            let d3 ← wr d2 (off + k) (v0 + (st.1 * vn + st.2.1 * vnbd))
            wr d3 (off + st.2.2.1 + k) (vbd + (st.2.1 * vn - st.1 * vnbd)))
          st.2.2.2).map
          (fun dd => (st.1 * dc - st.2.1 * ds, st.2.1 * dc + st.1 * ds,
            st.2.2.1 - 2, dd)))
      (dc, ds, n - 2, dA)).map (fun (st : ℝ × ℝ × ℕ × List ℝ) => st.2.2.2)
  else some dA).bind fun dB =>
  if 1 < n then
    (List.range ((len - n / 2 + istep - 1) / istep)).foldlM (fun dd ki => do
      let k := n / 2 + ki * istep
      let t1 ← rd dd (off + n + k)
      let t0 ← rd dd (off + k)
      let d1 ← wr dd (off + n + k) (t0 - t1)
      wr d1 (off + k) (t0 + t1)) dB
  else some dB

/-- The stage iteration of the checked `FHT` (`n` doubles and the angle
halves until `n` reaches the length); the fuel argument bounds the
number of stages and always suffices when it exceeds `len`. -/
noncomputable def stageLoopC (len off : ℕ) : ℕ → ℕ → ℝ → List ℝ → Option (List ℝ)
  | 0, _, _, _ => none
  | fuel + 1, n, a, d =>
    (stagePassC len off n a d).bind (fun d1 =>
      if 0 < n ∧ 2 * n < len then stageLoopC len off fuel (2 * n) (a / 2) d1
      else some d1)

/-- Bounds-checked in-place FHT of the `2^M` samples starting at `off`
(lines 42-110): bit-reversal permutation, butterfly stages, and the
`1/len` scaling in inverse mode. -/
noncomputable def FHTc (d : List ℝ) (off M : ℕ) (inverse : Bool) : Option (List ℝ) :=
  let len := 2 ^ M
  let Nh := len / 2
  ((List.range' 1 (len - 2) 1).foldlM
    (fun (st : ℕ × List ℝ) i =>
      let j := revbin_upd st.1 Nh
      if j > i then do
        let t1 ← rd st.2 (off + i)
        let t2 ← rd st.2 (off + j)
        let d1 ← wr st.2 (off + i) t2
        let d2 ← wr d1 (off + j) t1
        some (j, d2)
      else some (j, st.2)) ((0 : ℕ), d)).bind fun jd =>
  (stageLoopC len off (len + 1) 1 Real.pi jd.2).bind fun d2 =>
  if inverse then
    (List.range len).foldlM (fun dd k => do
      let v ← rd dd (off + k)
      wr dd (off + k) (v * (1 / (len : ℝ)))) d2
  else some d2

/-- The index remap `PRED` of the rectangular in-place transpose
(line 141): `((k & (Ny-1)) << Mx) + (k >> My)`. -/
def predT (Nym Mx My k : ℕ) : ℕ := ((k &&& Nym) <<< Mx) + (k >>> My)

/-- The leader-test walk `for (j = PRED(i); j > i; j = PRED(j))` of the
rectangular transpose, with fuel bounding the cycle length. -/
def predWalk (Nym Mx My i : ℕ) : ℕ → ℕ → Option ℕ
  | 0, _ => none
  | fuel + 1, j => if j > i then predWalk Nym Mx My i fuel (predT Nym Mx My j) else some j

/-- The swap walk `for (k = i, j = PRED(i); j != i; k = j, j = PRED(j), stm--)`
of the rectangular transpose, returning the buffer and remaining `stm`. -/
def cycleSwap (Nym Mx My base i : ℕ) :
    ℕ → ℕ → ℕ → ℕ → List ℝ → Option (List ℝ × ℕ)
  | 0, _, _, _, _ => none
  | fuel + 1, k, j, stm, d =>
    if j ≠ i then do
      let t1 ← rd d (base + j)
      let t2 ← rd d (base + k)
      let d1 ← wr d (base + j) t2
      let d2 ← wr d1 (base + k) t1
      cycleSwap Nym Mx My base i fuel j (predT Nym Mx My j) (stm - 1) d2
    else some (d, stm)

/-- The outer loop `for (i = 0; stm > 0; i++)` of the rectangular
transpose (lines 138-154), with fuel bounding the iteration count. -/
def rectLoop (Nym Mx My base : ℕ) : ℕ → ℕ → ℕ → List ℝ → Option (List ℝ)
  | 0, _, _, _ => none
  | fuel + 1, i, stm, d =>
    if stm = 0 then some d
    else
      (predWalk Nym Mx My i (2 ^ (Mx + My) + 1) (predT Nym Mx My i)).bind fun j =>
      if j < i then rectLoop Nym Mx My base fuel (i + 1) stm d
      else
        (cycleSwap Nym Mx My base i (2 ^ (Mx + My) + 1) i (predT Nym Mx My i) stm
          d).bind fun ds => rectLoop Nym Mx My base fuel (i + 1) (ds.2 - 1) ds.1

/-- Bounds-checked `FHT2D` (lines 115-182) on the `2^Mx × 2^My` grid at
`base`: row transforms (skipping zero padding in forward mode), in-place
transpose (direct swaps when square, cycle-following when rectangular),
column transforms, and the finalize pass. -/
noncomputable def FHT2Dc (d : List ℝ) (base Mx My nzp : ℕ) (inverse : Bool) :
    Option (List ℝ) :=
  let Nx := 2 ^ Mx
  let Ny := 2 ^ My
  let maxy := if inverse then Ny else nzp
  ((List.range maxy).foldlM (fun dd j => FHTc dd (base + Nx * j) Mx inverse) d).bind
    fun dRows =>
  (if Nx = Ny then
    (List.range Ny).foldlM (fun dd j =>
      (List.range' (j + 1) (Nx - (j + 1)) 1).foldlM (fun dd2 i => do
        let t1 ← rd dd2 (base + (i + (j <<< Mx)))
        let t2 ← rd dd2 (base + (j + (i <<< My)))
        let d1 ← wr dd2 (base + (i + (j <<< Mx))) t2
        wr d1 (base + (j + (i <<< My))) t1) dd) dRows
  else
    rectLoop (Ny - 1) Mx My base (2 ^ (Mx + My) + 1) 0 (2 ^ (Mx + My)) dRows).bind
    fun dT =>
  ((List.range Nx).foldlM (fun dd j => FHTc dd (base + Ny * j) My inverse) dT).bind
    fun dCols =>
  (List.range (Nx / 2 + 1)).foldlM (fun dd j =>
    let jm := (Nx - j) &&& (Nx - 1)
    let ji := j <<< My
    let jmi := jm <<< My
    (List.range (Ny / 2 + 1)).foldlM (fun dd2 i =>
      let im := (Ny - i) &&& (Ny - 1)
      do
        let A ← rd dd2 (base + (ji + i))
        let B ← rd dd2 (base + (jmi + i))
        let C ← rd dd2 (base + (ji + im))
        let D ← rd dd2 (base + (jmi + im))
        let E := (1 / 2 : ℝ) * ((A + D) - (B + C))
        let d1 ← wr dd2 (base + (ji + i)) (A - E)
        let d2 ← wr d1 (base + (jmi + i)) (B + E)
        let d3 ← wr d2 (base + (ji + im)) (C + E)
        wr d3 (base + (jmi + im)) (D - E)) dd) dCols

/-- Bounds-checked `fht_convolve` (lines 187-239): `d1 *= d2` in the
Hartley domain, with `d2` read at offset `base2` of its backing buffer. -/
noncomputable def fht_convolvec (d1 d2buf : List ℝ) (base2 M N : ℕ) :
    Option (List ℝ) :=
  let m := 2 ^ M
  let n := 2 ^ N
  let m2 := 2 ^ (M - 1)
  let n2 := 2 ^ (N - 1)
  let mn2 := m <<< (N - 1)
  (do
    let a0 ← rd d1 0
    let c0 ← rd d2buf (base2 + 0)
    let dA ← wr d1 0 (a0 * c0)
    let a1 ← rd dA mn2
    let c1 ← rd d2buf (base2 + mn2)
    let dB ← wr dA mn2 (a1 * c1)
    let a2 ← rd dB m2
    let c2 ← rd d2buf (base2 + m2)
    let dC ← wr dB m2 (a2 * c2)
    let a3 ← rd dC (m2 + mn2)
    let c3 ← rd d2buf (base2 + m2 + mn2)
    wr dC (m2 + mn2) (a3 * c3)).bind fun dD =>
  ((List.range' 1 (m2 - 1) 1).foldlM (fun dd i => do
      let k := m - i
      let x1 ← rd dd i
      let y1 ← rd d2buf (base2 + i)
      let xk ← rd dd k
      let yk ← rd d2buf (base2 + k)
      let a := x1 * y1 - xk * yk
      let b := xk * y1 + x1 * yk
      let e1 ← wr dd i ((b + a) * (1 / 2))
      let e2 ← wr e1 k ((b - a) * (1 / 2))
      let x2 ← rd e2 (i + mn2)
      let y2 ← rd d2buf (base2 + i + mn2)
      let xk2 ← rd e2 (k + mn2)
      let yk2 ← rd d2buf (base2 + k + mn2)
      let a2 := x2 * y2 - xk2 * yk2
      let b2 := xk2 * y2 + x2 * yk2
      let e3 ← wr e2 (i + mn2) ((b2 + a2) * (1 / 2))
      wr e3 (k + mn2) ((b2 - a2) * (1 / 2))) dD).bind fun dE =>
  ((List.range' 1 (n2 - 1) 1).foldlM (fun dd j => do
      let mj := j <<< M
      let mL := (n - j) <<< M
      let x1 ← rd dd mj
      let y1 ← rd d2buf (base2 + mj)
      let xk ← rd dd mL
      let yk ← rd d2buf (base2 + mL)
      let a := x1 * y1 - xk * yk
      let b := xk * y1 + x1 * yk
      let e1 ← wr dd mj ((b + a) * (1 / 2))
      let e2 ← wr e1 mL ((b - a) * (1 / 2))
      let x2 ← rd e2 (m2 + mj)
      let y2 ← rd d2buf (base2 + m2 + mj)
      let xk2 ← rd e2 (m2 + mL)
      let yk2 ← rd d2buf (base2 + m2 + mL)
      let a2 := x2 * y2 - xk2 * yk2
      let b2 := xk2 * y2 + x2 * yk2
      let e3 ← wr e2 (m2 + mj) ((b2 + a2) * (1 / 2))
      wr e3 (m2 + mL) ((b2 - a2) * (1 / 2))) dE).bind fun dF =>
  (List.range' 1 (m2 - 1) 1).foldlM (fun dd i =>
    (List.range' 1 (n2 - 1) 1).foldlM (fun dd2 j => do
      let k := m - i
      let mj := j <<< M
      let mL := (n - j) <<< M
      let x1 ← rd dd2 (i + mj)
      let y1 ← rd d2buf (base2 + i + mj)
      let xk ← rd dd2 (k + mL)
      let yk ← rd d2buf (base2 + k + mL)
      let a := x1 * y1 - xk * yk
      let b := xk * y1 + x1 * yk
      let e1 ← wr dd2 (i + mj) ((b + a) * (1 / 2))
      let e2 ← wr e1 (k + mL) ((b - a) * (1 / 2))
      let x2 ← rd e2 (i + mL)
      let y2 ← rd d2buf (base2 + i + mL)
      let xk2 ← rd e2 (k + mj)
      let yk2 ← rd d2buf (base2 + k + mj)
      let a2 := x2 * y2 - xk2 * yk2
      let b2 := xk2 * y2 + x2 * yk2
      let e3 ← wr e2 (i + mL) ((b2 + a2) * (1 / 2))
      wr e3 (k + mj) ((b2 - a2) * (1 / 2))) dd) dF

/-- Bounds-checked kernel normalization (lines 273-296): sum the three
color channels, take reciprocals of the nonzero sums, then scale every
kernel pixel in place. -/
noncomputable def normalizeKernelC (kw kh : ℕ) (ker : List ℝ) : Option (List ℝ) :=
  ((List.range kh).foldlM (fun (wt : ℝ × ℝ × ℝ) y =>
    (List.range kw).foldlM (fun (wt2 : ℝ × ℝ × ℝ) x => do
      let r0 ← rd ker ((y * kw + x) * 4)
      let r1 ← rd ker ((y * kw + x) * 4 + 1)
      let r2 ← rd ker ((y * kw + x) * 4 + 2)
      some (wt2.1 + r0, wt2.2.1 + r1, wt2.2.2 + r2)) wt)
    ((0 : ℝ), (0 : ℝ), (0 : ℝ))).bind fun wt =>
  let w0 := if wt.1 ≠ 0 then 1 / wt.1 else wt.1
  let w1 := if wt.2.1 ≠ 0 then 1 / wt.2.1 else wt.2.1
  let w2 := if wt.2.2 ≠ 0 then 1 / wt.2.2 else wt.2.2
  (List.range kh).foldlM (fun dd y =>
    (List.range kw).foldlM (fun dd2 x => do
      let v0 ← rd dd2 ((y * kw + x) * 4)
      let e0 ← wr dd2 ((y * kw + x) * 4) (v0 * w0)
      let v1 ← rd e0 ((y * kw + x) * 4 + 1)
      let e1 ← wr e0 ((y * kw + x) * 4 + 1) (v1 * w1)
      let v2 ← rd e1 ((y * kw + x) * 4 + 2)
      wr e1 ((y * kw + x) * 4 + 2) (v2 * w2)) dd) ker

/-- Copy of channel `ch` of the kernel into the `data1` channel plane
(lines 322-330). -/
def kernelToData1 (ker d1 : List ℝ) (ch kw kh w2 h2 : ℕ) : Option (List ℝ) :=
  (List.range kh).foldlM (fun dd y =>
    (List.range kw).foldlM (fun dd2 x => do
      let v ← rd ker ((y * kw + x) * 4 + ch)
      wr dd2 (ch * w2 * h2 + y * w2 + x) v) dd) d1

/-- Bounds-checked `convolve` (lines 242-390): zeroed result buffer,
padded FFT sizes from `next_pow2`, in-place kernel normalization, then
the tiled FHT convolution with overlap-add, returning the destination
buffer (the final `memcpy`) and the kernel buffer as left by the core.
A division by zero in the block-count computation also yields `none`. -/
noncomputable def convolveChecked (W H kw kh : ℕ) (image kernel : List ℝ) :
    Option (List ℝ × List ℝ) :=
  let rdst0 := List.replicate (W * H * 4) (0 : ℝ)
  let w2a := (2 * kw + UINT_LIMIT - 1) % UINT_LIMIT
  let h2a := (2 * kh + UINT_LIMIT - 1) % UINT_LIMIT
  let w2 := (next_pow2 w2a).1
  let log2_w := (next_pow2 w2a).2
  let h2 := (next_pow2 h2a).1
  let log2_h := (next_pow2 h2a).2
  let data1 := List.replicate (3 * w2 * h2) (0 : ℝ)
  (normalizeKernelC kw kh kernel).bind fun kernel2 =>
  let hw := kw / 2
  let hh := kh / 2
  let xbsz := w2 + 1 - kw
  let ybsz := h2 + 1 - kh
  if xbsz = 0 ∨ ybsz = 0 then none
  else
    let nxb := W / xbsz + (if W % xbsz ≠ 0 then 1 else 0)
    let nyb := H / ybsz + (if H % ybsz ≠ 0 then 1 else 0)
    ((List.range nyb).foldlM (fun (st : List ℝ × List ℝ × Bool) ybl =>
      (List.range nxb).foldlM (fun st2 xbl =>
        ((List.range 3).foldlM (fun (st3 : List ℝ × List ℝ × Bool) ch => do
          let d1a ← if st3.2.2 then some st3.1
            else kernelToData1 kernel2 st3.1 ch kw kh w2 h2
          let dat2 ← extractTile image W H ch w2 h2 xbsz ybsz xbl ybl
          let d1b ← if st3.2.2 then some d1a
            else FHT2Dc d1a (ch * w2 * h2) log2_w log2_h (kh + 1) false
          let dat2b ← FHT2Dc dat2 0 log2_w log2_h (kh + 1) false
          let dat2c ← fht_convolvec dat2b d1b (ch * w2 * h2) log2_h log2_w
          let dat2d ← FHT2Dc dat2c 0 log2_h log2_w 0 true
          let rdst2 ← overlapAdd dat2d st3.2.1 W H ch w2 h2 xbsz ybsz hw hh xbl ybl
          some (d1b, rdst2, st3.2.2)) st2).map
          (fun (st3 : List ℝ × List ℝ × Bool) => (st3.1, st3.2.1, true))) st)
      (data1, rdst0, false)).bind fun st =>
    some (st.2.1, kernel2)

lemma next_pow2_one : next_pow2 1 = (1, 0) := by
  have hl : l2loop 1 0 = 0 := by
    rw [l2loop]
    norm_num
  simp [next_pow2, hl, UINT_LIMIT]

lemma w2a_one : (2 * 1 + UINT_LIMIT - 1) % UINT_LIMIT = 1 := by
  rw [UINT_LIMIT]
  norm_num

/-- C1 (refuted): convolving with a 1×1 all-ones kernel does not write
the source image through unchanged: the padded transform size degenerates
to `1 × 1` and the very first in-place `FHT` of the tile buffer reads
`data[1]` of the length-1 scratch buffer, an out-of-bounds access, so the
bounds-checked model of `convolve` faults. -/
theorem convolve_one_by_one_kernel_oob :
    convolveChecked 1 1 1 1 [(1 : ℝ), 1, 1, 1] [(1 : ℝ), 1, 1, 1] = none := by
  obtain ⟨a, b, c, e, hk⟩ : ∃ a b c e,
      normalizeKernelC 1 1 [(1 : ℝ), 1, 1, 1] = some [a, b, c, e] :=
    ⟨_, _, _, _, rfl⟩
  simp only [convolveChecked]
  rw [hk, w2a_one, next_pow2_one]
  rfl
